import Mathlib

/-
  Verification of the NexusBom BOM engine core against its specification.

  Shallow embedding notes:
  - rust_decimal::Decimal is modelled as Rat: the spec stipulates exact decimal
    arithmetic with no rounding, and every arithmetic operation appearing in the
    modelled code (addition, multiplication) is exact on decimals that fit.
  - HashMap / HashSet are modelled as association lists / membership lists; the
    modelled results never depend on iteration order of maps except for list
    orders that no claim observes.
  - Vec-backed arenas are modelled as Lists indexed by Nat; NodeIndex and
    EdgeIndex newtypes are modelled as plain Nat indices.
  - The recursive and worklist algorithms carry an explicit fuel argument; the
    wrappers instantiate the fuel with a bound proved sufficient for well-formed
    arenas, so that the model computes exactly what the source loops compute.
  - Wall-clock fields (calculated_at, queried_at) and fields never read by any
    modelled operation (descriptions, uuids, effectivity dates, alternative
    groups, reference designators) are omitted from the embedded records.
-/

namespace NexusBom

/-- Decimal is modelled as the exact rationals. -/
abbrev Decimal := Rat

/-- bom-core models.rs: BomItem.  Fields never read by the modelled operations
(uuid id, operation_sequence, effectivity dates, alternative group data,
reference designator, position, notes) are omitted. -/
structure BomItem where
  parent_id : String
  child_id : String
  quantity : Decimal
  scrap_factor : Decimal
  sequence : Nat
  is_phantom : Bool
  version : Nat
deriving DecidableEq

/-- bom-core models.rs: BomItem::effective_quantity. -/
def BomItem.effective_quantity (b : BomItem) : Decimal :=
  b.quantity * (1 + b.scrap_factor)

/-- bom-core models.rs: Component (only the fields the modelled operations
read: the id and the standard cost). -/
structure Component where
  id : String
  standard_cost : Option Decimal
deriving DecidableEq

/-- bom-core error.rs: BomError (the variants produced by the modelled
operations). -/
inductive BomError where
  | CircularDependency : String → BomError
  | ComponentNotFound : String → BomError
  | CalculationError : String → BomError
deriving DecidableEq

/-- bom-core models.rs: CostBreakdown (calculated_at omitted). -/
structure CostBreakdown where
  component_id : String
  material_cost : Decimal
  labor_cost : Decimal
  overhead_cost : Decimal
  subcontract_cost : Decimal
  total_cost : Decimal
deriving DecidableEq

/-- bom-core models.rs: ExplosionItem. -/
structure ExplosionItem where
  component_id : String
  total_quantity : Decimal
  level : Nat
  paths : List (List String)
  is_phantom : Bool
deriving DecidableEq

/-- bom-core models.rs: ExplosionResult (calculated_at omitted). -/
structure ExplosionResult where
  root_component : String
  items : List ExplosionItem
  unique_component_count : Nat
  max_depth : Nat
deriving DecidableEq

/-- bom-core models.rs: WhereUsedItem. -/
structure WhereUsedItem where
  parent_id : String
  quantity : Decimal
  level : Nat
  paths : List (List String)
deriving DecidableEq

/-- bom-core models.rs: WhereUsedResult (queried_at omitted). -/
structure WhereUsedResult where
  component : String
  used_in : List WhereUsedItem
deriving DecidableEq

/-! Association-list helpers standing in for HashMap. -/

/-- HashMap lookup, modelled on an association list. -/
def lookupA {α β : Type} [DecidableEq α] : List (α × β) → α → Option β
  | [], _ => none
  | (k, v) :: rest, key => if k = key then some v else lookupA rest key

/-- HashMap insert (overwrite an existing key or add a new binding). -/
def upsertA {α β : Type} [DecidableEq α] : List (α × β) → α → β → List (α × β)
  | [], key, v => [(key, v)]
  | (k, w) :: rest, key, v =>
    if k = key then (k, v) :: rest else (k, w) :: upsertA rest key v

/-- entry(k).or_insert(0) += v on a decimal-valued HashMap. -/
def addToA {α : Type} [DecidableEq α] : List (α × Decimal) → α → Decimal → List (α × Decimal)
  | [], key, v => [(key, v)]
  | (k, w) :: rest, key, v =>
    if k = key then (k, w + v) :: rest else (k, w) :: addToA rest key v

/-- entry(k).or_insert_with(Vec::new).extend(ps) on a list-valued HashMap. -/
def appendPathsA {α β : Type} [DecidableEq α] :
    List (α × List β) → α → List β → List (α × List β)
  | [], key, ps => [(key, ps)]
  | (k, w) :: rest, key, ps =>
    if k = key then (k, w ++ ps) :: rest else (k, w) :: appendPathsA rest key ps

/-- HashMap::extend: insert every binding of the second map into the first. -/
def extendA {α β : Type} [DecidableEq α] (m : List (α × β)) (l : List (α × β)) :
    List (α × β) :=
  l.foldl (fun acc kv => upsertA acc kv.1 kv.2) m

/-- The keys of an association list. -/
def keysA {α β : Type} (m : List (α × β)) : List α := m.map (fun kv => kv.1)

/-- max() over a list, as the source uses Iterator::max on levels. -/
def natMaxL : List Nat → Option Nat
  | [] => none
  | x :: xs =>
    match natMaxL xs with
    | none => some x
    | some m => some (Nat.max x m)

/-! The arena (bom-graph arena.rs). -/

/-- arena.rs: NodeCache. -/
structure NodeCache where
  total_material_cost : Option Decimal
  explosion_quantity : Option Decimal
  level : Option Nat
deriving DecidableEq

/-- arena.rs: the default NodeCache (all fields empty). -/
def NodeCache.empty : NodeCache := ⟨none, none, none⟩

/-- arena.rs: Node.  incoming and outgoing hold edge indices. -/
structure Node where
  component_id : String
  incoming : List Nat
  outgoing : List Nat
  cache : NodeCache
  dirty : Bool
  version : Nat
deriving DecidableEq

/-- arena.rs: Edge. -/
structure Edge where
  source : Nat
  target : Nat
  bom_item : BomItem
  effective_quantity : Decimal
deriving DecidableEq

/-- arena.rs: Arena.  component_index is the HashMap from component id to node
index, modelled as an association list. -/
structure Arena where
  nodes : List Node
  edges : List Edge
  component_index : List (String × Nat)
  free_nodes : List Nat
  free_edges : List Nat
deriving DecidableEq

/-- The empty arena (Arena::new). -/
def Arena.new : Arena := ⟨[], [], [], [], []⟩

/-- arena.rs: Arena::add_node.  Returns the node index together with the
updated arena (the Rust method mutates self and returns the index). -/
def Arena.add_node (a : Arena) (component_id : String) : Nat × Arena :=
  match lookupA a.component_index component_id with
  | some idx => (idx, a)
  | none =>
    let nd : Node := ⟨component_id, [], [], NodeCache.empty, true, 0⟩
    match a.free_nodes with
    | fidx :: fs =>
      (fidx, { a with nodes := a.nodes.set fidx nd,
                      free_nodes := fs,
                      component_index := upsertA a.component_index component_id fidx })
    | [] =>
      let idx := a.nodes.length
      (idx, { a with nodes := a.nodes ++ [nd],
                     component_index := upsertA a.component_index component_id idx })

/-- Replace node i by f applied to it; identity when the index is out of range
(the Rust code only ever touches live indices, where Vec indexing succeeds). -/
def Arena.modifyNode (a : Arena) (i : Nat) (f : Node → Node) : Arena :=
  match a.nodes[i]? with
  | some nd => { a with nodes := a.nodes.set i (f nd) }
  | none => a

/-- arena.rs: Arena::find_node. -/
def Arena.find_node (a : Arena) (component_id : String) : Option Nat :=
  lookupA a.component_index component_id

/-- arena.rs: Arena::children - iterate the outgoing edge indices of a node,
yielding target plus edge. -/
def Arena.children (a : Arena) (n : Nat) : List (Nat × Edge) :=
  match a.nodes[n]? with
  | none => []
  | some nd => nd.outgoing.filterMap (fun ei => (a.edges[ei]?).map (fun e => (e.target, e)))

/-- arena.rs: Arena::parents - iterate the incoming edge indices of a node,
yielding source plus edge. -/
def Arena.parents (a : Arena) (n : Nat) : List (Nat × Edge) :=
  match a.nodes[n]? with
  | none => []
  | some nd => nd.incoming.filterMap (fun ei => (a.edges[ei]?).map (fun e => (e.source, e)))

/-- One more than the total length of all incoming adjacency lists: an upper
bound on the fuel mark_dirty_recursive can consume, since every clean node is
marked at most once and its incoming list is walked at most once. -/
def Arena.inSum (a : Arena) : Nat :=
  (a.nodes.map (fun nd => nd.incoming.length + 1)).sum

/-- One more than the total length of all outgoing adjacency lists: an upper
bound on the fuel a descending DFS can consume. -/
def Arena.outSum (a : Arena) : Nat :=
  (a.nodes.map (fun nd => nd.outgoing.length + 1)).sum

mutual

/-- arena.rs: Arena::mark_dirty_recursive, with explicit fuel (consumed once
per call, including the steps of the loop over the incoming list).  The
wrapper fuel inSum + 1 is proved sufficient below. -/
def markDirtyRecFuel : Nat → Arena → Nat → Arena
  | 0, a, _ => a
  | fuel+1, a, n =>
    match a.nodes[n]? with
    | none => a
    | some nd =>
      if nd.dirty then a
      else
        let a1 := { a with nodes := a.nodes.set n { nd with dirty := true, version := nd.version + 1 } }
        markDirtyIncoming fuel a1 nd.incoming
termination_by structural fuel _ _ => fuel

/-- The loop over the (pre-collected) incoming edge list inside
mark_dirty_recursive, recursing into each edge source. -/
def markDirtyIncoming : Nat → Arena → List Nat → Arena
  | _, a, [] => a
  | 0, a, _ :: _ => a
  | fuel+1, a, ei :: rest =>
    match a.edges[ei]? with
    | none => markDirtyIncoming fuel a rest
    | some e => markDirtyIncoming fuel (markDirtyRecFuel fuel a e.source) rest
termination_by structural fuel _ _ => fuel

end

/-- arena.rs: Arena::mark_dirty_recursive at the sufficient fuel. -/
def Arena.mark_dirty_recursive (a : Arena) (n : Nat) : Arena :=
  markDirtyRecFuel (a.inSum + 1) a n

/-- arena.rs: Arena::clear_dirty_flags. -/
def Arena.clear_dirty_flags (a : Arena) : Arena :=
  { a with nodes := a.nodes.map (fun nd => { nd with dirty := false }) }

/-- arena.rs: Arena::add_edge.  Computes the effective quantity, stores the
edge, pushes it onto both adjacency lists and marks the parent dirty. -/
def Arena.add_edge (a : Arena) (parent child : Nat) (bom_item : BomItem) : Nat × Arena :=
  let effective_quantity := bom_item.effective_quantity
  let e : Edge := ⟨parent, child, bom_item, effective_quantity⟩
  let (edge_idx, a1) :=
    match a.free_edges with
    | fidx :: fs => (fidx, { a with edges := a.edges.set fidx e, free_edges := fs })
    | [] => (a.edges.length, { a with edges := a.edges ++ [e] })
  let a2 := a1.modifyNode parent (fun nd => { nd with outgoing := nd.outgoing ++ [edge_idx] })
  let a3 := a2.modifyNode child (fun nd => { nd with incoming := nd.incoming ++ [edge_idx] })
  (edge_idx, a3.mark_dirty_recursive parent)

/-- arena.rs: Arena::has_path - iterative DFS over a stack with a visited
vector.  The list models the Vec stack with its head as the top, so the
children pushed by the source loop appear reversed at the head. -/
def hasPathFuel (a : Arena) (target : Nat) : Nat → List Nat → List Bool → Bool
  | 0, _, _ => false
  | fuel+1, stack, visited =>
    match stack with
    | [] => false
    | current :: rest =>
      if current = target then true
      else if visited.getD current false then hasPathFuel a target fuel rest visited
      else
        let visited' := visited.set current true
        let pushes := ((a.children current).map (fun ce => ce.1)).filter
          (fun c => !(visited'.getD c false))
        hasPathFuel a target fuel (pushes.reverse ++ rest) visited'

/-- arena.rs: Arena::has_path at a sufficient fuel. -/
def Arena.has_path (a : Arena) (source target : Nat) : Bool :=
  hasPathFuel a target (a.outSum + 2) [source] (List.replicate a.nodes.length false)

/-- arena.rs: Arena::node_count. -/
def Arena.node_count (a : Arena) : Nat := a.nodes.length - a.free_nodes.length

/-- arena.rs: Arena::edge_count. -/
def Arena.edge_count (a : Arena) : Nat := a.edges.length - a.free_edges.length

/-! The graph builder (bom-graph graph.rs). -/

/-- graph.rs: BomGraph. -/
structure BomGraph where
  arena : Arena
  roots : List Nat
deriving DecidableEq

/-- graph.rs: BomGraph::new. -/
def BomGraph.new : BomGraph := ⟨Arena.new, []⟩

/-- graph.rs: BomGraph::find_node. -/
def BomGraph.find_node (g : BomGraph) (component_id : String) : Option Nat :=
  g.arena.find_node component_id

/-- graph.rs: BomGraph::add_bom_item.  Creates or fetches both nodes, rejects
self references and closing paths with CircularDependency, otherwise inserts
the edge.  The Rust method mutates the graph even on failure (the two nodes
stay inserted), so the model returns the updated graph alongside the result. -/
def BomGraph.add_bom_item (g : BomGraph) (item : BomItem) :
    Except BomError Nat × BomGraph :=
  let pa := g.arena.add_node item.parent_id
  let parent_node := pa.1
  let ca := pa.2.add_node item.child_id
  let child_node := ca.1
  let a2 := ca.2
  if parent_node = child_node then
    (.error (.CircularDependency ("Self-reference detected: " ++ item.parent_id)),
     { g with arena := a2 })
  else if a2.has_path child_node parent_node then
    (.error (.CircularDependency ("Circular dependency: " ++ item.parent_id ++ " -> "
        ++ item.child_id ++ " would create a cycle")),
     { g with arena := a2 })
  else
    (.ok parent_node, { g with arena := (a2.add_edge parent_node child_node item).2 })

/-- graph.rs: BomGraph::identify_roots - nodes with no incoming edges. -/
def BomGraph.identify_roots (g : BomGraph) : BomGraph :=
  let rs := (List.range g.arena.nodes.length).filter
    (fun i => match g.arena.nodes[i]? with
              | some nd => nd.incoming.isEmpty
              | none => false)
  { g with roots := rs }

/-- graph.rs: BomGraph::mark_dirty. -/
def BomGraph.mark_dirty (g : BomGraph) (component_id : String) :
    Except BomError Unit × BomGraph :=
  match g.find_node component_id with
  | none => (.error (.ComponentNotFound component_id), g)
  | some node => (.ok (), { g with arena := g.arena.mark_dirty_recursive node })

/-- Folding a list of items through add_bom_item, keeping the (possibly
node-extended) graph when an insertion fails. -/
def applyBomItems (g : BomGraph) (items : List BomItem) : BomGraph :=
  items.foldl (fun g item => (g.add_bom_item item).2) g

/-! The cycle detector (bom-graph cycle.rs). -/

mutual

/-- cycle.rs: CycleDetector::dfs_cycle, with fuel consumed once per call,
including the steps of the loop over the children.  Returns the found flag and
the updated visited set.  The Rust rec_stack is pushed on entry and popped
before a false return, so it is threaded as the current path. -/
def dfsCycleFuel : Nat → Arena → Nat → List Nat → List Nat → Bool × List Nat
  | 0, _, _, visited, _ => (true, visited)
  | fuel+1, a, n, visited, stk =>
    dfsCycleKids fuel a (a.children n) (n :: visited) (n :: stk)
termination_by structural fuel _ _ _ _ => fuel

/-- The loop over the children inside dfs_cycle: recurse into unvisited
children, report a back edge when a child is on the current path. -/
def dfsCycleKids : Nat → Arena → List (Nat × Edge) → List Nat → List Nat → Bool × List Nat
  | _, _, [], visited, _ => (false, visited)
  | 0, _, _ :: _, visited, _ => (true, visited)
  | fuel+1, a, (c, _) :: rest, visited, stk =>
    if c ∉ visited then
      match dfsCycleFuel fuel a c visited stk with
      | (true, v') => (true, v')
      | (false, v') => dfsCycleKids fuel a rest v' stk
    else if c ∈ stk then (true, visited)
    else dfsCycleKids fuel a rest visited stk
termination_by structural fuel _ _ _ _ => fuel

end

/-- cycle.rs: CycleDetector::has_cycle - the outer loop over every node index,
sharing the visited set across the DFS calls. -/
def hasCycleLoop (a : Arena) : List Nat → List Nat → Bool
  | [], _ => false
  | n :: ns, visited =>
    if n ∉ visited then
      match dfsCycleFuel (a.outSum + 1) a n visited [] with
      | (true, _) => true
      | (false, v') => hasCycleLoop a ns v'
    else hasCycleLoop a ns visited

/-- cycle.rs: CycleDetector::has_cycle. -/
def Arena.has_cycle (a : Arena) : Bool :=
  hasCycleLoop a (List.range a.nodes.length) []

/-- cycle.rs: CycleDetector::would_create_cycle. -/
def Arena.would_create_cycle (a : Arena) (f t : Nat) : Bool :=
  a.has_path t f

/-! The traversal kernel (bom-graph traversal.rs). -/

/-- traversal.rs: the reachable-set collection at the top of topological_sort:
worklist DFS inserting every popped node into the set.  The set is modelled as
a list with fresh nodes consed on. -/
def collectReachFuel (a : Arena) : Nat → List Nat → List Nat → List Nat
  | 0, _, reach => reach
  | fuel+1, stack, reach =>
    match stack with
    | [] => reach
    | node :: rest =>
      if node ∈ reach then collectReachFuel a fuel rest reach
      else
        let reach' := node :: reach
        let pushes := ((a.children node).map (fun ce => ce.1)).filter
          (fun c => decide (c ∉ reach'))
        collectReachFuel a fuel (pushes.reverse ++ rest) reach'

/-- The reachable set of traversal.rs topological_sort at a sufficient fuel. -/
def Arena.reachableFrom (a : Arena) (roots : List Nat) : List Nat :=
  collectReachFuel a (roots.length + a.outSum + 1) roots []

/-- traversal.rs: the in-degree map plus initial queue construction inside
topological_sort: for every reachable node, count the incoming edges whose
source is also reachable; zero-degree nodes seed the queue. -/
def kahnInit (a : Arena) (reach : List Nat) : List (Nat × Nat) × List Nat :=
  reach.foldl
    (fun st n =>
      match a.nodes[n]? with
      | none => st
      | some nd =>
        let degree := (nd.incoming.filter (fun ei =>
          match a.edges[ei]? with
          | some e => decide (e.source ∈ reach)
          | none => false)).length
        (upsertA st.1 n degree, if degree = 0 then st.2 ++ [n] else st.2))
    ([], [])

/-- One body of the Kahn loop in traversal.rs topological_sort: decrement the
stored in-degree of every reachable child of n, enqueueing a child when its
degree reaches zero. -/
def kahnStep (a : Arena) (reach : List Nat) (n : Nat)
    (st : List (Nat × Nat) × List Nat) : List (Nat × Nat) × List Nat :=
  (a.children n).foldl
    (fun st ce =>
      if ce.1 ∈ reach then
        match lookupA st.1 ce.1 with
        | some d => (upsertA st.1 ce.1 (d - 1), if d - 1 = 0 then st.2 ++ [ce.1] else st.2)
        | none => st
      else st)
    st

/-- traversal.rs: the Kahn queue loop of topological_sort, producing the
top-down order. -/
def kahnLoopFuel (a : Arena) (reach : List Nat) :
    Nat → List Nat → List (Nat × Nat) → List Nat → List Nat
  | 0, _, _, result => result
  | fuel+1, queue, inDeg, result =>
    match queue with
    | [] => result
    | n :: qrest =>
      let st := kahnStep a reach n (inDeg, qrest)
      kahnLoopFuel a reach fuel st.2 st.1 (result ++ [n])

/-- traversal.rs: topological_sort - Kahn restricted to the reachable set,
reversed at the end to yield the bottom-up (leaves-first) order. -/
def Arena.topological_sort (a : Arena) (roots : List Nat) : List Nat :=
  let reach := a.reachableFrom roots
  let init := kahnInit a reach
  let result := kahnLoopFuel a reach (reach.length + 1) init.2 init.1 []
  result.reverse

/-- traversal.rs: level_grouping - fold the bottom-up topological order
assigning level 0 to leaves and 1 + max child level otherwise, then bucket the
level map by level.  The HashMap iteration is modelled by the association list
in insertion order. -/
def Arena.level_grouping (a : Arena) (roots : List Nat) : List (List Nat) :=
  let topo := a.topological_sort roots
  let st := topo.foldl
    (fun (st : List (Nat × Nat) × Nat) node =>
      let lvl := match natMaxL ((a.children node).filterMap (fun ce => lookupA st.1 ce.1)) with
        | some l => l + 1
        | none => 0
      (upsertA st.1 node lvl, Nat.max st.2 lvl))
    ([], 0)
  (List.range (st.2 + 1)).map
    (fun k => st.1.filterMap (fun nl => if nl.2 = k then some nl.1 else none))

mutual

/-- traversal.rs: the recursive dfs_paths helper of find_all_paths: the path
and the path-scoped visited set grow on the way down and are restored on
backtracking (modelled by passing the extended lists down). -/
def dfsPathsFuel (a : Arena) (target : Nat) :
    Nat → Nat → List Nat → List Nat → List (List Nat)
  | 0, _, _, _ => []
  | fuel+1, current, path, visited =>
    let path' := path ++ [current]
    let visited' := current :: visited
    if current = target then [path']
    else dfsPathsKids a target fuel (a.children current) path' visited'
termination_by structural fuel _ _ _ => fuel

/-- The loop over the children inside dfs_paths, recursing into children not
on the current path and concatenating the found paths in order. -/
def dfsPathsKids (a : Arena) (target : Nat) :
    Nat → List (Nat × Edge) → List Nat → List Nat → List (List Nat)
  | 0, _, _, _ => []
  | _+1, [], _, _ => []
  | fuel+1, ce :: rest, path, visited =>
    (if ce.1 ∉ visited then dfsPathsFuel a target fuel ce.1 path visited else [])
      ++ dfsPathsKids a target fuel rest path visited
termination_by structural fuel _ _ _ => fuel

end

/-- traversal.rs: find_all_paths at a sufficient fuel. -/
def Arena.find_all_paths (a : Arena) (source target : Nat) : List (List Nat) :=
  dfsPathsFuel a target (a.outSum + 1) source [] []

/-- traversal.rs: the DepthFirst case of the Traversal iterator, run to
exhaustion.  Traversal::new extends the stack with the roots reversed, so the
first root is on top; the model represents the stack as a list whose head is
the top, hence the initial stack is the roots list itself.  Traversal::next
pushes the unvisited children of a freshly visited node in adjacency order
(the last pushed child is popped first). -/
def dfsTraversalFuel (a : Arena) : Nat → List Nat → List Nat → List Nat
  | 0, _, _ => []
  | fuel+1, stack, visited =>
    match stack with
    | [] => []
    | n :: rest =>
      if n ∈ visited then dfsTraversalFuel a fuel rest visited
      else
        let visited' := n :: visited
        let pushes := ((a.children n).map (fun ce => ce.1)).filter
          (fun c => decide (c ∉ visited'))
        n :: dfsTraversalFuel a fuel (pushes.reverse ++ rest) visited'

/-- The list of nodes yielded by a DepthFirst Traversal over the given roots,
at a sufficient fuel. -/
def Arena.dfs_traversal (a : Arena) (roots : List Nat) : List Nat :=
  dfsTraversalFuel a (roots.length + a.outSum + 1) roots []

/-! The explosion engine (bom-calc explosion.rs). -/

/-- Stable insertion sort by level, modelling the stable sort_by_key of
explosion.rs (an item is inserted before the first strictly greater level). -/
def insertByLevel (x : ExplosionItem) : List ExplosionItem → List ExplosionItem
  | [] => [x]
  | y :: ys => if x.level ≤ y.level then x :: y :: ys else y :: insertByLevel x ys

/-- Stable sort of the explosion items by ascending level. -/
def sortByLevel : List ExplosionItem → List ExplosionItem
  | [] => []
  | x :: xs => insertByLevel x (sortByLevel xs)

/-- One level of the explosion fold of explosion.rs: the per-parent results
of the level are computed from the maps as they stood at the level start and
then aggregated sequentially into the quantity and path maps. -/
def explodeLevelStep (g : BomGraph)
    (st : List (Nat × Decimal) × List (Nat × List (List Nat)))
    (level_nodes : List Nat) :
    List (Nat × Decimal) × List (Nat × List (List Nat)) :=
  let level_results := level_nodes.filterMap (fun parent_node =>
    (lookupA st.1 parent_node).map (fun parent_qty =>
      (parent_node, (g.arena.children parent_node).map (fun ce =>
        let child_qty := ce.2.effective_quantity * parent_qty
        let child_paths := ((lookupA st.2 parent_node).getD []).map
          (fun pp => pp ++ [ce.1])
        (ce.1, child_qty, child_paths, ce.2.bom_item.is_phantom)))))
  level_results.foldl
    (fun st2 pr =>
      pr.2.foldl
        (fun (st3 : List (Nat × Decimal) × List (Nat × List (List Nat))) cd =>
          (addToA st3.1 cd.1 cd.2.1, appendPathsA st3.2 cd.1 cd.2.2.1))
        st2)
    st

/-- The final quantity and path maps of explode: the levels are processed from
the roots down to the leaves (level_grouping reversed), seeded at the
requested node. -/
def explodeFinal (g : BomGraph) (node : Nat) (quantity : Decimal) :
    List (Nat × Decimal) × List (Nat × List (List Nat)) :=
  (g.arena.level_grouping [node]).reverse.foldl (explodeLevelStep g)
    ([(node, quantity)], [(node, [[node]])])

/-- The explosion items built from the final maps, before the level sort: one
item per quantity entry of a live node, its level being the maximal path
length minus one and its paths converted to component ids. -/
def explodeItems0 (g : BomGraph)
    (final : List (Nat × Decimal) × List (Nat × List (List Nat))) :
    List ExplosionItem :=
  final.1.filterMap (fun nq =>
    (g.arena.nodes[nq.1]?).map (fun nd =>
      let level := match lookupA final.2 nq.1 with
        | none => 0
        | some ps =>
          match natMaxL (ps.map List.length) with
          | none => 0
          | some m => m - 1
      let component_paths := ((lookupA final.2 nq.1).getD []).filterMap (fun path =>
        let comp_path := path.filterMap
          (fun idx => (g.arena.nodes[idx]?).map (fun n => n.component_id))
        if comp_path.isEmpty then none else some comp_path)
      { component_id := nd.component_id, total_quantity := nq.2, level := level,
        paths := component_paths, is_phantom := false }))

/-- explosion.rs: ExplosionCalculator::explode - the level fold followed by
the item construction and the level sort. -/
def explode (g : BomGraph) (component_id : String) (quantity : Decimal) :
    Except BomError ExplosionResult :=
  match g.find_node component_id with
  | none => .error (.ComponentNotFound component_id)
  | some node =>
    let final := explodeFinal g node quantity
    let items := sortByLevel (explodeItems0 g final)
    .ok { root_component := component_id, items := items,
          unique_component_count := items.length,
          max_depth := (natMaxL (items.map (fun it => it.level))).getD 0 }

/-- explosion.rs: ExplosionCalculator::flatten - explode with quantity one,
reduced to the map from component id to total quantity (the HashMap is
modelled as the association list of the items in order; item component ids are
pairwise distinct). -/
def flatten (g : BomGraph) (component_id : String) :
    Except BomError (List (String × Decimal)) :=
  match explode g component_id 1 with
  | .error e => .error e
  | .ok result => .ok (result.items.map (fun item => (item.component_id, item.total_quantity)))

/-! The cost engine (bom-calc costing.rs) and the repository
(bom-core repository.rs). -/

/-- repository.rs: InMemoryRepository::get_components - batch lookup failing
with ComponentNotFound on the first missing id.  The repository is modelled as
the list of its components. -/
def getComponents (repo : List Component) (ids : List String) :
    Except BomError (List Component) :=
  ids.mapM (fun i =>
    match repo.find? (fun c => c.id == i) with
    | some c => .ok c
    | none => .error (.ComponentNotFound i))

/-- A CostBreakdown whose material cost is the given value; labor, overhead
and subcontract are zero as in costing.rs. -/
def mkBreakdown (component_id : String) (v : Decimal) : CostBreakdown :=
  { component_id := component_id, material_cost := v, labor_cost := 0,
    overhead_cost := 0, subcontract_cost := 0, total_cost := v }

/-- costing.rs: CostCalculator::calculate_all_costs.  Batch-loads the
components of every arena node, then processes the level grouping of the given
roots bottom-up: each node costs its own standard cost (default zero) plus the
sum over its child edges of the child total cost times the edge effective
quantity, children missing from the cost map being skipped by the filter. -/
def calculate_all_costs (g : BomGraph) (repo : List Component) (roots : List Nat) :
    Except BomError (List (String × CostBreakdown)) :=
  let component_ids := g.arena.nodes.map (fun n => n.component_id)
  match getComponents repo component_ids with
  | .error e => .error e
  | .ok components =>
    let component_data := components.map (fun c => (c.id, c))
    let levels := g.arena.level_grouping roots
    let cost_map := levels.foldl
      (fun cost_map level_nodes =>
        let level_costs := level_nodes.filterMap (fun node_idx =>
          match g.arena.nodes[node_idx]? with
          | none => none
          | some node =>
            match lookupA component_data node.component_id with
            | none => none
            | some comp =>
              let own_cost := comp.standard_cost.getD 0
              let children_cost := ((g.arena.children node_idx).filterMap (fun ce =>
                match g.arena.nodes[ce.1]? with
                | none => none
                | some child_node =>
                  (lookupA cost_map child_node.component_id).map
                    (fun bd => bd.total_cost * ce.2.effective_quantity))).sum
              some (node.component_id, mkBreakdown node.component_id (own_cost + children_cost)))
        extendA cost_map level_costs)
      []
    .ok cost_map

/-- costing.rs: CostCalculator::calculate_cost - return the cached material
cost when the node is clean and the cache is populated, otherwise run
calculate_all_costs rooted at the node and extract its entry. -/
def calculate_cost (g : BomGraph) (repo : List Component) (component_id : String) :
    Except BomError CostBreakdown :=
  match g.find_node component_id with
  | none => .error (.ComponentNotFound component_id)
  | some node =>
    let cached : Option Decimal :=
      match g.arena.nodes[node]? with
      | some n => if n.dirty then none else n.cache.total_material_cost
      | none => none
    match cached with
    | some cached_cost => .ok (mkBreakdown component_id cached_cost)
    | none =>
      match calculate_all_costs g repo [node] with
      | .error e => .error e
      | .ok cost_map =>
        match lookupA cost_map component_id with
        | some bd => .ok bd
        | none => .error (.CalculationError "Cost not found")

/-! The where-used engine (bom-calc where_used.rs). -/

/-- where_used.rs: WhereUsedAnalyzer::analyze - for each direct parent of the
component, collect every path from every root to that parent, convert the
paths to component ids, and report the parent with the edge effective quantity
and the maximal path length (default one). -/
def analyze (g : BomGraph) (component_id : String) : Except BomError WhereUsedResult :=
  match g.find_node component_id with
  | none => .error (.ComponentNotFound component_id)
  | some node =>
    let direct_parents := (g.arena.parents node).map (fun pe => (pe.1, pe.2.effective_quantity))
    let used_in := direct_parents.filterMap (fun pq =>
      (g.arena.nodes[pq.1]?).map (fun parent_node =>
        let all_paths_idx := g.roots.foldl
          (fun acc root => acc ++ g.arena.find_all_paths root pq.1) []
        let all_paths := all_paths_idx.filterMap (fun path =>
          let comp_path := path.filterMap
            (fun idx => (g.arena.nodes[idx]?).map (fun n => n.component_id))
          if comp_path.isEmpty then none else some comp_path)
        let level := (natMaxL (all_paths.map List.length)).getD 1
        { parent_id := parent_node.component_id, quantity := pq.2,
          level := level, paths := all_paths }))
    .ok { component := component_id, used_in := used_in }

/-! Specification-side notions: reachability, well-formedness, acyclicity,
dirty closure. -/

/-- Reachability along the edge list: ReachesE edges len m n holds when a
(possibly empty) directed path of edges leads from m to n, all mentioned
positions being below len. -/
inductive ReachesE (edges : List Edge) (len : Nat) : Nat → Nat → Prop
  | refl (n : Nat) (h : n < len) : ReachesE edges len n n
  | step {n : Nat} (e : Edge) (he : e ∈ edges) (hm : e.source < len)
      (h : ReachesE edges len e.target n) : ReachesE edges len e.source n

/-- Reachability in an arena: m is an ancestor of n (or equal to it). -/
def Arena.Reaches (a : Arena) (m n : Nat) : Prop :=
  ReachesE a.edges a.nodes.length m n

/-- A DAG arena: no edge closes a directed cycle. -/
def Arena.Acyclic (a : Arena) : Prop :=
  ∀ e ∈ a.edges, ¬ a.Reaches e.target e.source

/-- The node stored at index i, or a throwaway default. -/
def nodeD (a : Arena) (i : Nat) : Node :=
  a.nodes.getD i ⟨"", [], [], NodeCache.empty, false, 0⟩

/-- The edge stored at index i, or a throwaway default. -/
def edgeD (a : Arena) (i : Nat) : Edge :=
  a.edges.getD i ⟨0, 0, ⟨"", "", 0, 0, 0, false, 0⟩, 0⟩

/-- Well-formedness of an arena as maintained by the graph builder: empty free
lists (nothing in the source ever frees), edge endpoints in range, adjacency
lists holding exactly the edge indices with the matching endpoint and without
duplicates, and a component index consistent with the nodes. -/
abbrev ArenaWF (a : Arena) : Prop :=
  a.free_nodes = [] ∧
  a.free_edges = [] ∧
  (∀ e ∈ a.edges, e.source < a.nodes.length ∧ e.target < a.nodes.length) ∧
  (∀ i < a.nodes.length, ∀ ei ∈ (nodeD a i).outgoing,
    ei < a.edges.length ∧ (edgeD a ei).source = i) ∧
  (∀ i < a.nodes.length, ∀ ei ∈ (nodeD a i).incoming,
    ei < a.edges.length ∧ (edgeD a ei).target = i) ∧
  (∀ ei < a.edges.length, ei ∈ (nodeD a (edgeD a ei).source).outgoing) ∧
  (∀ ei < a.edges.length, ei ∈ (nodeD a (edgeD a ei).target).incoming) ∧
  (∀ i < a.nodes.length, (nodeD a i).outgoing.Nodup ∧ (nodeD a i).incoming.Nodup) ∧
  (∀ i < a.nodes.length, lookupA a.component_index (nodeD a i).component_id = some i) ∧
  (∀ p ∈ a.component_index, p.2 < a.nodes.length ∧ (nodeD a p.2).component_id = p.1)

/-- Whether the node at index i is dirty (false for an out-of-range index). -/
def dirtyAt (a : Arena) (i : Nat) : Bool :=
  match a.nodes[i]? with
  | some nd => nd.dirty
  | none => false

/-- Invariant I6 of the spec: every ancestor of a dirty node is dirty. -/
def DirtyClosed (a : Arena) : Prop :=
  ∀ j, dirtyAt a j = true → ∀ i, a.Reaches i j → dirtyAt a i = true

/-- The total quantity reported for a component id by an explosion result. -/
def itemQty (r : ExplosionResult) (c : String) : Option Decimal :=
  (r.items.find? (fun it => it.component_id == c)).map (fun it => it.total_quantity)

/-- Potential of the clean nodes: fuel that mark_dirty_recursive can still
consume (one per clean node plus one per entry of its incoming list). -/
def phiClean (a : Arena) : Nat :=
  ((a.nodes.filter (fun nd => !nd.dirty)).map (fun nd => nd.incoming.length + 1)).sum

/-- Potential of the unvisited nodes for a Bool-vector visited set. -/
def phiVis (a : Arena) (visited : List Bool) : Nat :=
  (((List.range a.nodes.length).filter (fun i => !(visited.getD i false))).map
    (fun i => (nodeD a i).outgoing.length + 1)).sum

/-- Potential of the unvisited nodes for a list-modelled visited set. -/
def phiMem (a : Arena) (visited : List Nat) : Nat :=
  (((List.range a.nodes.length).filter (fun i => decide (i ∉ visited))).map
    (fun i => (nodeD a i).outgoing.length + 1)).sum

/-- The in-degree bookkeeping value of the Kahn loop: the number of incoming
edges of x whose source lies in reach and is not yet processed. -/
def cntIn (a : Arena) (reach res : List Nat) (x : Nat) : Nat :=
  ((nodeD a x).incoming.filter (fun ei =>
    decide ((edgeD a ei).source ∈ reach) && decide ((edgeD a ei).source ∉ res))).length

/-- Parents-first order of a Kahn output: every reach-restricted in-edge
source of an element appears strictly earlier in the list. -/
def OrdRes (a : Arena) (reach res : List Nat) : Prop :=
  ∀ k, ∀ hk : k < res.length, ∀ ei ∈ (nodeD a (res.get ⟨k, hk⟩)).incoming,
    (edgeD a ei).source ∈ reach → (edgeD a ei).source ∈ res.take k

/-- The total cost recorded for node i by a cost map keyed on component ids
(zero when absent). -/
def costOf (m : List (String × CostBreakdown)) (a : Arena) (i : Nat) : Decimal :=
  match lookupA m (nodeD a i).component_id with
  | some bd => bd.total_cost
  | none => 0

/-- The own standard cost of node i as resolved from the repository (zero when
the component or its standard cost is missing). -/
def ownCostOf (repo : List Component) (a : Arena) (i : Nat) : Decimal :=
  match repo.find? (fun c => c.id == (nodeD a i).component_id) with
  | some c => c.standard_cost.getD 0
  | none => 0

/-- Node evolution under dirty marking: everything but the dirty flag and the
version is unchanged, and dirtiness only ever switches on. -/
def NodeMono (x y : Node) : Prop :=
  y.component_id = x.component_id ∧ y.incoming = x.incoming ∧
  y.outgoing = x.outgoing ∧ y.cache = x.cache ∧ (x.dirty = true → y.dirty = true)

/-- Arena evolution under dirty marking: edges, index and free lists are
untouched and the nodes evolve pointwise by NodeMono. -/
def ArenaMono (a b : Arena) : Prop :=
  b.edges = a.edges ∧ b.component_index = a.component_index ∧
  b.free_nodes = a.free_nodes ∧ b.free_edges = a.free_edges ∧
  List.Forall₂ NodeMono a.nodes b.nodes

/-! Concrete data used to instantiate the theorems: the linear chain S1
(A to B quantity 2, B to C quantity 3), the fork used for traversal order
(A to B and A to C), the scrap example S5, and the disconnected pair used for
the batch-loading analysis. -/

/-- BOM item A to B with quantity 2 and no scrap. -/
def itemAB2 : BomItem := ⟨"A", "B", 2, 0, 10, false, 0⟩

/-- BOM item B to C with quantity 3 and no scrap. -/
def itemBC3 : BomItem := ⟨"B", "C", 3, 0, 10, false, 0⟩

/-- The linear chain graph of scenario S1: A to B (2), B to C (3). -/
def graphS1 : BomGraph := (applyBomItems BomGraph.new [itemAB2, itemBC3]).identify_roots

/-- The repository of scenario S1: own costs A 100, B 50, C 10. -/
def repoS1 : List Component := [⟨"A", some 100⟩, ⟨"B", some 50⟩, ⟨"C", some 10⟩]

/-- BOM item A to B with quantity 1. -/
def itemAB1 : BomItem := ⟨"A", "B", 1, 0, 10, false, 0⟩

/-- BOM item A to C with quantity 1. -/
def itemAC1 : BomItem := ⟨"A", "C", 1, 0, 10, false, 0⟩

/-- BOM item B to A with quantity 1 (closes a cycle after A to B). -/
def itemBA1 : BomItem := ⟨"B", "A", 1, 0, 10, false, 0⟩

/-- The fork graph: A with children B then C, in that adjacency order. -/
def graphFork : BomGraph := (applyBomItems BomGraph.new [itemAB1, itemAC1]).identify_roots

/-- BOM item A to P with quantity 1. -/
def itemAP1 : BomItem := ⟨"A", "P", 1, 0, 10, false, 0⟩

/-- BOM item A to Q with quantity 1. -/
def itemAQ1 : BomItem := ⟨"A", "Q", 1, 0, 10, false, 0⟩

/-- BOM item Q to X with quantity 1. -/
def itemQX1 : BomItem := ⟨"Q", "X", 1, 0, 10, false, 0⟩

/-- BOM item P to X with quantity 1. -/
def itemPX1 : BomItem := ⟨"P", "X", 1, 0, 10, false, 0⟩

/-- BOM item P to Y with quantity 1. -/
def itemPY1 : BomItem := ⟨"P", "Y", 1, 0, 10, false, 0⟩

/-- The diamond graph: A over P then Q, Q over X, and P over X then Y, the
node X being shared between the P and Q subtrees (indices A 0, P 1, Q 2,
X 3, Y 4). -/
def graphDiamond : BomGraph :=
  (applyBomItems BomGraph.new [itemAP1, itemAQ1, itemQX1, itemPX1, itemPY1]).identify_roots

/-- BOM item P to C with quantity 1 and scrap factor 0.05. -/
def itemScrap : BomItem := ⟨"P", "C", 1, 1/20, 10, false, 0⟩

/-- The single-edge scrap graph of scenario S5. -/
def graphS5 : BomGraph := (applyBomItems BomGraph.new [itemScrap]).identify_roots

/-- BOM item X to Y with quantity 1. -/
def itemXY1 : BomItem := ⟨"X", "Y", 1, 0, 10, false, 0⟩

/-- Two disconnected edges A to B and X to Y. -/
def graphTwo : BomGraph := (applyBomItems BomGraph.new [itemAB1, itemXY1]).identify_roots

/-- A repository holding A, B and X but not Y. -/
def repoNoY : List Component := [⟨"A", some 1⟩, ⟨"B", some 1⟩, ⟨"X", some 1⟩]

/-- The fresh node pushed by add_node. -/
def freshNode (component_id : String) : Node :=
  ⟨component_id, [], [], NodeCache.empty, true, 0⟩

/-- The arena produced by add_node when the component id is fresh and the free
list is empty. -/
def addNodeFreshArena (a : Arena) (component_id : String) : Arena :=
  { a with nodes := a.nodes ++ [freshNode component_id],
           component_index := upsertA a.component_index component_id a.nodes.length }

/-- The arena as updated by add_edge before the dirty marking: the new edge is
appended and pushed onto the two adjacency lists. -/
def addEdgeArena (a : Arena) (parent child : Nat) (bom_item : BomItem) : Arena :=
  let e : Edge := ⟨parent, child, bom_item, bom_item.effective_quantity⟩
  let a1 := { a with edges := a.edges ++ [e] }
  let a2 := a1.modifyNode parent
    (fun nd => { nd with outgoing := nd.outgoing ++ [a.edges.length] })
  a2.modifyNode child (fun nd => { nd with incoming := nd.incoming ++ [a.edges.length] })

/-! Association-list lemmas. -/

theorem lookupA_mem {α β : Type} [DecidableEq α] :
    ∀ {m : List (α × β)} {k : α} {v : β}, lookupA m k = some v → (k, v) ∈ m := by
  intro m
  induction m with
  | nil => intro k v h; simp [lookupA] at h
  | cons p rest ih =>
    intro k v h
    obtain ⟨pk, pv⟩ := p
    by_cases hk : pk = k
    · subst hk
      simp [lookupA] at h
      subst h
      exact List.mem_cons_self _ _
    · simp [lookupA, hk] at h
      exact List.mem_cons_of_mem _ (ih h)

theorem lookupA_cons {α β : Type} [DecidableEq α] (pk : α) (pv : β) (rest : List (α × β))
    (k : α) : lookupA ((pk, pv) :: rest) k = if pk = k then some pv else lookupA rest k := rfl

theorem lookupA_upsert_self {α β : Type} [DecidableEq α] :
    ∀ (m : List (α × β)) (k : α) (v : β), lookupA (upsertA m k v) k = some v := by
  intro m
  induction m with
  | nil => intro k v; simp [upsertA, lookupA]
  | cons p rest ih =>
    intro k v
    obtain ⟨pk, pv⟩ := p
    by_cases hk : pk = k
    · subst hk; simp [upsertA, lookupA]
    · simp [upsertA, hk, lookupA, ih]

theorem lookupA_upsert_ne {α β : Type} [DecidableEq α] :
    ∀ (m : List (α × β)) (k k' : α) (v : β), k ≠ k' →
      lookupA (upsertA m k v) k' = lookupA m k' := by
  intro m
  induction m with
  | nil => intro k k' v hne; simp [upsertA, lookupA, hne]
  | cons p rest ih =>
    intro k k' v hne
    obtain ⟨pk, pv⟩ := p
    by_cases hk : pk = k
    · subst hk
      by_cases hk' : pk = k'
      · exact absurd hk' hne
      · simp [upsertA, lookupA, hk']
    · simp only [upsertA, if_neg hk]
      by_cases hk' : pk = k'
      · simp [lookupA, hk']
      · simp [lookupA, hk', ih _ _ _ hne]

theorem lookupA_addToA_self {α : Type} [DecidableEq α] :
    ∀ (m : List (α × Decimal)) (k : α) (v : Decimal),
      lookupA (addToA m k v) k = some ((lookupA m k).getD 0 + v) := by
  intro m
  induction m with
  | nil => intro k v; simp [addToA, lookupA]
  | cons p rest ih =>
    intro k v
    obtain ⟨pk, pv⟩ := p
    by_cases hk : pk = k
    · subst hk; simp [addToA, lookupA]
    · simp [addToA, hk, lookupA, ih]

theorem lookupA_addToA_ne {α : Type} [DecidableEq α] :
    ∀ (m : List (α × Decimal)) (k k' : α) (v : Decimal), k ≠ k' →
      lookupA (addToA m k v) k' = lookupA m k' := by
  intro m
  induction m with
  | nil => intro k k' v hne; simp [addToA, lookupA, hne]
  | cons p rest ih =>
    intro k k' v hne
    obtain ⟨pk, pv⟩ := p
    by_cases hk : pk = k
    · subst hk; simp [addToA, lookupA, hne]
    · simp only [addToA, if_neg hk]
      by_cases hk' : pk = k'
      · simp [lookupA, hk']
      · simp [lookupA, hk', ih _ _ _ hne]

theorem lookupA_appendPathsA_self {α β : Type} [DecidableEq α] :
    ∀ (m : List (α × List β)) (k : α) (ps : List β),
      lookupA (appendPathsA m k ps) k = some ((lookupA m k).getD [] ++ ps) := by
  intro m
  induction m with
  | nil => intro k ps; simp [appendPathsA, lookupA]
  | cons p rest ih =>
    intro k ps
    obtain ⟨pk, pv⟩ := p
    by_cases hk : pk = k
    · subst hk; simp [appendPathsA, lookupA]
    · simp [appendPathsA, hk, lookupA, ih]

theorem lookupA_appendPathsA_ne {α β : Type} [DecidableEq α] :
    ∀ (m : List (α × List β)) (k k' : α) (ps : List β), k ≠ k' →
      lookupA (appendPathsA m k ps) k' = lookupA m k' := by
  intro m
  induction m with
  | nil => intro k k' ps hne; simp [appendPathsA, lookupA, hne]
  | cons p rest ih =>
    intro k k' ps hne
    obtain ⟨pk, pv⟩ := p
    by_cases hk : pk = k
    · subst hk; simp [appendPathsA, lookupA, hne]
    · simp only [appendPathsA, if_neg hk]
      by_cases hk' : pk = k'
      · simp [lookupA, hk']
      · simp [lookupA, hk', ih _ _ _ hne]

theorem keysA_addToA {α : Type} [DecidableEq α] :
    ∀ (m : List (α × Decimal)) (k : α) (v : Decimal),
      keysA (addToA m k v) = if k ∈ keysA m then keysA m else keysA m ++ [k] := by
  intro m
  induction m with
  | nil => intro k v; simp [addToA, keysA]
  | cons p rest ih =>
    intro k v
    obtain ⟨pk, pv⟩ := p
    by_cases hk : pk = k
    · subst hk; simp [addToA, keysA]
    · have hne : ¬ (k = pk) := fun h => hk h.symm
      have ihr := ih k v
      simp only [keysA] at ihr ⊢
      simp only [addToA, if_neg hk, List.map_cons, List.mem_cons, hne, false_or]
      rw [ihr]
      by_cases hmem : k ∈ rest.map (fun kv => kv.1) <;> simp [hmem]

theorem lookupA_isSome_iff_keys {α β : Type} [DecidableEq α] :
    ∀ (m : List (α × β)) (k : α), (lookupA m k).isSome = true ↔ k ∈ keysA m := by
  intro m
  induction m with
  | nil => intro k; simp [lookupA, keysA]
  | cons p rest ih =>
    intro k
    obtain ⟨pk, pv⟩ := p
    by_cases hk : pk = k
    · subst hk; simp [lookupA, keysA]
    · have hne : ¬ (k = pk) := fun h => hk h.symm
      simp [lookupA, hk, keysA, hne, ih k, keysA]

/-! natMaxL lemmas. -/

theorem natMaxL_le_mem : ∀ {l : List Nat} {x : Nat}, x ∈ l →
    ∃ m, natMaxL l = some m ∧ x ≤ m := by
  intro l
  induction l with
  | nil => intro x h; simp at h
  | cons y ys ih =>
    intro x h
    rcases List.mem_cons.mp h with h | h
    · subst h
      cases hys : natMaxL ys with
      | none => exact ⟨x, by simp [natMaxL, hys], le_refl x⟩
      | some m => exact ⟨Nat.max x m, by simp [natMaxL, hys], Nat.le_max_left _ _⟩
    · obtain ⟨m, hm, hx⟩ := ih h
      exact ⟨Nat.max y m, by simp [natMaxL, hm], le_trans hx (Nat.le_max_right _ _)⟩

/-! List indexing helpers. -/

theorem getD_of_lt {α : Type} (l : List α) (i : Nat) (d : α) (h : i < l.length) :
    l[i]? = some (l.getD i d) := by
  rw [List.getD_eq_getElem?_getD, List.getElem?_eq_getElem h]
  rfl

theorem getD_set_self (l : List Bool) (i : Nat) (h : i < l.length) :
    (l.set i true).getD i false = true := by
  rw [List.getD_eq_getElem?_getD, List.getElem?_set_self']
  simp [List.getElem?_eq_getElem h]

theorem getD_set_ne (l : List Bool) (i j : Nat) (b : Bool) (h : i ≠ j) :
    (l.set i b).getD j false = l.getD j false := by
  rw [List.getD_eq_getElem?_getD, List.getElem?_set_ne h, ← List.getD_eq_getElem?_getD]

/-- Dropping one satisfied element from a filtered sum: if the predicate is
turned off exactly at n, the sum over the filtered mapped list drops by f n. -/
theorem filter_sum_drop {l : List Nat} (hnd : l.Nodup) {p p' : Nat → Bool} {n : Nat}
    (hn : n ∈ l) (hp : p n = true) (hp' : p' n = false)
    (hagree : ∀ i ∈ l, i ≠ n → p' i = p i) (f : Nat → Nat) :
    ((l.filter p').map f).sum + f n = ((l.filter p).map f).sum := by
  induction l with
  | nil => simp at hn
  | cons x xs ih =>
    have hnd' := List.nodup_cons.mp hnd
    rcases List.mem_cons.mp hn with h | h
    · subst h
      have hfilter : xs.filter p' = xs.filter p := by
        apply List.filter_congr
        intro i hi
        exact hagree i (List.mem_cons_of_mem _ hi) (fun hin => hnd'.1 (hin ▸ hi))
      simp [List.filter_cons, hp, hp', hfilter, Nat.add_comm]
    · have hxn : x ≠ n := fun hxn => hnd'.1 (hxn ▸ h)
      have hx : p' x = p x := hagree x (List.mem_cons_self _ _) hxn
      have := ih hnd'.2 h (fun i hi hin => hagree i (List.mem_cons_of_mem _ hi) hin)
      cases hpx : p x with
      | true =>
        have hx' : p' x = true := hx ▸ hpx
        simp only [List.filter_cons, hpx, hx', if_pos, List.map_cons, List.sum_cons]
        omega
      | false =>
        have hx' : p' x = false := hx ▸ hpx
        simp only [List.filter_cons, hpx, hx']
        simpa using this

/-- The sum of f over indices below the length, read through getD, equals the
sum of f over the list itself. -/
theorem sum_map_range_getD {α : Type} (f : α → Nat) (d : α) :
    ∀ (l : List α), ((List.range l.length).map (fun i => f (l.getD i d))).sum = (l.map f).sum := by
  intro l
  induction l with
  | nil => rfl
  | cons x xs ih =>
    rw [List.length_cons, List.range_succ_eq_map]
    simp only [List.map_cons, List.map_map, List.sum_cons]
    have : ((List.range xs.length).map ((fun i => f ((x :: xs).getD i d)) ∘ (· + 1))).sum
        = ((List.range xs.length).map (fun i => f (xs.getD i d))).sum := by
      congr 1
    rw [this, ih]
    rfl

theorem sublist_sum_le {l1 l2 : List Nat} (h : l1.Sublist l2) : l1.sum ≤ l2.sum :=
  h.sum_le_sum (by simp)

/-! Reachability lemmas. -/

theorem ReachesE.trans {edges : List Edge} {len : Nat} {m n k : Nat}
    (h1 : ReachesE edges len m n) (h2 : ReachesE edges len n k) :
    ReachesE edges len m k := by
  induction h1 with
  | refl _ _ => exact h2
  | step e he hm _ ih => exact ReachesE.step e he hm (ih h2)

theorem ReachesE.src_lt {edges : List Edge} {len : Nat} {m n : Nat}
    (h : ReachesE edges len m n) : m < len := by
  cases h with
  | refl _ h => exact h
  | step e he hm h => exact hm

theorem ReachesE.tgt_lt {edges : List Edge} {len : Nat} {m n : Nat}
    (h : ReachesE edges len m n) : n < len := by
  induction h with
  | refl _ h => exact h
  | step _ _ _ _ ih => exact ih

theorem ReachesE.len_mono {edges : List Edge} {len len' : Nat} {m n : Nat}
    (h : ReachesE edges len m n) (hle : len ≤ len') : ReachesE edges len' m n := by
  induction h with
  | refl k hk => exact ReachesE.refl k (lt_of_lt_of_le hk hle)
  | step e he hm _ ih => exact ReachesE.step e he (lt_of_lt_of_le hm hle) ih

theorem ReachesE.len_restrict {edges : List Edge} {len : Nat} {m n : Nat}
    (hb : ∀ e ∈ edges, e.source < len ∧ e.target < len) (hm : m < len)
    (h : ReachesE edges (len + 1) m n) : ReachesE edges len m n := by
  induction h with
  | refl k _ => exact ReachesE.refl k hm
  | step e he _ h ih => exact ReachesE.step e he (hb e he).1 (ih (hb e he).2)

theorem ReachesE.edges_mono {edges edges' : List Edge} {len : Nat} {m n : Nat}
    (h : ReachesE edges len m n) (hsub : ∀ e ∈ edges, e ∈ edges') :
    ReachesE edges' len m n := by
  induction h with
  | refl k hk => exact ReachesE.refl k hk
  | step e he hm _ ih => exact ReachesE.step e (hsub e he) hm ih

theorem ReachesE.single {edges : List Edge} {len : Nat} {e : Edge}
    (he : e ∈ edges) (hs : e.source < len) (ht : e.target < len) :
    ReachesE edges len e.source e.target :=
  ReachesE.step e he hs (ReachesE.refl _ ht)

/-- Decomposition of reachability after appending one edge: a path in the
extended graph is a path in the old graph, or passes through the new edge. -/
theorem ReachesE.append_elim {edges : List Edge} {e0 : Edge} {len : Nat} {m n : Nat}
    (h : ReachesE (edges ++ [e0]) len m n) :
    ReachesE edges len m n ∨
      (ReachesE edges len m e0.source ∧ ReachesE edges len e0.target n) := by
  induction h with
  | refl k hk => exact Or.inl (ReachesE.refl k hk)
  | step e he hm h ih =>
    rcases List.mem_append.mp he with he' | he'
    · rcases ih with ih | ⟨ih1, ih2⟩
      · exact Or.inl (ReachesE.step e he' hm ih)
      · exact Or.inr ⟨ReachesE.step e he' hm ih1, ih2⟩
    · have he0 : e = e0 := by simpa using he'
      subst he0
      rcases ih with ih | ⟨ih1, ih2⟩
      · exact Or.inr ⟨ReachesE.refl _ hm, ih⟩
      · exact Or.inr ⟨ReachesE.refl _ hm, ih2⟩

/-- Ranking principle: a function strictly decreasing along every edge
certifies acyclicity. -/
theorem acyclic_of_rank (a : Arena) (r : Nat → Nat)
    (h : ∀ e ∈ a.edges, r e.target < r e.source) : a.Acyclic := by
  have key : ∀ {m n : Nat}, a.Reaches m n → r n ≤ r m := by
    intro m n hr
    induction hr with
    | refl _ _ => exact le_refl _
    | step e he _ _ ih => exact le_trans ih (le_of_lt (h e he))
  intro e he hr
  exact absurd (key hr) (by simpa using h e he)

/-! Projections of the well-formedness predicate. -/

theorem ArenaWF.freeNodes {a : Arena} (h : ArenaWF a) : a.free_nodes = [] := h.1

theorem ArenaWF.freeEdges {a : Arena} (h : ArenaWF a) : a.free_edges = [] := h.2.1

theorem ArenaWF.edgeBounds {a : Arena} (h : ArenaWF a) :
    ∀ e ∈ a.edges, e.source < a.nodes.length ∧ e.target < a.nodes.length := h.2.2.1

theorem ArenaWF.outChar {a : Arena} (h : ArenaWF a) :
    ∀ i < a.nodes.length, ∀ ei ∈ (nodeD a i).outgoing,
      ei < a.edges.length ∧ (edgeD a ei).source = i := h.2.2.2.1

theorem ArenaWF.inChar {a : Arena} (h : ArenaWF a) :
    ∀ i < a.nodes.length, ∀ ei ∈ (nodeD a i).incoming,
      ei < a.edges.length ∧ (edgeD a ei).target = i := h.2.2.2.2.1

theorem ArenaWF.outComplete {a : Arena} (h : ArenaWF a) :
    ∀ ei < a.edges.length, ei ∈ (nodeD a (edgeD a ei).source).outgoing := h.2.2.2.2.2.1

theorem ArenaWF.inComplete {a : Arena} (h : ArenaWF a) :
    ∀ ei < a.edges.length, ei ∈ (nodeD a (edgeD a ei).target).incoming := h.2.2.2.2.2.2.1

theorem ArenaWF.adjNodup {a : Arena} (h : ArenaWF a) :
    ∀ i < a.nodes.length, (nodeD a i).outgoing.Nodup ∧ (nodeD a i).incoming.Nodup :=
  h.2.2.2.2.2.2.2.1

theorem ArenaWF.indexOf {a : Arena} (h : ArenaWF a) :
    ∀ i < a.nodes.length, lookupA a.component_index (nodeD a i).component_id = some i :=
  h.2.2.2.2.2.2.2.2.1

theorem ArenaWF.indexMem {a : Arena} (h : ArenaWF a) :
    ∀ p ∈ a.component_index, p.2 < a.nodes.length ∧ (nodeD a p.2).component_id = p.1 :=
  h.2.2.2.2.2.2.2.2.2

/-! Basic facts about nodeD, edgeD and children. -/

theorem nodes_getElem?_eq_nodeD {a : Arena} {i : Nat} (h : i < a.nodes.length) :
    a.nodes[i]? = some (nodeD a i) :=
  getD_of_lt _ _ _ h

theorem edges_getElem?_eq_edgeD {a : Arena} {i : Nat} (h : i < a.edges.length) :
    a.edges[i]? = some (edgeD a i) :=
  getD_of_lt _ _ _ h

theorem edgeD_mem {a : Arena} {i : Nat} (h : i < a.edges.length) : edgeD a i ∈ a.edges := by
  unfold edgeD
  rw [List.getD_eq_getElem?_getD, List.getElem?_eq_getElem h]
  exact List.getElem_mem h

theorem mem_edges_exists_idx {a : Arena} {e : Edge} (h : e ∈ a.edges) :
    ∃ ei, ei < a.edges.length ∧ edgeD a ei = e := by
  obtain ⟨i, hi, hget⟩ := List.mem_iff_getElem.mp h
  refine ⟨i, hi, ?_⟩
  unfold edgeD
  rw [List.getD_eq_getElem?_getD, List.getElem?_eq_getElem hi]
  simpa using hget

theorem filterMap_eq_map_of_forall {α β : Type} (f : α → Option β) (g : α → β) :
    ∀ (l : List α), (∀ x ∈ l, f x = some (g x)) → l.filterMap f = l.map g := by
  intro l
  induction l with
  | nil => intro _; rfl
  | cons x xs ih =>
    intro h
    simp [List.filterMap_cons, h x (List.mem_cons_self _ _),
      ih (fun y hy => h y (List.mem_cons_of_mem _ hy))]

/-- Under well-formedness, the children of a live node are exactly the edges
leaving it. -/
theorem children_eq_map {a : Arena} (hwf : ArenaWF a) {n : Nat} (hn : n < a.nodes.length) :
    a.children n = (nodeD a n).outgoing.map (fun ei => ((edgeD a ei).target, edgeD a ei)) := by
  unfold Arena.children
  rw [nodes_getElem?_eq_nodeD hn]
  exact filterMap_eq_map_of_forall _ _ _ (fun ei hei => by
    have hb := (hwf.outChar n hn ei hei).1
    rw [edges_getElem?_eq_edgeD hb]
    rfl)

theorem children_invalid {a : Arena} {n : Nat} (hn : a.nodes[n]? = none) :
    a.children n = [] := by
  unfold Arena.children
  rw [hn]

theorem mem_children_edge {a : Arena} (hwf : ArenaWF a) {n : Nat} (hn : n < a.nodes.length)
    {c : Nat} {e : Edge} (h : (c, e) ∈ a.children n) :
    e ∈ a.edges ∧ e.source = n ∧ e.target = c := by
  rw [children_eq_map hwf hn] at h
  obtain ⟨ei, hei, heq⟩ := List.mem_map.mp h
  obtain ⟨h1, h2⟩ := Prod.mk.injEq .. ▸ heq
  obtain ⟨hb, hsrc⟩ := hwf.outChar n hn ei hei
  subst h2
  exact ⟨edgeD_mem hb, hsrc, h1⟩

theorem edge_mem_children {a : Arena} (hwf : ArenaWF a) {e : Edge} (he : e ∈ a.edges) :
    (e.target, e) ∈ a.children e.source := by
  obtain ⟨ei, hb, heq⟩ := mem_edges_exists_idx he
  have hsl : e.source < a.nodes.length := (hwf.edgeBounds e he).1
  rw [children_eq_map hwf hsl]
  refine List.mem_map.mpr ⟨ei, ?_, by rw [heq]⟩
  have hoc := hwf.outComplete ei hb
  rw [heq] at hoc
  exact hoc

/-- A child edge witnesses reachability from parent to child. -/
theorem reaches_of_children {a : Arena} (hwf : ArenaWF a) {n c : Nat} {e : Edge}
    (hn : n < a.nodes.length) (h : (c, e) ∈ a.children n) : a.Reaches n c := by
  obtain ⟨he, hsrc, htgt⟩ := mem_children_edge hwf hn h
  have hb := hwf.edgeBounds e he
  exact hsrc ▸ htgt ▸ ReachesE.single he hb.1 hb.2

/-! ArenaMono: evolution under dirty marking. -/

theorem nodeMono_refl (x : Node) : NodeMono x x := ⟨rfl, rfl, rfl, rfl, fun h => h⟩

theorem nodeMono_trans {x y z : Node} (h1 : NodeMono x y) (h2 : NodeMono y z) : NodeMono x z :=
  ⟨h2.1.trans h1.1, h2.2.1.trans h1.2.1, h2.2.2.1.trans h1.2.2.1,
   h2.2.2.2.1.trans h1.2.2.2.1, fun h => h2.2.2.2.2 (h1.2.2.2.2 h)⟩

theorem arenaMono_refl (a : Arena) : ArenaMono a a :=
  ⟨rfl, rfl, rfl, rfl, List.forall₂_same.mpr (fun x _ => nodeMono_refl x)⟩

theorem forall₂_trans {α : Type} (R : α → α → Prop)
    (htrans : ∀ x y z, R x y → R y z → R x z) :
    ∀ {l1 l2 l3 : List α}, List.Forall₂ R l1 l2 → List.Forall₂ R l2 l3 →
      List.Forall₂ R l1 l3 := by
  intro l1 l2 l3 h12
  induction h12 generalizing l3 with
  | nil => intro h; cases h; exact List.Forall₂.nil
  | cons hxy _ ih =>
    intro h
    cases h with
    | cons hyz hrest2 => exact List.Forall₂.cons (htrans _ _ _ hxy hyz) (ih hrest2)

theorem arenaMono_trans {a b c : Arena} (h1 : ArenaMono a b) (h2 : ArenaMono b c) :
    ArenaMono a c :=
  ⟨h2.1.trans h1.1, h2.2.1.trans h1.2.1, h2.2.2.1.trans h1.2.2.1, h2.2.2.2.1.trans h1.2.2.2.1,
   forall₂_trans NodeMono (fun _ _ _ hx hy => nodeMono_trans hx hy) h1.2.2.2.2 h2.2.2.2.2⟩

theorem forall₂_getElem? {α β : Type} {R : α → β → Prop} :
    ∀ {l1 : List α} {l2 : List β}, List.Forall₂ R l1 l2 → ∀ i : Nat,
      (l1[i]? = none ∧ l2[i]? = none) ∨
        ∃ x y, l1[i]? = some x ∧ l2[i]? = some y ∧ R x y := by
  intro l1 l2 h
  induction h with
  | nil => intro i; left; simp
  | cons hxy _ ih =>
    intro i
    cases i with
    | zero => right; exact ⟨_, _, by simp, by simp, hxy⟩
    | succ j => simpa using ih j

theorem ArenaMono.length_eq {a b : Arena} (h : ArenaMono a b) :
    b.nodes.length = a.nodes.length := h.2.2.2.2.length_eq.symm

theorem ArenaMono.dirtyAt_mono {a b : Arena} (h : ArenaMono a b) {i : Nat}
    (hd : dirtyAt a i = true) : dirtyAt b i = true := by
  unfold dirtyAt at *
  rcases forall₂_getElem? h.2.2.2.2 i with ⟨h1, h2⟩ | ⟨x, y, h1, h2, hr⟩
  · rw [h1] at hd; exact absurd hd (by simp)
  · rw [h1] at hd; rw [h2]; exact hr.2.2.2.2 hd

theorem ArenaMono.nodeD_fields {a b : Arena} (h : ArenaMono a b) (i : Nat) :
    (nodeD b i).component_id = (nodeD a i).component_id ∧
    (nodeD b i).incoming = (nodeD a i).incoming ∧
    (nodeD b i).outgoing = (nodeD a i).outgoing ∧
    (nodeD b i).cache = (nodeD a i).cache := by
  rcases forall₂_getElem? h.2.2.2.2 i with ⟨h1, h2⟩ | ⟨x, y, h1, h2, hr⟩
  · unfold nodeD
    rw [List.getD_eq_getElem?_getD, List.getD_eq_getElem?_getD, h1, h2]
    exact ⟨rfl, rfl, rfl, rfl⟩
  · unfold nodeD
    rw [List.getD_eq_getElem?_getD, List.getD_eq_getElem?_getD, h1, h2]
    exact ⟨hr.1, hr.2.1, hr.2.2.1, hr.2.2.2.1⟩

theorem ArenaMono.children_eq {a b : Arena} (h : ArenaMono a b) (n : Nat) :
    b.children n = a.children n := by
  unfold Arena.children
  rcases forall₂_getElem? h.2.2.2.2 n with ⟨h1, h2⟩ | ⟨x, y, h1, h2, hr⟩
  · rw [h1, h2]
  · rw [h1, h2]
    dsimp only
    rw [hr.2.2.1, h.1]

theorem ArenaMono.reaches_iff {a b : Arena} (h : ArenaMono a b) (m n : Nat) :
    b.Reaches m n ↔ a.Reaches m n := by
  unfold Arena.Reaches
  rw [h.1, h.length_eq]

theorem ArenaMono.wf {a b : Arena} (h : ArenaMono a b) (hwf : ArenaWF a) : ArenaWF b := by
  have hlen := h.length_eq
  have hedges := h.1
  have hfields := h.nodeD_fields
  have hedgeD : ∀ i, edgeD b i = edgeD a i := by intro i; unfold edgeD; rw [hedges]
  refine ⟨h.2.2.1.trans hwf.freeNodes, h.2.2.2.1.trans hwf.freeEdges, ?_, ?_, ?_, ?_, ?_, ?_, ?_, ?_⟩
  · intro e he; rw [hedges] at he; rw [hlen]; exact hwf.edgeBounds e he
  · intro i hi ei hei
    rw [(hfields i).2.2.1] at hei
    rw [hedges, hedgeD]
    exact hwf.outChar i (hlen ▸ hi) ei hei
  · intro i hi ei hei
    rw [(hfields i).2.1] at hei
    rw [hedges, hedgeD]
    exact hwf.inChar i (hlen ▸ hi) ei hei
  · intro ei hb
    rw [hedges] at hb
    rw [hedgeD, (hfields _).2.2.1]
    exact hwf.outComplete ei hb
  · intro ei hb
    rw [hedges] at hb
    rw [hedgeD, (hfields _).2.1]
    exact hwf.inComplete ei hb
  · intro i hi
    rw [(hfields i).2.2.1, (hfields i).2.1]
    exact hwf.adjNodup i (hlen ▸ hi)
  · intro i hi
    rw [(hfields i).1, h.2.1]
    exact hwf.indexOf i (hlen ▸ hi)
  · intro p hp
    rw [h.2.1] at hp
    rw [hlen, (hfields p.2).1]
    exact hwf.indexMem p hp

theorem ArenaMono.edgeD_eq {a b : Arena} (h : ArenaMono a b) (i : Nat) :
    edgeD b i = edgeD a i := by
  unfold edgeD
  rw [h.1]

/-! The node-marking step of mark_dirty_recursive. -/

theorem lt_of_getElem?_some {α : Type} {l : List α} {i : Nat} {x : α}
    (h : l[i]? = some x) : i < l.length := by
  by_contra hge
  rw [List.getElem?_eq_none (Nat.le_of_not_lt hge)] at h
  exact absurd h (by simp)

theorem getElem_of_getElem?_some {α : Type} {l : List α} {i : Nat} {x : α} (d : α)
    (h : l[i]? = some x) : l.getD i d = x := by
  rw [List.getD_eq_getElem?_getD, h]
  rfl

theorem forall₂_set {α : Type} {R : α → α → Prop} (hrefl : ∀ x, R x x) :
    ∀ (l : List α) (i : Nat) (x y : α), l[i]? = some x → R x y →
      List.Forall₂ R l (l.set i y) := by
  intro l
  induction l with
  | nil => intro i x y h; simp at h
  | cons z zs ih =>
    intro i x y h hr
    cases i with
    | zero =>
      simp only [List.getElem?_cons_zero, Option.some.injEq] at h
      subst h
      exact List.Forall₂.cons hr (List.forall₂_same.mpr (fun w _ => hrefl w))
    | succ j =>
      simp only [List.getElem?_cons_succ] at h
      exact List.Forall₂.cons (hrefl z) (ih j x y h hr)

/-- The arena with node n marked dirty, as built inside mark_dirty_recursive. -/
theorem setDirty_mono {a : Arena} {n : Nat} {nd : Node} (hn : a.nodes[n]? = some nd) :
    ArenaMono a { a with nodes := a.nodes.set n { nd with dirty := true, version := nd.version + 1 } } := by
  refine ⟨rfl, rfl, rfl, rfl, ?_⟩
  exact forall₂_set nodeMono_refl a.nodes n nd _ hn ⟨rfl, rfl, rfl, rfl, fun h => rfl⟩

theorem setDirty_dirtyAt_self {a : Arena} {n : Nat} {nd : Node} (hn : a.nodes[n]? = some nd) :
    dirtyAt { a with nodes := a.nodes.set n { nd with dirty := true, version := nd.version + 1 } } n = true := by
  unfold dirtyAt
  rw [show ({ a with nodes := a.nodes.set n { nd with dirty := true, version := nd.version + 1 } } : Arena).nodes = a.nodes.set n { nd with dirty := true, version := nd.version + 1 } from rfl]
  rw [List.getElem?_set_self', List.getElem?_eq_getElem (lt_of_getElem?_some hn)]
  rfl

theorem setDirty_dirtyAt_ne {a : Arena} {n : Nat} {nd' : Node} {j : Nat} (hne : n ≠ j) :
    dirtyAt { a with nodes := a.nodes.set n nd' } j = dirtyAt a j := by
  unfold dirtyAt
  rw [show ({ a with nodes := a.nodes.set n nd' } : Arena).nodes = a.nodes.set n nd' from rfl]
  rw [List.getElem?_set_ne hne]

/-- Marking a clean node pays for its incoming list plus itself in the
potential. -/
theorem setDirty_phi {a : Arena} {n : Nat} {nd : Node} (hn : a.nodes[n]? = some nd)
    (hcl : nd.dirty = false) :
    phiClean { a with nodes := a.nodes.set n { nd with dirty := true, version := nd.version + 1 } }
      + (nd.incoming.length + 1) = phiClean a := by
  have hlt : n < a.nodes.length := lt_of_getElem?_some hn
  have hget : a.nodes[n] = nd := by
    have := List.getElem?_eq_getElem hlt
    rw [this] at hn
    exact Option.some.inj hn
  unfold phiClean
  rw [show ({ a with nodes := a.nodes.set n { nd with dirty := true, version := nd.version + 1 } } : Arena).nodes = a.nodes.set n { nd with dirty := true, version := nd.version + 1 } from rfl]
  rw [List.set_eq_take_append_cons_drop, if_pos hlt]
  conv_rhs => rw [← List.take_append_drop n a.nodes, List.drop_eq_getElem_cons hlt, hget]
  simp [List.filter_append, List.map_append, List.sum_append, List.filter_cons, hcl]
  omega

/-! Monotonicity of the marking pass. -/

theorem markDirty_mono : ∀ fuel : Nat,
    (∀ a n, ArenaMono a (markDirtyRecFuel fuel a n)) ∧
    (∀ a es, ArenaMono a (markDirtyIncoming fuel a es)) := by
  intro fuel
  induction fuel with
  | zero =>
    refine ⟨fun a n => ?_, fun a es => ?_⟩
    · rw [markDirtyRecFuel]; exact arenaMono_refl a
    · cases es <;> (rw [markDirtyIncoming]; exact arenaMono_refl a)
  | succ fuel ih =>
    refine ⟨fun a n => ?_, fun a es => ?_⟩
    · rw [markDirtyRecFuel]
      cases hnd : a.nodes[n]? with
      | none => exact arenaMono_refl a
      | some nd =>
        by_cases hd : nd.dirty = true
        · simp only [hd, if_true]
          exact arenaMono_refl a
        · simp only [hd, if_false]
          exact arenaMono_trans (setDirty_mono hnd) (ih.2 _ nd.incoming)
    · cases es with
      | nil => rw [markDirtyIncoming]; exact arenaMono_refl a
      | cons ei rest =>
        rw [markDirtyIncoming]
        cases hei : a.edges[ei]? with
        | none => exact ih.2 a rest
        | some e => exact arenaMono_trans (ih.1 a e.source) (ih.2 _ rest)

theorem phiClean_mono_nodes : ∀ {l1 l2 : List Node}, List.Forall₂ NodeMono l1 l2 →
    ((l2.filter (fun nd => !nd.dirty)).map (fun nd => nd.incoming.length + 1)).sum ≤
      ((l1.filter (fun nd => !nd.dirty)).map (fun nd => nd.incoming.length + 1)).sum := by
  intro l1 l2 h
  induction h with
  | nil => exact le_refl 0
  | cons hxy hrest ih =>
    rename_i x y l1' l2'
    by_cases hx : x.dirty = true
    · have hy : y.dirty = true := hxy.2.2.2.2 hx
      simp only [List.filter_cons, hx, hy, Bool.not_true, if_false]
      exact ih
    · have hx' : x.dirty = false := by simpa using hx
      by_cases hy : y.dirty = true
      · simp only [List.filter_cons, hx', hy]
        simp only [Bool.not_true, Bool.not_false, if_false, if_true, List.map_cons, List.sum_cons]
        exact le_trans ih (Nat.le_add_left _ _)
      · have hy' : y.dirty = false := by simpa using hy
        simp only [List.filter_cons, hx', hy', Bool.not_false, if_true, List.map_cons,
          List.sum_cons, hxy.2.1]
        omega

theorem ArenaMono.phiClean_le {a b : Arena} (h : ArenaMono a b) :
    phiClean b ≤ phiClean a :=
  phiClean_mono_nodes h.2.2.2.2

theorem phiClean_le_inSum (a : Arena) : phiClean a ≤ a.inSum := by
  unfold phiClean Arena.inSum
  exact sublist_sum_le (List.Sublist.map _ (List.filter_sublist a.nodes))

/-- If the clean potential is zero, every live node is dirty. -/
theorem phiClean_zero_all_dirty {a : Arena} (h : phiClean a = 0) :
    ∀ i, i < a.nodes.length → dirtyAt a i = true := by
  intro i hi
  unfold dirtyAt
  rw [nodes_getElem?_eq_nodeD hi]
  by_contra hcl
  have hcl' : (nodeD a i).dirty = false := by simpa using hcl
  have hmem : nodeD a i ∈ a.nodes.filter (fun nd => !nd.dirty) := by
    rw [List.mem_filter]
    refine ⟨?_, by simp [hcl']⟩
    unfold nodeD
    rw [List.getD_eq_getElem?_getD, List.getElem?_eq_getElem hi]
    exact List.getElem_mem hi
  have : (nodeD a i).incoming.length + 1 ≤ phiClean a := by
    unfold phiClean
    exact List.single_le_sum (by simp) _ (List.mem_map_of_mem _ hmem)
  omega

/-- With fuel left, mark_dirty_recursive leaves its argument node dirty. -/
theorem markDirty_marks_self {fuel : Nat} {a : Arena} {n : Nat}
    (hf : 0 < fuel) (hn : n < a.nodes.length) :
    dirtyAt (markDirtyRecFuel fuel a n) n = true := by
  cases fuel with
  | zero => omega
  | succ f =>
    simp only [markDirtyRecFuel]
    rw [nodes_getElem?_eq_nodeD hn]
    dsimp only
    by_cases hd : (nodeD a n).dirty = true
    · rw [if_pos hd]
      unfold dirtyAt
      rw [nodes_getElem?_eq_nodeD hn]
      exact hd
    · rw [if_neg hd]
      exact ((markDirty_mono f).2 _ _).dirtyAt_mono
        (setDirty_dirtyAt_self (nodes_getElem?_eq_nodeD hn))

/-- After the incoming loop, the source of every processed edge is dirty. -/
theorem markDirtyIncoming_marks_sources : ∀ fuel : Nat, ∀ (a : Arena) (es : List Nat),
    ArenaWF a → fuel > phiClean a + es.length →
    (∀ ei ∈ es, ei < a.edges.length) →
    ∀ ei ∈ es, dirtyAt (markDirtyIncoming fuel a es) (edgeD a ei).source = true := by
  intro fuel
  induction fuel with
  | zero =>
    intro a es hwf hf hval ei hei
    have : 0 < es.length := List.length_pos.mpr (List.ne_nil_of_mem hei)
    exfalso
    omega
  | succ fuel ih =>
    intro a es hwf hf hval ei hei
    cases es with
    | nil => simp at hei
    | cons e0 rest =>
      have hv0 : e0 < a.edges.length := hval e0 (List.mem_cons_self _ _)
      simp only [markDirtyIncoming]
      rw [edges_getElem?_eq_edgeD hv0]
      dsimp only
      have hmono : ArenaMono a (markDirtyRecFuel fuel a (edgeD a e0).source) :=
        (markDirty_mono fuel).1 a (edgeD a e0).source
      rcases List.mem_cons.mp hei with heq | hrest
      · subst heq
        have hsrc_lt : (edgeD a ei).source < a.nodes.length :=
          (hwf.edgeBounds _ (edgeD_mem hv0)).1
        have hlen1 : (ei :: rest).length = rest.length + 1 := rfl
        have hsrc : dirtyAt (markDirtyRecFuel fuel a (edgeD a ei).source) (edgeD a ei).source = true :=
          markDirty_marks_self (by omega) hsrc_lt
        exact ((markDirty_mono fuel).2 _ rest).dirtyAt_mono hsrc
      · have hwf' := hmono.wf hwf
        have hphi := hmono.phiClean_le
        have hlen : rest.length + 1 = (e0 :: rest).length := by simp
        have := ih (markDirtyRecFuel fuel a (edgeD a e0).source) rest hwf'
          (by simp at hf ⊢; omega)
          (fun ei' hei' => by rw [hmono.1]; exact hval ei' (List.mem_cons_of_mem _ hei'))
          ei hrest
        rwa [hmono.edgeD_eq] at this

/-- Every node newly marked by the pass has, in the final arena, all the
sources of its incoming edges dirty. -/
theorem markDirty_P1 : ∀ fuel : Nat,
    (∀ a n, ArenaWF a → fuel > phiClean a →
      ∀ j, dirtyAt (markDirtyRecFuel fuel a n) j = true →
        dirtyAt a j = true ∨
        (∀ ei ∈ (nodeD a j).incoming,
          dirtyAt (markDirtyRecFuel fuel a n) (edgeD a ei).source = true)) ∧
    (∀ a es, ArenaWF a → fuel > phiClean a + es.length →
      (∀ ei ∈ es, ei < a.edges.length) →
      ∀ j, dirtyAt (markDirtyIncoming fuel a es) j = true →
        dirtyAt a j = true ∨
        (∀ ei ∈ (nodeD a j).incoming,
          dirtyAt (markDirtyIncoming fuel a es) (edgeD a ei).source = true)) := by
  intro fuel
  induction fuel with
  | zero =>
    constructor
    · intro a n hwf hf
      exact absurd hf (by omega)
    · intro a es hwf hf hval j
      cases es with
      | nil => intro h; exact Or.inl h
      | cons e0 rest =>
        exfalso
        have : 0 < (e0 :: rest).length := by simp
        omega
  | succ fuel ih =>
    constructor
    · intro a n hwf hf j hj
      cases hnd : a.nodes[n]? with
      | none =>
        simp only [markDirtyRecFuel, hnd] at hj
        exact Or.inl hj
      | some nd =>
        by_cases hd : nd.dirty = true
        · simp only [markDirtyRecFuel, hnd, hd, if_true] at hj
          exact Or.inl hj
        · have hd' : nd.dirty = false := by simpa using hd
          have hlt : n < a.nodes.length := lt_of_getElem?_some hnd
          have hndD : nodeD a n = nd := getElem_of_getElem?_some _ hnd
          simp only [markDirtyRecFuel, hnd, hd', if_false, Bool.false_eq_true] at hj ⊢
          set a1 := { a with nodes := a.nodes.set n { nd with dirty := true, version := nd.version + 1 } } with ha1
          have hmono1 : ArenaMono a a1 := setDirty_mono hnd
          have hwf1 : ArenaWF a1 := hmono1.wf hwf
          have hphi1 : phiClean a1 + (nd.incoming.length + 1) = phiClean a := setDirty_phi hnd hd'
          have hfuel1 : fuel > phiClean a1 + nd.incoming.length := by omega
          have hval1 : ∀ ei ∈ nd.incoming, ei < a1.edges.length := by
            intro ei hei
            rw [hmono1.1]
            exact (hwf.inChar n hlt ei (hndD ▸ hei)).1
          rcases ih.2 a1 nd.incoming hwf1 hfuel1 hval1 j hj with h1 | hall
          · by_cases hjn : j = n
            · subst hjn
              right
              intro ei hei
              have := markDirtyIncoming_marks_sources fuel a1 nd.incoming hwf1 hfuel1 hval1
                ei (hndD ▸ hei)
              rwa [hmono1.edgeD_eq] at this
            · left
              rwa [setDirty_dirtyAt_ne (fun h => hjn h.symm)] at h1
          · right
            intro ei hei
            have heq := (hmono1.nodeD_fields j).2.1
            rw [← heq] at hei
            have := hall ei hei
            rwa [hmono1.edgeD_eq] at this
    · intro a es hwf hf hval j hj
      cases es with
      | nil =>
        simp only [markDirtyIncoming] at hj
        exact Or.inl hj
      | cons e0 rest =>
        have hv0 : e0 < a.edges.length := hval e0 (List.mem_cons_self _ _)
        simp only [markDirtyIncoming] at hj
        rw [edges_getElem?_eq_edgeD hv0] at hj
        dsimp only at hj
        simp only [markDirtyIncoming]
        rw [edges_getElem?_eq_edgeD hv0]
        dsimp only
        set a' := markDirtyRecFuel fuel a (edgeD a e0).source with ha'
        have hmono : ArenaMono a a' := (markDirty_mono fuel).1 a (edgeD a e0).source
        have hwf' := hmono.wf hwf
        have hphi := hmono.phiClean_le
        have hfuel' : fuel > phiClean a' + rest.length := by simp at hf; omega
        have hval' : ∀ ei ∈ rest, ei < a'.edges.length := by
          intro ei hei
          rw [hmono.1]
          exact hval ei (List.mem_cons_of_mem _ hei)
        rcases ih.2 a' rest hwf' hfuel' hval' j hj with h1 | hall
        · rcases ih.1 a (edgeD a e0).source hwf (by simp at hf; omega) j h1 with h2 | hall2
          · exact Or.inl h2
          · right
            intro ei hei
            exact ((markDirty_mono fuel).2 a' rest).dirtyAt_mono (hall2 ei hei)
        · right
          intro ei hei
          have heq := (hmono.nodeD_fields j).2.1
          rw [← heq] at hei
          have := hall ei hei
          rwa [hmono.edgeD_eq] at this

/-- Master closure lemma: after marking p, every remaining reachability
relation into a dirty node forces dirtiness upward, provided the input arena
satisfies the closure condition away from p. -/
theorem markDirty_master {a : Arena} (hwf : ArenaWF a) {p : Nat} (hp : p < a.nodes.length)
    {fuel : Nat} (hfuel : fuel > phiClean a)
    (hyp : ∀ e ∈ a.edges, dirtyAt a e.target = true → dirtyAt a e.source = true ∨ e.source = p) :
    ∀ m y, a.Reaches m y → dirtyAt (markDirtyRecFuel fuel a p) y = true →
      dirtyAt (markDirtyRecFuel fuel a p) m = true := by
  intro m y hreach
  induction hreach with
  | refl k hk => exact fun h => h
  | step e he hm hsub ih =>
    intro hy
    have ht := ih hy
    rcases (markDirty_P1 fuel).1 a p hwf hfuel e.target ht with hold | hall
    · rcases hyp e he hold with hsrc | hsrcp
      · exact ((markDirty_mono fuel).1 a p).dirtyAt_mono hsrc
      · rw [hsrcp]
        exact markDirty_marks_self (by omega) hp
    · obtain ⟨ei, hval, heq⟩ := mem_edges_exists_idx he
      have hin := hwf.inComplete ei hval
      rw [heq] at hin
      have := hall ei hin
      rwa [heq] at this

/-! Indexing helpers for the arena-update characterizations. -/

theorem getD_set_self' {α : Type} (l : List α) (i : Nat) (x d : α) (h : i < l.length) :
    (l.set i x).getD i d = x := by
  rw [List.getD_eq_getElem?_getD, List.getElem?_set_self', List.getElem?_eq_getElem h]
  rfl

theorem getD_set_ne' {α : Type} (l : List α) (i j : Nat) (x d : α) (h : i ≠ j) :
    (l.set i x).getD j d = l.getD j d := by
  rw [List.getD_eq_getElem?_getD, List.getElem?_set_ne h, ← List.getD_eq_getElem?_getD]

theorem getD_append_left {α : Type} (l1 l2 : List α) (i : Nat) (d : α) (h : i < l1.length) :
    (l1 ++ l2).getD i d = l1.getD i d := by
  rw [List.getD_eq_getElem?_getD, List.getElem?_append_left h, ← List.getD_eq_getElem?_getD]

theorem getD_append_len {α : Type} (l : List α) (x d : α) :
    (l ++ [x]).getD l.length d = x := by
  rw [List.getD_eq_getElem?_getD, List.getElem?_concat_length]
  rfl

theorem mem_upsertA {α β : Type} [DecidableEq α] :
    ∀ {m : List (α × β)} {k : α} {v : β} {p : α × β},
      p ∈ upsertA m k v → p = (k, v) ∨ p ∈ m := by
  intro m
  induction m with
  | nil => intro k v p hp; simpa [upsertA] using hp
  | cons q rest ih =>
    intro k v p hp
    obtain ⟨qk, qv⟩ := q
    by_cases hk : qk = k
    · subst hk
      simp only [upsertA, if_pos rfl] at hp
      rcases List.mem_cons.mp hp with h | h
      · exact Or.inl h
      · exact Or.inr (List.mem_cons_of_mem _ h)
    · simp only [upsertA, if_neg hk] at hp
      rcases List.mem_cons.mp hp with h | h
      · exact Or.inr (h ▸ List.mem_cons_self _ _)
      · rcases ih h with h' | h'
        · exact Or.inl h'
        · exact Or.inr (List.mem_cons_of_mem _ h')

/-! Characterization of Arena.add_node. -/

theorem add_node_existing {a : Arena} {component_id : String} {idx : Nat}
    (h : lookupA a.component_index component_id = some idx) :
    a.add_node component_id = (idx, a) := by
  unfold Arena.add_node
  rw [h]

theorem add_node_fresh {a : Arena} (hwf : ArenaWF a) {component_id : String}
    (h : lookupA a.component_index component_id = none) :
    a.add_node component_id = (a.nodes.length, addNodeFreshArena a component_id) := by
  unfold Arena.add_node addNodeFreshArena freshNode
  rw [h, hwf.freeNodes]

theorem addNodeFreshArena_nodes (a : Arena) (component_id : String) :
    (addNodeFreshArena a component_id).nodes = a.nodes ++ [freshNode component_id] := rfl

theorem addNodeFreshArena_edges (a : Arena) (component_id : String) :
    (addNodeFreshArena a component_id).edges = a.edges := rfl

theorem addNodeFreshArena_len (a : Arena) (component_id : String) :
    (addNodeFreshArena a component_id).nodes.length = a.nodes.length + 1 := by
  rw [addNodeFreshArena_nodes]
  simp

theorem addNodeFreshArena_index (a : Arena) (component_id : String) :
    (addNodeFreshArena a component_id).component_index =
      upsertA a.component_index component_id a.nodes.length := rfl

theorem add_node_fresh_wf {a : Arena} (hwf : ArenaWF a) {component_id : String}
    (h : lookupA a.component_index component_id = none) :
    ArenaWF (a.add_node component_id).2 := by
  rw [add_node_fresh hwf h]
  dsimp only
  have hlen : (addNodeFreshArena a component_id).nodes.length = a.nodes.length + 1 :=
    addNodeFreshArena_len a component_id
  have hnodeD_lt : ∀ i, i < a.nodes.length →
      nodeD (addNodeFreshArena a component_id) i = nodeD a i := by
    intro i hi
    unfold nodeD
    rw [addNodeFreshArena_nodes]
    exact getD_append_left _ _ _ _ hi
  have hnodeD_len :
      nodeD (addNodeFreshArena a component_id) a.nodes.length = freshNode component_id := by
    unfold nodeD
    rw [addNodeFreshArena_nodes]
    exact getD_append_len _ _ _
  have hedgeD : ∀ ei, edgeD (addNodeFreshArena a component_id) ei = edgeD a ei :=
    fun ei => rfl
  refine ⟨hwf.freeNodes, hwf.freeEdges, ?_, ?_, ?_, ?_, ?_, ?_, ?_, ?_⟩
  · intro e he
    have := hwf.edgeBounds e he
    simp only [hlen]
    omega
  · intro i hi ei hei
    simp only [hlen] at hi
    rcases Nat.lt_succ_iff_lt_or_eq.mp hi with hi' | hi'
    · rw [hnodeD_lt i hi'] at hei
      rw [hedgeD]
      exact hwf.outChar i hi' ei hei
    · subst hi'
      rw [hnodeD_len] at hei
      simp [freshNode] at hei
  · intro i hi ei hei
    simp only [hlen] at hi
    rcases Nat.lt_succ_iff_lt_or_eq.mp hi with hi' | hi'
    · rw [hnodeD_lt i hi'] at hei
      rw [hedgeD]
      exact hwf.inChar i hi' ei hei
    · subst hi'
      rw [hnodeD_len] at hei
      simp [freshNode] at hei
  · intro ei hb
    rw [hedgeD]
    have hsl := (hwf.edgeBounds _ (edgeD_mem hb)).1
    rw [hnodeD_lt _ hsl]
    exact hwf.outComplete ei hb
  · intro ei hb
    rw [hedgeD]
    have htl := (hwf.edgeBounds _ (edgeD_mem hb)).2
    rw [hnodeD_lt _ htl]
    exact hwf.inComplete ei hb
  · intro i hi
    simp only [hlen] at hi
    rcases Nat.lt_succ_iff_lt_or_eq.mp hi with hi' | hi'
    · rw [hnodeD_lt i hi']
      exact hwf.adjNodup i hi'
    · subst hi'
      rw [hnodeD_len]
      simp [freshNode]
  · intro i hi
    simp only [hlen] at hi
    rw [addNodeFreshArena_index]
    rcases Nat.lt_succ_iff_lt_or_eq.mp hi with hi' | hi'
    · rw [hnodeD_lt i hi']
      have hcidne : component_id ≠ (nodeD a i).component_id := by
        intro heq
        have hidx := hwf.indexOf i hi'
        rw [← heq, h] at hidx
        exact absurd hidx (by simp)
      rw [lookupA_upsert_ne _ _ _ _ hcidne]
      exact hwf.indexOf i hi'
    · subst hi'
      rw [hnodeD_len]
      simp only [freshNode]
      exact lookupA_upsert_self _ _ _
  · intro p hp
    rw [addNodeFreshArena_index] at hp
    rcases mem_upsertA hp with hp' | hp'
    · subst hp'
      simp only [hlen]
      exact ⟨by omega, by rw [hnodeD_len]; rfl⟩
    · have := hwf.indexMem p hp'
      simp only [hlen]
      refine ⟨by omega, ?_⟩
      rw [hnodeD_lt _ this.1]
      exact this.2

theorem add_node_wf {a : Arena} (hwf : ArenaWF a) (component_id : String) :
    ArenaWF (a.add_node component_id).2 := by
  cases h : lookupA a.component_index component_id with
  | some idx => rw [add_node_existing h]; exact hwf
  | none => exact add_node_fresh_wf hwf h

/-- A path between distinct indices ends with an edge into its endpoint. -/
theorem reaches_last_edge {edges : List Edge} {L m n : Nat} (h : ReachesE edges L m n) :
    m ≠ n → ∃ e ∈ edges, e.target = n := by
  induction h with
  | refl k _ => intro hne; exact absurd rfl hne
  | @step n' e he hm hsub ih =>
    intro _
    by_cases ht : e.target = n'
    · exact ⟨e, he, ht⟩
    · exact ih ht

theorem add_node_dirtyAt {a : Arena} {component_id : String} (j : Nat) :
    dirtyAt (addNodeFreshArena a component_id) j =
      (if j = a.nodes.length then true else dirtyAt a j) := by
  unfold dirtyAt
  rw [addNodeFreshArena_nodes]
  by_cases hj : j = a.nodes.length
  · subst hj
    rw [if_pos rfl, List.getElem?_concat_length]
    rfl
  · rw [if_neg hj]
    rcases Nat.lt_or_ge j a.nodes.length with hlt | hge
    · rw [List.getElem?_append_left hlt]
    · have h1 : (a.nodes ++ [freshNode component_id])[j]? = none :=
        List.getElem?_eq_none (by simp; omega)
      have h2 : a.nodes[j]? = none := List.getElem?_eq_none (by omega)
      rw [h1, h2]

theorem add_node_closed {a : Arena} (hwf : ArenaWF a) (hcl : DirtyClosed a)
    (component_id : String) : DirtyClosed (a.add_node component_id).2 := by
  cases h : lookupA a.component_index component_id with
  | some idx => rw [add_node_existing h]; exact hcl
  | none =>
    rw [add_node_fresh hwf h]
    intro j hj i hreach
    rw [add_node_dirtyAt] at hj ⊢
    have hreach' : ReachesE a.edges (a.nodes.length + 1) i j := by
      unfold Arena.Reaches at hreach
      rw [addNodeFreshArena_edges, addNodeFreshArena_len] at hreach
      exact hreach
    by_cases hij : i = a.nodes.length
    · rw [if_pos hij]
    · rw [if_neg hij]
      have hi_lt : i < a.nodes.length := by
        have := hreach'.src_lt
        omega
      by_cases hjl : j = a.nodes.length
      · exfalso
        subst hjl
        obtain ⟨e, he, ht⟩ := reaches_last_edge hreach' hij
        have := (hwf.edgeBounds e he).2
        omega
      · rw [if_neg hjl] at hj
        have : a.Reaches i j :=
          ReachesE.len_restrict (fun e he => hwf.edgeBounds e he) hi_lt hreach'
        exact hcl j hj i this

/-! Characterization of Arena.add_edge. -/

theorem add_edge_eq {a : Arena} (hwf : ArenaWF a) (p c : Nat) (item : BomItem) :
    a.add_edge p c item = (a.edges.length, (addEdgeArena a p c item).mark_dirty_recursive p) := by
  unfold Arena.add_edge addEdgeArena
  rw [hwf.freeEdges]

theorem modifyNode_edges (a : Arena) (i : Nat) (f : Node → Node) :
    (a.modifyNode i f).edges = a.edges := by
  unfold Arena.modifyNode
  cases a.nodes[i]? <;> rfl

theorem modifyNode_index (a : Arena) (i : Nat) (f : Node → Node) :
    (a.modifyNode i f).component_index = a.component_index := by
  unfold Arena.modifyNode
  cases a.nodes[i]? <;> rfl

theorem modifyNode_free (a : Arena) (i : Nat) (f : Node → Node) :
    (a.modifyNode i f).free_nodes = a.free_nodes ∧
      (a.modifyNode i f).free_edges = a.free_edges := by
  unfold Arena.modifyNode
  cases a.nodes[i]? <;> exact ⟨rfl, rfl⟩

theorem modifyNode_nodes_some {a : Arena} {i : Nat} {nd : Node} (f : Node → Node)
    (h : a.nodes[i]? = some nd) : (a.modifyNode i f).nodes = a.nodes.set i (f nd) := by
  unfold Arena.modifyNode
  rw [h]

theorem addEdgeArena_edges {a : Arena} (hwf : ArenaWF a) {p c : Nat}
    (hp : p < a.nodes.length) (hc : c < a.nodes.length) (item : BomItem) :
    (addEdgeArena a p c item).edges =
      a.edges ++ [⟨p, c, item, item.effective_quantity⟩] := by
  unfold addEdgeArena
  rw [modifyNode_edges, modifyNode_edges]

theorem addEdgeArena_index {a : Arena} {p c : Nat} (item : BomItem) :
    (addEdgeArena a p c item).component_index = a.component_index := by
  unfold addEdgeArena
  rw [modifyNode_index, modifyNode_index]

theorem addEdgeArena_free (a : Arena) (p c : Nat) (item : BomItem) :
    (addEdgeArena a p c item).free_nodes = a.free_nodes ∧
      (addEdgeArena a p c item).free_edges = a.free_edges := by
  unfold addEdgeArena
  rw [(modifyNode_free _ _ _).1, (modifyNode_free _ _ _).2,
    (modifyNode_free _ _ _).1, (modifyNode_free _ _ _).2]
  exact ⟨rfl, rfl⟩

theorem addEdgeArena_nodes {a : Arena} {p c : Nat}
    (hp : p < a.nodes.length) (hc : c < a.nodes.length) (hpc : p ≠ c) (item : BomItem) :
    (addEdgeArena a p c item).nodes =
      (a.nodes.set p { nodeD a p with outgoing := (nodeD a p).outgoing ++ [a.edges.length] }).set
        c { nodeD a c with incoming := (nodeD a c).incoming ++ [a.edges.length] } := by
  unfold addEdgeArena
  have h1 : ({ a with edges := a.edges ++ [⟨p, c, item, item.effective_quantity⟩] } : Arena).nodes[p]? = some (nodeD a p) :=
    nodes_getElem?_eq_nodeD hp
  rw [modifyNode_nodes_some _ ?hc]
  case hc =>
    rw [modifyNode_nodes_some _ h1]
    dsimp only
    rw [List.getElem?_set_ne hpc]
    exact nodes_getElem?_eq_nodeD hc
  rw [modifyNode_nodes_some _ h1]

theorem addEdgeArena_len {a : Arena} {p c : Nat}
    (hp : p < a.nodes.length) (hc : c < a.nodes.length) (hpc : p ≠ c) (item : BomItem) :
    (addEdgeArena a p c item).nodes.length = a.nodes.length := by
  rw [addEdgeArena_nodes hp hc hpc]
  simp

theorem addEdgeArena_nodeD_p {a : Arena} {p c : Nat}
    (hp : p < a.nodes.length) (hc : c < a.nodes.length) (hpc : p ≠ c) (item : BomItem) :
    nodeD (addEdgeArena a p c item) p =
      { nodeD a p with outgoing := (nodeD a p).outgoing ++ [a.edges.length] } := by
  unfold nodeD
  rw [addEdgeArena_nodes hp hc hpc]
  rw [getD_set_ne' _ _ _ _ _ (fun h => hpc h.symm)]
  rw [getD_set_self' _ _ _ _ hp]
  rfl

theorem addEdgeArena_nodeD_c {a : Arena} {p c : Nat}
    (hp : p < a.nodes.length) (hc : c < a.nodes.length) (hpc : p ≠ c) (item : BomItem) :
    nodeD (addEdgeArena a p c item) c =
      { nodeD a c with incoming := (nodeD a c).incoming ++ [a.edges.length] } := by
  unfold nodeD
  rw [addEdgeArena_nodes hp hc hpc]
  rw [getD_set_self' _ _ _ _ (by simp; omega)]
  rfl

theorem addEdgeArena_nodeD_other {a : Arena} {p c : Nat}
    (hp : p < a.nodes.length) (hc : c < a.nodes.length) (hpc : p ≠ c) (item : BomItem)
    {i : Nat} (hip : i ≠ p) (hic : i ≠ c) :
    nodeD (addEdgeArena a p c item) i = nodeD a i := by
  unfold nodeD
  rw [addEdgeArena_nodes hp hc hpc]
  rw [getD_set_ne' _ _ _ _ _ (fun h => hic h.symm)]
  rw [getD_set_ne' _ _ _ _ _ (fun h => hip h.symm)]

theorem addEdgeArena_dirtyAt {a : Arena} {p c : Nat}
    (hp : p < a.nodes.length) (hc : c < a.nodes.length) (hpc : p ≠ c) (item : BomItem)
    (j : Nat) : dirtyAt (addEdgeArena a p c item) j = dirtyAt a j := by
  unfold dirtyAt
  by_cases hjl : j < a.nodes.length
  · rw [nodes_getElem?_eq_nodeD hjl]
    have hjl' : j < (addEdgeArena a p c item).nodes.length := by
      rw [addEdgeArena_len hp hc hpc]; exact hjl
    rw [nodes_getElem?_eq_nodeD hjl']
    by_cases hjp : j = p
    · subst hjp
      rw [addEdgeArena_nodeD_p hp hc hpc]
    · by_cases hjc : j = c
      · subst hjc
        rw [addEdgeArena_nodeD_c hp hc hpc]
      · rw [addEdgeArena_nodeD_other hp hc hpc item hjp hjc]
  · have h1 : (addEdgeArena a p c item).nodes[j]? = none :=
      List.getElem?_eq_none (by rw [addEdgeArena_len hp hc hpc]; omega)
    have h2 : a.nodes[j]? = none := List.getElem?_eq_none (by omega)
    rw [h1, h2]

theorem addEdgeArena_edgeD {a : Arena} (hwf : ArenaWF a) {p c : Nat}
    (hp : p < a.nodes.length) (hc : c < a.nodes.length) (item : BomItem) :
    (∀ ei < a.edges.length, edgeD (addEdgeArena a p c item) ei = edgeD a ei) ∧
      edgeD (addEdgeArena a p c item) a.edges.length =
        ⟨p, c, item, item.effective_quantity⟩ := by
  constructor
  · intro ei hei
    unfold edgeD
    rw [addEdgeArena_edges hwf hp hc]
    exact getD_append_left _ _ _ _ hei
  · unfold edgeD
    rw [addEdgeArena_edges hwf hp hc]
    exact getD_append_len _ _ _

theorem addEdgeArena_wf {a : Arena} (hwf : ArenaWF a) {p c : Nat}
    (hp : p < a.nodes.length) (hc : c < a.nodes.length) (hpc : p ≠ c) (item : BomItem) :
    ArenaWF (addEdgeArena a p c item) := by
  set E := a.edges.length with hE
  have hedges := addEdgeArena_edges hwf hp hc item
  have hlen := addEdgeArena_len hp hc hpc item
  have hfree := addEdgeArena_free a p c item
  have hD := addEdgeArena_edgeD hwf hp hc item
  have hDp := addEdgeArena_nodeD_p hp hc hpc item
  have hDc := addEdgeArena_nodeD_c hp hc hpc item
  have hDo : ∀ i : Nat, i ≠ p → i ≠ c → nodeD (addEdgeArena a p c item) i = nodeD a i :=
    fun _ hip hic => addEdgeArena_nodeD_other hp hc hpc item hip hic
  have houtAt : ∀ i, i < a.nodes.length →
      (nodeD (addEdgeArena a p c item) i).outgoing =
        (if i = p then (nodeD a p).outgoing ++ [E] else (nodeD a i).outgoing) := by
    intro i hi
    by_cases hip : i = p
    · subst hip; rw [hDp, if_pos rfl]
    · rw [if_neg hip]
      by_cases hic : i = c
      · subst hic; rw [hDc]
      · rw [hDo i hip hic]
  have hinAt : ∀ i, i < a.nodes.length →
      (nodeD (addEdgeArena a p c item) i).incoming =
        (if i = c then (nodeD a c).incoming ++ [E] else (nodeD a i).incoming) := by
    intro i hi
    by_cases hic : i = c
    · subst hic; rw [hDc, if_pos rfl]
    · rw [if_neg hic]
      by_cases hip : i = p
      · subst hip; rw [hDp]
      · rw [hDo i hip hic]
  have hcidAt : ∀ i, (nodeD (addEdgeArena a p c item) i).component_id =
      (nodeD a i).component_id := by
    intro i
    by_cases hip : i = p
    · subst hip; rw [hDp]
    · by_cases hic : i = c
      · subst hic; rw [hDc]
      · rw [hDo i hip hic]
  have hElen : (addEdgeArena a p c item).edges.length = E + 1 := by
    rw [hedges]; simp
  refine ⟨hfree.1.trans hwf.freeNodes, hfree.2.trans hwf.freeEdges, ?_, ?_, ?_, ?_, ?_, ?_, ?_, ?_⟩
  · intro e he
    rw [hedges] at he
    rw [hlen]
    rcases List.mem_append.mp he with he' | he'
    · exact hwf.edgeBounds e he'
    · have : e = ⟨p, c, item, item.effective_quantity⟩ := by simpa using he'
      subst this
      exact ⟨hp, hc⟩
  · intro i hi ei hei
    rw [hlen] at hi
    rw [houtAt i hi] at hei
    rw [hElen]
    by_cases hip : i = p
    · rw [if_pos hip] at hei
      rcases List.mem_append.mp hei with h' | h'
      · obtain ⟨hv, hs⟩ := hwf.outChar p hp ei h'
        rw [(hD.1 ei hv)]
        exact ⟨by omega, hip ▸ hs⟩
      · have : ei = E := by simpa using h'
        subst this
        rw [hD.2]
        exact ⟨by omega, hip.symm⟩
    · rw [if_neg hip] at hei
      obtain ⟨hv, hs⟩ := hwf.outChar i hi ei hei
      rw [(hD.1 ei hv)]
      exact ⟨by omega, hs⟩
  · intro i hi ei hei
    rw [hlen] at hi
    rw [hinAt i hi] at hei
    rw [hElen]
    by_cases hic : i = c
    · rw [if_pos hic] at hei
      rcases List.mem_append.mp hei with h' | h'
      · obtain ⟨hv, hs⟩ := hwf.inChar c hc ei h'
        rw [(hD.1 ei hv)]
        exact ⟨by omega, hic ▸ hs⟩
      · have : ei = E := by simpa using h'
        subst this
        rw [hD.2]
        exact ⟨by omega, hic.symm⟩
    · rw [if_neg hic] at hei
      obtain ⟨hv, hs⟩ := hwf.inChar i hi ei hei
      rw [(hD.1 ei hv)]
      exact ⟨by omega, hs⟩
  · intro ei hb
    rw [hElen] at hb
    rcases Nat.lt_succ_iff_lt_or_eq.mp hb with hb' | hb'
    · rw [hD.1 ei hb']
      have hse := (hwf.edgeBounds _ (edgeD_mem hb')).1
      rw [houtAt _ hse]
      by_cases hsp : (edgeD a ei).source = p
      · rw [if_pos hsp]
        exact List.mem_append_left _ (hsp ▸ hwf.outComplete ei hb')
      · rw [if_neg hsp]
        exact hwf.outComplete ei hb'
    · subst hb'
      rw [hD.2]
      rw [houtAt p hp, if_pos rfl]
      simp
  · intro ei hb
    rw [hElen] at hb
    rcases Nat.lt_succ_iff_lt_or_eq.mp hb with hb' | hb'
    · rw [hD.1 ei hb']
      have hte := (hwf.edgeBounds _ (edgeD_mem hb')).2
      rw [hinAt _ hte]
      by_cases htc : (edgeD a ei).target = c
      · rw [if_pos htc]
        exact List.mem_append_left _ (htc ▸ hwf.inComplete ei hb')
      · rw [if_neg htc]
        exact hwf.inComplete ei hb'
    · subst hb'
      rw [hD.2]
      rw [hinAt c hc, if_pos rfl]
      simp
  · intro i hi
    rw [hlen] at hi
    rw [houtAt i hi, hinAt i hi]
    constructor
    · by_cases hip : i = p
      · rw [if_pos hip]
        refine List.Nodup.append ((hwf.adjNodup p hp).1) (by simp) ?_
        intro x hx1 hx2
        have : x = E := by simpa using hx2
        subst this
        have := (hwf.outChar p hp E hx1).1
        omega
      · rw [if_neg hip]
        exact (hwf.adjNodup i hi).1
    · by_cases hic : i = c
      · rw [if_pos hic]
        refine List.Nodup.append ((hwf.adjNodup c hc).2) (by simp) ?_
        intro x hx1 hx2
        have : x = E := by simpa using hx2
        subst this
        have := (hwf.inChar c hc E hx1).1
        omega
      · rw [if_neg hic]
        exact (hwf.adjNodup i hi).2
  · intro i hi
    rw [hlen] at hi
    rw [hcidAt i, addEdgeArena_index item]
    exact hwf.indexOf i hi
  · intro q hq
    rw [addEdgeArena_index item] at hq
    have := hwf.indexMem q hq
    rw [hlen, hcidAt q.2]
    exact this

/-! Dirty-closure preservation for every arena operation. -/

theorem markDirtyRecFuel_invalid {fuel : Nat} {a : Arena} {n : Nat}
    (h : a.nodes[n]? = none) : markDirtyRecFuel fuel a n = a := by
  cases fuel with
  | zero => rfl
  | succ f => simp [markDirtyRecFuel, h]

theorem mark_dirty_recursive_closed {a : Arena} (hwf : ArenaWF a) (hcl : DirtyClosed a)
    (n : Nat) : DirtyClosed (a.mark_dirty_recursive n) := by
  by_cases hn : n < a.nodes.length
  · have hyp : ∀ e ∈ a.edges, dirtyAt a e.target = true →
        dirtyAt a e.source = true ∨ e.source = n := fun e he hd =>
      Or.inl (hcl e.target hd e.source
        (ReachesE.single he (hwf.edgeBounds e he).1 (hwf.edgeBounds e he).2))
    have hfuel : a.inSum + 1 > phiClean a := by
      have := phiClean_le_inSum a
      omega
    intro j hj i hreach
    have hmono := (markDirty_mono (a.inSum + 1)).1 a n
    unfold Arena.mark_dirty_recursive at hj hreach ⊢
    rw [hmono.reaches_iff] at hreach
    exact markDirty_master hwf hn hfuel hyp i j hreach hj
  · have heq : a.mark_dirty_recursive n = a := by
      unfold Arena.mark_dirty_recursive
      exact markDirtyRecFuel_invalid (List.getElem?_eq_none (by omega))
    rw [heq]
    exact hcl

theorem mark_dirty_recursive_ancestors {a : Arena} (hwf : ArenaWF a) (hcl : DirtyClosed a)
    {n : Nat} (hn : n < a.nodes.length) {m : Nat} (hm : a.Reaches m n) :
    dirtyAt (a.mark_dirty_recursive n) m = true := by
  have hyp : ∀ e ∈ a.edges, dirtyAt a e.target = true →
      dirtyAt a e.source = true ∨ e.source = n := fun e he hd =>
    Or.inl (hcl e.target hd e.source
      (ReachesE.single he (hwf.edgeBounds e he).1 (hwf.edgeBounds e he).2))
  have hfuel : a.inSum + 1 > phiClean a := by
    have := phiClean_le_inSum a
    omega
  unfold Arena.mark_dirty_recursive
  exact markDirty_master hwf hn hfuel hyp m n hm (markDirty_marks_self (by omega) hn)

theorem add_edge_closed {a : Arena} (hwf : ArenaWF a) (hcl : DirtyClosed a)
    {p c : Nat} (hp : p < a.nodes.length) (hc : c < a.nodes.length) (hpc : p ≠ c)
    (item : BomItem) : DirtyClosed (a.add_edge p c item).2 := by
  rw [add_edge_eq hwf]
  dsimp only
  have hwf3 : ArenaWF (addEdgeArena a p c item) := addEdgeArena_wf hwf hp hc hpc item
  have hlen3 := addEdgeArena_len hp hc hpc item
  have hp3 : p < (addEdgeArena a p c item).nodes.length := by
    rw [hlen3]
    exact hp
  have hyp : ∀ e ∈ (addEdgeArena a p c item).edges,
      dirtyAt (addEdgeArena a p c item) e.target = true →
      dirtyAt (addEdgeArena a p c item) e.source = true ∨ e.source = p := by
    intro e he hd
    rw [addEdgeArena_edges hwf hp hc] at he
    rcases List.mem_append.mp he with he' | he'
    · left
      rw [addEdgeArena_dirtyAt hp hc hpc] at hd ⊢
      have hbounds := hwf.edgeBounds e he'
      exact hcl e.target hd e.source (ReachesE.single he' hbounds.1 hbounds.2)
    · right
      have : e = ⟨p, c, item, item.effective_quantity⟩ := by simpa using he'
      rw [this]
  have hfuel : (addEdgeArena a p c item).inSum + 1 > phiClean (addEdgeArena a p c item) := by
    have := phiClean_le_inSum (addEdgeArena a p c item)
    omega
  intro j hj i hreach
  have hmono := (markDirty_mono ((addEdgeArena a p c item).inSum + 1)).1 (addEdgeArena a p c item) p
  unfold Arena.mark_dirty_recursive at hj hreach ⊢
  rw [hmono.reaches_iff] at hreach
  exact markDirty_master hwf3 hp3 hfuel hyp i j hreach hj

theorem clear_dirty_closed (a : Arena) : DirtyClosed a.clear_dirty_flags := by
  intro j hj i _
  exfalso
  unfold dirtyAt Arena.clear_dirty_flags at hj
  rw [List.getElem?_map] at hj
  cases h : a.nodes[j]? with
  | none => rw [h] at hj; exact Bool.noConfusion hj
  | some nd => rw [h] at hj; exact Bool.noConfusion hj

theorem dirtyClosed_of_all_clean {a : Arena}
    (h : ∀ i < a.nodes.length, dirtyAt a i = false) : DirtyClosed a := by
  intro j hj i _
  exfalso
  by_cases hjl : j < a.nodes.length
  · rw [h j hjl] at hj
    exact absurd hj (by simp)
  · unfold dirtyAt at hj
    rw [List.getElem?_eq_none (by omega)] at hj
    simp at hj

/-- C5: Dirty closure is an invariant: after mark_dirty(n), and after every
Arena operation (add_node, add_edge, mark_dirty_recursive, clear_dirty_flags),
whenever a node is dirty every ancestor of it is dirty; and after mark_dirty(n)
every ancestor of n is dirty.  The add_edge operation is stated for the live
distinct endpoints it is invoked with in the source. -/
theorem C5_dirty_closure :
    (∀ (a : Arena) (cid : String), ArenaWF a → DirtyClosed a →
      DirtyClosed (a.add_node cid).2) ∧
    (∀ (a : Arena) (p c : Nat) (item : BomItem), ArenaWF a → DirtyClosed a →
      p < a.nodes.length → c < a.nodes.length → p ≠ c →
      DirtyClosed (a.add_edge p c item).2) ∧
    (∀ (a : Arena) (n : Nat), ArenaWF a → DirtyClosed a →
      DirtyClosed (a.mark_dirty_recursive n)) ∧
    (∀ a : Arena, DirtyClosed a.clear_dirty_flags) ∧
    (∀ (g : BomGraph) (cid : String) (n : Nat), ArenaWF g.arena → DirtyClosed g.arena →
      g.find_node cid = some n →
      DirtyClosed (g.mark_dirty cid).2.arena ∧
      (∀ m, g.arena.Reaches m n → dirtyAt (g.mark_dirty cid).2.arena m = true)) := by
  refine ⟨?_, ?_, ?_, ?_, ?_⟩
  · intro a cid hwf hcl
    exact add_node_closed hwf hcl cid
  · intro a p c item hwf hcl hp hc hpc
    exact add_edge_closed hwf hcl hp hc hpc item
  · intro a n hwf hcl
    exact mark_dirty_recursive_closed hwf hcl n
  · intro a
    exact clear_dirty_closed a
  · intro g cid n hwf hcl hfind
    have hn : n < g.arena.nodes.length := by
      unfold BomGraph.find_node Arena.find_node at hfind
      exact (hwf.indexMem _ (lookupA_mem hfind)).1
    have harena : (g.mark_dirty cid).2.arena = g.arena.mark_dirty_recursive n := by
      unfold BomGraph.mark_dirty
      rw [hfind]
    rw [harena]
    exact ⟨mark_dirty_recursive_closed hwf hcl n,
      fun m hm => mark_dirty_recursive_ancestors hwf hcl hn hm⟩

/-! Generic closure principle for reachability, nodup of the DFS traversal,
and success characterization of the batch component load. -/

theorem reachesE_closed {edges : List Edge} {len : Nat} (P : Nat → Prop)
    (hP : ∀ e ∈ edges, P e.source → P e.target) :
    ∀ {m n : Nat}, ReachesE edges len m n → P m → P n := by
  intro m n h
  induction h with
  | refl n _ => exact fun h => h
  | @step n' e he hm hsub ih => exact fun hPe => ih (hP e he hPe)

theorem dfsTraversalFuel_nodup (a : Arena) :
    ∀ (fuel : Nat) (stack visited : List Nat),
      (dfsTraversalFuel a fuel stack visited).Nodup ∧
      ∀ x ∈ dfsTraversalFuel a fuel stack visited, x ∉ visited := by
  intro fuel
  induction fuel with
  | zero =>
    intro stack visited
    exact ⟨List.nodup_nil, by intro x hx; exact absurd hx (List.not_mem_nil x)⟩
  | succ fuel ih =>
    intro stack visited
    match stack with
    | [] =>
      refine ⟨List.nodup_nil, ?_⟩
      intro x hx
      exact absurd hx (List.not_mem_nil x)
    | n :: rest =>
      by_cases hn : n ∈ visited
      · have hred : dfsTraversalFuel a (fuel+1) (n :: rest) visited =
            dfsTraversalFuel a fuel rest visited := by
          simp only [dfsTraversalFuel, if_pos hn]
        rw [hred]
        exact ih rest visited
      · have hred : dfsTraversalFuel a (fuel+1) (n :: rest) visited =
            n :: dfsTraversalFuel a fuel
              (((((a.children n).map (fun ce => ce.1)).filter
                (fun c => decide (c ∉ n :: visited))).reverse ++ rest)) (n :: visited) := by
          simp only [dfsTraversalFuel, if_neg hn]
        rw [hred]
        obtain ⟨hnd, hout⟩ := ih
          ((((a.children n).map (fun ce => ce.1)).filter
            (fun c => decide (c ∉ n :: visited))).reverse ++ rest) (n :: visited)
        constructor
        · exact List.nodup_cons.mpr ⟨fun hmem => (hout n hmem) (List.mem_cons_self n visited), hnd⟩
        · intro x hx
          rcases List.mem_cons.mp hx with hx | hx
          · rw [hx]; exact hn
          · intro hxv
            exact (hout x hx) (List.mem_cons_of_mem n hxv)

theorem getComponents_ok_iff (repo : List Component) :
    ∀ ids : List String, (∃ l, getComponents repo ids = .ok l) ↔
      ∀ i ∈ ids, ∃ c ∈ repo, c.id = i := by
  intro ids
  induction ids with
  | nil =>
    constructor
    · intro _ i hi
      exact absurd hi (List.not_mem_nil i)
    · intro _
      exact ⟨[], rfl⟩
  | cons i rest ih =>
    unfold getComponents at ih ⊢
    rw [List.mapM_cons]
    cases hfind : repo.find? (fun c => c.id == i) with
    | none =>
      constructor
      · intro ⟨l, hl⟩
        exfalso
        simp only [hfind, bind, Except.bind] at hl
        exact Except.noConfusion hl
      · intro hall
        exfalso
        obtain ⟨c, hc, hcid⟩ := hall i (List.mem_cons_self i rest)
        have : (repo.find? (fun c => c.id == i)).isSome := by
          rw [List.find?_isSome]
          exact ⟨c, hc, by simp [hcid]⟩
        rw [hfind] at this
        exact Bool.noConfusion this
    | some c =>
      have hc : c ∈ repo ∧ c.id = i := by
        have h1 := List.find?_some hfind
        have h2 := List.mem_of_find?_eq_some hfind
        exact ⟨h2, by simpa using h1⟩
      constructor
      · intro ⟨l, hl⟩ j hj
        rcases List.mem_cons.mp hj with hj | hj
        · exact ⟨c, hc.1, hj ▸ hc.2⟩
        · simp only [hfind, bind, Except.bind] at hl
          cases hrest : rest.mapM (fun i => match repo.find? (fun c => c.id == i) with
            | some c => Except.ok c
            | none => Except.error (BomError.ComponentNotFound i)) with
          | error e =>
            rw [hrest] at hl
            exact absurd hl (by intro h; exact Except.noConfusion h)
          | ok l' =>
            exact (ih.mp ⟨l', hrest⟩) j hj
      · intro hall
        obtain ⟨l', hl'⟩ := ih.mpr (fun j hj => hall j (List.mem_cons_of_mem i hj))
        refine ⟨c :: l', ?_⟩
        simp only [hfind, bind, Except.bind, hl']
        rfl

/-! Scaling lemmas for explosion linearity: scaling the quantity map scales
pointwise through lookups, accumulation, the level folds and the item list. -/

theorem lookupA_map_scale (k : Decimal) :
    ∀ (m : List (Nat × Decimal)) (x : Nat),
      lookupA (m.map (fun nq => (nq.1, k * nq.2))) x =
        (lookupA m x).map (fun v => k * v) := by
  intro m
  induction m with
  | nil => intro x; rfl
  | cons p rest ih =>
    obtain ⟨a, b⟩ := p
    intro x
    simp only [List.map_cons, lookupA]
    by_cases h : a = x
    · rw [if_pos h, if_pos h]
      rfl
    · rw [if_neg h, if_neg h]
      exact ih x

theorem addToA_map_scale (k : Decimal) :
    ∀ (m : List (Nat × Decimal)) (x : Nat) (v : Decimal),
      addToA (m.map (fun nq => (nq.1, k * nq.2))) x (k * v) =
        (addToA m x v).map (fun nq => (nq.1, k * nq.2)) := by
  intro m
  induction m with
  | nil => intro x v; rfl
  | cons p rest ih =>
    obtain ⟨a, b⟩ := p
    intro x v
    simp only [List.map_cons, addToA]
    by_cases h : a = x
    · rw [if_pos h, if_pos h]
      simp [mul_add]
    · rw [if_neg h, if_neg h, List.map_cons, ih]

theorem foldCds_scale (k : Decimal) :
    ∀ (cds : List (Nat × Decimal × List (List Nat) × Bool))
      (st : List (Nat × Decimal) × List (Nat × List (List Nat))),
      (cds.map (fun cd => (cd.1, k * cd.2.1, cd.2.2))).foldl
        (fun (st3 : List (Nat × Decimal) × List (Nat × List (List Nat))) cd =>
          (addToA st3.1 cd.1 cd.2.1, appendPathsA st3.2 cd.1 cd.2.2.1))
        (st.1.map (fun nq => (nq.1, k * nq.2)), st.2) =
      ((cds.foldl
          (fun (st3 : List (Nat × Decimal) × List (Nat × List (List Nat))) cd =>
            (addToA st3.1 cd.1 cd.2.1, appendPathsA st3.2 cd.1 cd.2.2.1)) st).1.map
          (fun nq => (nq.1, k * nq.2)),
        (cds.foldl
          (fun (st3 : List (Nat × Decimal) × List (Nat × List (List Nat))) cd =>
            (addToA st3.1 cd.1 cd.2.1, appendPathsA st3.2 cd.1 cd.2.2.1)) st).2) := by
  intro cds
  induction cds with
  | nil => intro st; rfl
  | cons cd rest ih =>
    intro st
    simp only [List.map_cons, List.foldl_cons]
    have hstep : (addToA (st.1.map (fun nq => (nq.1, k * nq.2))) cd.1 (k * cd.2.1),
        appendPathsA st.2 cd.1 cd.2.2.1) =
      ((addToA st.1 cd.1 cd.2.1).map (fun nq => (nq.1, k * nq.2)),
        appendPathsA st.2 cd.1 cd.2.2.1) := by
      rw [addToA_map_scale]
    rw [hstep]
    exact ih (addToA st.1 cd.1 cd.2.1, appendPathsA st.2 cd.1 cd.2.2.1)

theorem foldPrs_scale (k : Decimal) :
    ∀ (prs : List (Nat × List (Nat × Decimal × List (List Nat) × Bool)))
      (st : List (Nat × Decimal) × List (Nat × List (List Nat))),
      (prs.map (fun pr => (pr.1, pr.2.map (fun cd => (cd.1, k * cd.2.1, cd.2.2))))).foldl
        (fun st2 pr =>
          pr.2.foldl
            (fun (st3 : List (Nat × Decimal) × List (Nat × List (List Nat))) cd =>
              (addToA st3.1 cd.1 cd.2.1, appendPathsA st3.2 cd.1 cd.2.2.1))
            st2)
        (st.1.map (fun nq => (nq.1, k * nq.2)), st.2) =
      ((prs.foldl
          (fun st2 pr =>
            pr.2.foldl
              (fun (st3 : List (Nat × Decimal) × List (Nat × List (List Nat))) cd =>
                (addToA st3.1 cd.1 cd.2.1, appendPathsA st3.2 cd.1 cd.2.2.1))
              st2) st).1.map (fun nq => (nq.1, k * nq.2)),
        (prs.foldl
          (fun st2 pr =>
            pr.2.foldl
              (fun (st3 : List (Nat × Decimal) × List (Nat × List (List Nat))) cd =>
                (addToA st3.1 cd.1 cd.2.1, appendPathsA st3.2 cd.1 cd.2.2.1))
              st2) st).2) := by
  intro prs
  induction prs with
  | nil => intro st; rfl
  | cons pr rest ih =>
    intro st
    simp only [List.map_cons, List.foldl_cons]
    rw [foldCds_scale]
    exact ih (pr.2.foldl
      (fun (st3 : List (Nat × Decimal) × List (Nat × List (List Nat))) cd =>
        (addToA st3.1 cd.1 cd.2.1, appendPathsA st3.2 cd.1 cd.2.2.1)) st)

theorem explodeLevel_scale (g : BomGraph) (k : Decimal)
    (st : List (Nat × Decimal) × List (Nat × List (List Nat))) (lv : List Nat) :
    explodeLevelStep g (st.1.map (fun nq => (nq.1, k * nq.2)), st.2) lv =
      ((explodeLevelStep g st lv).1.map (fun nq => (nq.1, k * nq.2)),
        (explodeLevelStep g st lv).2) := by
  unfold explodeLevelStep
  dsimp only
  have hlr : lv.filterMap (fun parent_node =>
      (lookupA (st.1.map (fun nq => (nq.1, k * nq.2))) parent_node).map (fun parent_qty =>
        (parent_node, (g.arena.children parent_node).map (fun ce =>
          (ce.1, ce.2.effective_quantity * parent_qty,
            ((lookupA st.2 parent_node).getD []).map (fun pp => pp ++ [ce.1]),
            ce.2.bom_item.is_phantom))))) =
    (lv.filterMap (fun parent_node =>
      (lookupA st.1 parent_node).map (fun parent_qty =>
        (parent_node, (g.arena.children parent_node).map (fun ce =>
          (ce.1, ce.2.effective_quantity * parent_qty,
            ((lookupA st.2 parent_node).getD []).map (fun pp => pp ++ [ce.1]),
            ce.2.bom_item.is_phantom)))))).map
      (fun pr => (pr.1, pr.2.map (fun cd => (cd.1, k * cd.2.1, cd.2.2)))) := by
    rw [List.map_filterMap]
    apply List.filterMap_congr
    intro p _
    rw [lookupA_map_scale, Option.map_map]
    cases lookupA st.1 p with
    | none => rfl
    | some pq =>
      simp only [Option.map_some', Function.comp]
      rw [List.map_map]
      refine congrArg (fun z => some (p, z)) ?_
      apply List.map_congr_left
      intro ce _
      simp only [Function.comp, Prod.mk.injEq, eq_self_iff_true, true_and, and_true]
      ring
  rw [hlr, foldPrs_scale]

theorem explodeFold_scale (g : BomGraph) (k : Decimal) :
    ∀ (lvls : List (List Nat)) (st : List (Nat × Decimal) × List (Nat × List (List Nat))),
      lvls.foldl (explodeLevelStep g) (st.1.map (fun nq => (nq.1, k * nq.2)), st.2) =
        ((lvls.foldl (explodeLevelStep g) st).1.map (fun nq => (nq.1, k * nq.2)),
          (lvls.foldl (explodeLevelStep g) st).2) := by
  intro lvls
  induction lvls with
  | nil => intro st; rfl
  | cons lv rest ih =>
    intro st
    simp only [List.foldl_cons]
    rw [explodeLevel_scale]
    exact ih (explodeLevelStep g st lv)

theorem explodeFinal_scale (g : BomGraph) (node : Nat) (k Q : Decimal) :
    explodeFinal g node (k * Q) =
      ((explodeFinal g node Q).1.map (fun nq => (nq.1, k * nq.2)),
        (explodeFinal g node Q).2) := by
  unfold explodeFinal
  have hseed : (([(node, k * Q)] : List (Nat × Decimal)),
      ([(node, [[node]])] : List (Nat × List (List Nat)))) =
    ((([(node, Q)] : List (Nat × Decimal)).map (fun nq => (nq.1, k * nq.2))),
      ([(node, [[node]])] : List (Nat × List (List Nat)))) := by
    simp
  rw [hseed]
  exact explodeFold_scale g k (g.arena.level_grouping [node]).reverse
    ([(node, Q)], [(node, [[node]])])

theorem explodeItems0_scale (g : BomGraph) (k : Decimal)
    (final : List (Nat × Decimal) × List (Nat × List (List Nat))) :
    explodeItems0 g (final.1.map (fun nq => (nq.1, k * nq.2)), final.2) =
      (explodeItems0 g final).map
        (fun it => { it with total_quantity := k * it.total_quantity }) := by
  unfold explodeItems0
  dsimp only
  rw [List.filterMap_map, List.map_filterMap]
  apply List.filterMap_congr
  intro nq _
  dsimp only [Function.comp]
  cases g.arena.nodes[nq.1]? with
  | none => rfl
  | some nd => rfl

theorem insertByLevel_scale (k : Decimal) (x : ExplosionItem) :
    ∀ l : List ExplosionItem,
      insertByLevel { x with total_quantity := k * x.total_quantity }
        (l.map (fun it => { it with total_quantity := k * it.total_quantity })) =
      (insertByLevel x l).map
        (fun it => { it with total_quantity := k * it.total_quantity }) := by
  intro l
  induction l with
  | nil => rfl
  | cons y ys ih =>
    simp only [List.map_cons, insertByLevel]
    by_cases h : x.level ≤ y.level
    · rw [if_pos h, if_pos h]
      rfl
    · rw [if_neg h, if_neg h, List.map_cons, ih]

theorem sortByLevel_scale (k : Decimal) :
    ∀ l : List ExplosionItem,
      sortByLevel (l.map (fun it => { it with total_quantity := k * it.total_quantity })) =
        (sortByLevel l).map
          (fun it => { it with total_quantity := k * it.total_quantity }) := by
  intro l
  induction l with
  | nil => rfl
  | cons y ys ih =>
    simp only [List.map_cons, sortByLevel]
    rw [ih, insertByLevel_scale]

theorem find_scale (k : Decimal) (c : String) :
    ∀ l : List ExplosionItem,
      (l.map (fun it => { it with total_quantity := k * it.total_quantity })).find?
          (fun it => it.component_id == c) =
        (l.find? (fun it => it.component_id == c)).map
          (fun it => { it with total_quantity := k * it.total_quantity }) := by
  intro l
  induction l with
  | nil => rfl
  | cons y ys ih =>
    simp only [List.map_cons, List.find?]
    cases h : (y.component_id == c) with
    | true => rfl
    | false => exact ih

/-- C3: explosion is linear in the order quantity: scaling the quantity by a
positive decimal k scales the reported total quantity of every component by
k, and a failing explosion keeps failing. -/
theorem C3_explosion_linearity (g : BomGraph) (cid c : String) (k Q : Decimal)
    (hk : 0 < k) :
    (explode g cid (k * Q)).toOption.bind (fun r => itemQty r c) =
      ((explode g cid Q).toOption.bind (fun r => itemQty r c)).map
        (fun q => k * q) := by
  unfold explode
  cases hfind : g.find_node cid with
  | none => rfl
  | some node =>
    dsimp only [Except.toOption, Option.bind]
    unfold itemQty
    dsimp only
    rw [explodeFinal_scale, explodeItems0_scale, sortByLevel_scale, find_scale]
    cases (sortByLevel (explodeItems0 g (explodeFinal g node Q))).find?
        (fun it => it.component_id == c) with
    | none => rfl
    | some it => rfl

/-- Witness for C3: linearity instantiated on the S1 chain at k = 2, Q = 1. -/
theorem C3_explosion_linearity_witness :
    (0 : Decimal) < 2 ∧
    (explode graphS1 "A" (2 * 1)).toOption.bind (fun r => itemQty r "C") =
      ((explode graphS1 "A" 1).toOption.bind (fun r => itemQty r "C")).map
        (fun q => 2 * q) :=
  ⟨by decide, C3_explosion_linearity graphS1 "A" "C" 2 1 (by decide)⟩

/-! Soundness of the reachable-set collection, the Kahn output and the level
grouping: every delivered node is reachable from the roots. -/

theorem collectReach_sound (a : Arena) (P : Nat → Prop)
    (hcl : ∀ n, P n → ∀ ce ∈ a.children n, P ce.1) :
    ∀ (fuel : Nat) (stack reach : List Nat),
      (∀ s ∈ stack, P s) → (∀ r ∈ reach, P r) →
      ∀ x ∈ collectReachFuel a fuel stack reach, P x := by
  intro fuel
  induction fuel with
  | zero =>
    intro stack reach _ hreach x hx
    exact hreach x hx
  | succ fuel ih =>
    intro stack reach hstack hreach x hx
    match stack with
    | [] =>
      simp only [collectReachFuel] at hx
      exact hreach x hx
    | node :: rest =>
      by_cases hmem : node ∈ reach
      · rw [show collectReachFuel a (fuel+1) (node :: rest) reach =
            collectReachFuel a fuel rest reach from by
          simp only [collectReachFuel, if_pos hmem]] at hx
        exact ih rest reach (fun s hs => hstack s (List.mem_cons_of_mem node hs)) hreach x hx
      · rw [show collectReachFuel a (fuel+1) (node :: rest) reach =
            collectReachFuel a fuel
              (((((a.children node).map (fun ce => ce.1)).filter
                (fun c => decide (c ∉ node :: reach))).reverse ++ rest)) (node :: reach) from by
          simp only [collectReachFuel, if_neg hmem]] at hx
        refine ih _ _ ?_ ?_ x hx
        · intro s hs
          rcases List.mem_append.mp hs with hs | hs
          · have hs' := List.mem_reverse.mp hs
            have hs'' := List.mem_of_mem_filter hs'
            obtain ⟨ce, hce, hceq⟩ := List.mem_map.mp hs''
            exact hceq ▸ hcl node (hstack node (List.mem_cons_self node rest)) ce hce
          · exact hstack s (List.mem_cons_of_mem node hs)
        · intro r hr
          rcases List.mem_cons.mp hr with hr | hr
          · exact hr ▸ hstack node (List.mem_cons_self node rest)
          · exact hreach r hr

theorem reachableFrom_sound {a : Arena} (hwf : ArenaWF a) {root : Nat}
    (hroot : root < a.nodes.length) :
    ∀ x ∈ a.reachableFrom [root], a.Reaches root x := by
  intro x hx
  refine collectReach_sound a (fun y => a.Reaches root y) ?_ _ [root] [] ?_ ?_ x hx
  · intro n hPn ce hce
    exact hPn.trans (reaches_of_children hwf hPn.tgt_lt hce)
  · intro s hs
    rcases List.mem_cons.mp hs with hs | hs
    · exact hs ▸ ReachesE.refl root hroot
    · exact absurd hs (List.not_mem_nil s)
  · intro r hr
    exact absurd hr (List.not_mem_nil r)

theorem kahnInit_queue_sub (a : Arena) (reach : List Nat) :
    ∀ x ∈ (kahnInit a reach).2, x ∈ reach := by
  unfold kahnInit
  suffices h : ∀ (l : List Nat) (st : List (Nat × Nat) × List Nat),
      (∀ x ∈ st.2, x ∈ reach) → (∀ n ∈ l, n ∈ reach) →
      ∀ x ∈ (l.foldl (fun st n =>
        match a.nodes[n]? with
        | none => st
        | some nd =>
          let degree := (nd.incoming.filter (fun ei =>
            match a.edges[ei]? with
            | some e => decide (e.source ∈ reach)
            | none => false)).length
          (upsertA st.1 n degree, if degree = 0 then st.2 ++ [n] else st.2)) st).2,
        x ∈ reach by
    intro x hx
    exact h reach ([], []) (fun x hx => absurd hx (List.not_mem_nil x)) (fun n hn => hn) x hx
  intro l
  induction l with
  | nil => intro st hst _ x hx; exact hst x hx
  | cons n rest ih =>
    intro st hst hl x hx
    rw [List.foldl_cons] at hx
    refine ih _ ?_ (fun m hm => hl m (List.mem_cons_of_mem n hm)) x hx
    intro y hy
    cases hnd : a.nodes[n]? with
    | none =>
      rw [hnd] at hy
      exact hst y hy
    | some nd =>
      rw [hnd] at hy
      dsimp only at hy
      by_cases hdeg : (nd.incoming.filter (fun ei =>
          match a.edges[ei]? with
          | some e => decide (e.source ∈ reach)
          | none => false)).length = 0
      · rw [if_pos hdeg] at hy
        rcases List.mem_append.mp hy with hy | hy
        · exact hst y hy
        · have : y = n := by simpa using hy
          exact this ▸ hl n (List.mem_cons_self n rest)
      · rw [if_neg hdeg] at hy
        exact hst y hy

theorem kahnStep_queue_sub (a : Arena) (reach : List Nat) (n : Nat) :
    ∀ (cds : List (Nat × Edge)) (st : List (Nat × Nat) × List Nat) (x : Nat),
      x ∈ (cds.foldl (fun st ce =>
        if ce.1 ∈ reach then
          match lookupA st.1 ce.1 with
          | some d => (upsertA st.1 ce.1 (d - 1), if d - 1 = 0 then st.2 ++ [ce.1] else st.2)
          | none => st
        else st) st).2 → x ∈ st.2 ∨ x ∈ reach := by
  intro cds
  induction cds with
  | nil => intro st x hx; exact Or.inl hx
  | cons ce rest ih =>
    intro st x hx
    rw [List.foldl_cons] at hx
    by_cases hce : ce.1 ∈ reach
    · rw [if_pos hce] at hx
      cases hl : lookupA st.1 ce.1 with
      | none =>
        rw [hl] at hx
        exact ih st x hx
      | some d =>
        rw [hl] at hx
        rcases ih _ x hx with hx' | hx'
        · dsimp only at hx'
          by_cases hd : d - 1 = 0
          · rw [if_pos hd] at hx'
            rcases List.mem_append.mp hx' with h | h
            · exact Or.inl h
            · have : x = ce.1 := by simpa using h
              exact Or.inr (this ▸ hce)
          · rw [if_neg hd] at hx'
            exact Or.inl hx'
        · exact Or.inr hx'
    · rw [if_neg hce] at hx
      exact ih st x hx

theorem kahnLoop_sub (a : Arena) (reach : List Nat) :
    ∀ (fuel : Nat) (queue : List Nat) (inDeg : List (Nat × Nat)) (result : List Nat),
      (∀ x ∈ queue, x ∈ reach) → (∀ x ∈ result, x ∈ reach) →
      ∀ x ∈ kahnLoopFuel a reach fuel queue inDeg result, x ∈ reach := by
  intro fuel
  induction fuel with
  | zero =>
    intro queue inDeg result _ hres x hx
    exact hres x hx
  | succ fuel ih =>
    intro queue inDeg result hq hres x hx
    match queue with
    | [] =>
      simp only [kahnLoopFuel] at hx
      exact hres x hx
    | n :: qrest =>
      rw [show kahnLoopFuel a reach (fuel+1) (n :: qrest) inDeg result =
          kahnLoopFuel a reach fuel (kahnStep a reach n (inDeg, qrest)).2
            (kahnStep a reach n (inDeg, qrest)).1 (result ++ [n]) from rfl] at hx
      refine ih _ _ _ ?_ ?_ x hx
      · intro y hy
        rcases kahnStep_queue_sub a reach n (a.children n) (inDeg, qrest) y hy with h | h
        · exact hq y (List.mem_cons_of_mem n h)
        · exact h
      · intro y hy
        rcases List.mem_append.mp hy with h | h
        · exact hres y h
        · have : y = n := by simpa using h
          exact this ▸ hq n (List.mem_cons_self n qrest)

theorem topo_sound {a : Arena} (hwf : ArenaWF a) {root : Nat}
    (hroot : root < a.nodes.length) :
    ∀ x ∈ a.topological_sort [root], a.Reaches root x := by
  intro x hx
  unfold Arena.topological_sort at hx
  simp only [List.mem_reverse] at hx
  have hx' := kahnLoop_sub a (a.reachableFrom [root])
    ((a.reachableFrom [root]).length + 1)
    (kahnInit a (a.reachableFrom [root])).2 (kahnInit a (a.reachableFrom [root])).1 []
    (kahnInit_queue_sub a (a.reachableFrom [root]))
    (fun y hy => absurd hy (List.not_mem_nil y)) x hx
  exact reachableFrom_sound hwf hroot x hx'

theorem level_grouping_sub (a : Arena) (roots : List Nat) :
    ∀ lv ∈ a.level_grouping roots, ∀ x ∈ lv, x ∈ a.topological_sort roots := by
  have hfold : ∀ (topo : List Nat) (st : List (Nat × Nat) × Nat),
      ∀ nl ∈ (topo.foldl (fun (st : List (Nat × Nat) × Nat) node =>
        (upsertA st.1 node (match natMaxL ((a.children node).filterMap
            (fun ce => lookupA st.1 ce.1)) with
          | some l => l + 1
          | none => 0),
          Nat.max st.2 (match natMaxL ((a.children node).filterMap
            (fun ce => lookupA st.1 ce.1)) with
          | some l => l + 1
          | none => 0))) st).1,
        nl.1 ∈ keysA st.1 ∨ nl.1 ∈ topo := by
    intro topo
    induction topo with
    | nil =>
      intro st nl hnl
      exact Or.inl (List.mem_map_of_mem _ hnl)
    | cons node rest ih =>
      intro st nl hnl
      rw [List.foldl_cons] at hnl
      rcases ih _ nl hnl with h | h
      · obtain ⟨p, hp, hpeq⟩ := List.mem_map.mp h
        rcases mem_upsertA hp with hp' | hp'
        · right
          rw [← hpeq, hp']
          exact List.mem_cons_self node rest
        · left
          exact hpeq ▸ List.mem_map_of_mem _ hp'
      · exact Or.inr (List.mem_cons_of_mem node h)
  intro lv hlv x hx
  unfold Arena.level_grouping at hlv
  simp only [List.mem_map] at hlv
  obtain ⟨k, _, hk⟩ := hlv
  rw [← hk] at hx
  obtain ⟨nl, hnl, hnlx⟩ := List.mem_filterMap.mp hx
  have hx' : x = nl.1 := by
    by_cases h : nl.2 = k
    · rw [if_pos h] at hnlx
      exact (Option.some.injEq _ _ ▸ hnlx).symm
    · rw [if_neg h] at hnlx
      exact absurd hnlx (by intro hh; exact Option.noConfusion hh)
  rcases hfold (a.topological_sort roots) ([], 0) nl hnl with h | h
  · exact absurd h (List.not_mem_nil _)
  · exact hx' ▸ h

/-! Preservation of the seed entries through the explosion fold: as long as no
processed edge targets the seed node, its quantity and path entries are
untouched. -/

theorem foldH_preserve (node : Nat) :
    ∀ (cds : List (Nat × Decimal × List (List Nat) × Bool))
      (st : List (Nat × Decimal) × List (Nat × List (List Nat))),
      (∀ cd ∈ cds, cd.1 ≠ node) →
      lookupA (cds.foldl
        (fun (st3 : List (Nat × Decimal) × List (Nat × List (List Nat))) cd =>
          (addToA st3.1 cd.1 cd.2.1, appendPathsA st3.2 cd.1 cd.2.2.1)) st).1 node =
        lookupA st.1 node ∧
      lookupA (cds.foldl
        (fun (st3 : List (Nat × Decimal) × List (Nat × List (List Nat))) cd =>
          (addToA st3.1 cd.1 cd.2.1, appendPathsA st3.2 cd.1 cd.2.2.1)) st).2 node =
        lookupA st.2 node := by
  intro cds
  induction cds with
  | nil => intro st _; exact ⟨rfl, rfl⟩
  | cons cd rest ih =>
    intro st hcd
    rw [List.foldl_cons]
    obtain ⟨h1, h2⟩ := ih (addToA st.1 cd.1 cd.2.1, appendPathsA st.2 cd.1 cd.2.2.1)
      (fun c hc => hcd c (List.mem_cons_of_mem cd hc))
    refine ⟨h1.trans ?_, h2.trans ?_⟩
    · exact lookupA_addToA_ne st.1 cd.1 node cd.2.1 (hcd cd (List.mem_cons_self cd rest))
    · exact lookupA_appendPathsA_ne st.2 cd.1 node cd.2.2.1 (hcd cd (List.mem_cons_self cd rest))

theorem foldG_preserve (node : Nat) :
    ∀ (prs : List (Nat × List (Nat × Decimal × List (List Nat) × Bool)))
      (st : List (Nat × Decimal) × List (Nat × List (List Nat))),
      (∀ pr ∈ prs, ∀ cd ∈ pr.2, cd.1 ≠ node) →
      lookupA (prs.foldl
        (fun st2 pr => pr.2.foldl
          (fun (st3 : List (Nat × Decimal) × List (Nat × List (List Nat))) cd =>
            (addToA st3.1 cd.1 cd.2.1, appendPathsA st3.2 cd.1 cd.2.2.1)) st2) st).1 node =
        lookupA st.1 node ∧
      lookupA (prs.foldl
        (fun st2 pr => pr.2.foldl
          (fun (st3 : List (Nat × Decimal) × List (Nat × List (List Nat))) cd =>
            (addToA st3.1 cd.1 cd.2.1, appendPathsA st3.2 cd.1 cd.2.2.1)) st2) st).2 node =
        lookupA st.2 node := by
  intro prs
  induction prs with
  | nil => intro st _; exact ⟨rfl, rfl⟩
  | cons pr rest ih =>
    intro st hpr
    rw [List.foldl_cons]
    obtain ⟨h1, h2⟩ := ih _ (fun p hp cd hcd => hpr p (List.mem_cons_of_mem pr hp) cd hcd)
    obtain ⟨g1, g2⟩ := foldH_preserve node pr.2 st
      (fun cd hcd => hpr pr (List.mem_cons_self pr rest) cd hcd)
    exact ⟨h1.trans g1, h2.trans g2⟩

theorem explodeLevelStep_preserve (g : BomGraph) (node : Nat)
    (st : List (Nat × Decimal) × List (Nat × List (List Nat))) (lv : List Nat)
    (h : ∀ p ∈ lv, ∀ ce ∈ g.arena.children p, ce.1 ≠ node) :
    lookupA (explodeLevelStep g st lv).1 node = lookupA st.1 node ∧
    lookupA (explodeLevelStep g st lv).2 node = lookupA st.2 node := by
  unfold explodeLevelStep
  dsimp only
  apply foldG_preserve
  intro pr hpr cd hcd
  obtain ⟨p, hp, hpeq⟩ := List.mem_filterMap.mp hpr
  cases hl : lookupA st.1 p with
  | none =>
    rw [hl] at hpeq
    exact absurd hpeq (by intro hh; exact Option.noConfusion hh)
  | some pq =>
    rw [hl] at hpeq
    have hpr' : pr = (p, (g.arena.children p).map (fun ce =>
        (ce.1, ce.2.effective_quantity * pq,
          ((lookupA st.2 p).getD []).map (fun pp => pp ++ [ce.1]),
          ce.2.bom_item.is_phantom))) := by
      simpa using hpeq.symm
    rw [hpr'] at hcd
    obtain ⟨ce, hce, hceq⟩ := List.mem_map.mp hcd
    have : cd.1 = ce.1 := by rw [← hceq]
    rw [this]
    exact h p hp ce hce

theorem explodeFold_preserve (g : BomGraph) (node : Nat) :
    ∀ (lvls : List (List Nat)) (st : List (Nat × Decimal) × List (Nat × List (List Nat))),
      (∀ lv ∈ lvls, ∀ p ∈ lv, ∀ ce ∈ g.arena.children p, ce.1 ≠ node) →
      lookupA (lvls.foldl (explodeLevelStep g) st).1 node = lookupA st.1 node ∧
      lookupA (lvls.foldl (explodeLevelStep g) st).2 node = lookupA st.2 node := by
  intro lvls
  induction lvls with
  | nil => intro st _; exact ⟨rfl, rfl⟩
  | cons lv rest ih =>
    intro st hlv
    rw [List.foldl_cons]
    obtain ⟨h1, h2⟩ := ih (explodeLevelStep g st lv)
      (fun l hl p hp ce hce => hlv l (List.mem_cons_of_mem lv hl) p hp ce hce)
    obtain ⟨g1, g2⟩ := explodeLevelStep_preserve g node st lv
      (fun p hp ce hce => hlv lv (List.mem_cons_self lv rest) p hp ce hce)
    exact ⟨h1.trans g1, h2.trans g2⟩

theorem explodeFinal_node {g : BomGraph} (hwf : ArenaWF g.arena)
    (hacy : g.arena.Acyclic) {node : Nat} (hn : node < g.arena.nodes.length)
    (Q : Decimal) :
    lookupA (explodeFinal g node Q).1 node = some Q ∧
    lookupA (explodeFinal g node Q).2 node = some [[node]] := by
  unfold explodeFinal
  have hcond : ∀ lv ∈ (g.arena.level_grouping [node]).reverse, ∀ p ∈ lv,
      ∀ ce ∈ g.arena.children p, ce.1 ≠ node := by
    intro lv hlv p hp ce hce heq
    have hlv' : lv ∈ g.arena.level_grouping [node] := List.mem_reverse.mp hlv
    have hp_topo := level_grouping_sub g.arena [node] lv hlv' p hp
    have hp_reach : g.arena.Reaches node p := topo_sound hwf hn p hp_topo
    obtain ⟨he, hsrc, htgt⟩ := mem_children_edge hwf hp_reach.tgt_lt hce
    exact hacy ce.2 he (by rw [htgt, heq, hsrc]; exact hp_reach)
  obtain ⟨h1, h2⟩ := explodeFold_preserve g node
    (g.arena.level_grouping [node]).reverse ([(node, Q)], [(node, [[node]])]) hcond
  constructor
  · rw [h1]
    simp [lookupA]
  · rw [h2]
    simp [lookupA]

/-! Key-distinctness of the quantity map through the explosion fold. -/

theorem addToA_keys_nodup {α : Type} [DecidableEq α] {m : List (α × Decimal)}
    (h : (keysA m).Nodup) (k : α) (v : Decimal) :
    (keysA (addToA m k v)).Nodup := by
  rw [keysA_addToA]
  by_cases hk : k ∈ keysA m
  · rw [if_pos hk]
    exact h
  · rw [if_neg hk]
    rw [List.nodup_append]
    exact ⟨h, List.nodup_singleton k, by simpa using hk⟩

theorem foldH_keys_nodup (node : Nat) :
    ∀ (cds : List (Nat × Decimal × List (List Nat) × Bool))
      (st : List (Nat × Decimal) × List (Nat × List (List Nat))),
      (keysA st.1).Nodup →
      (keysA (cds.foldl
        (fun (st3 : List (Nat × Decimal) × List (Nat × List (List Nat))) cd =>
          (addToA st3.1 cd.1 cd.2.1, appendPathsA st3.2 cd.1 cd.2.2.1)) st).1).Nodup := by
  intro cds
  induction cds with
  | nil => intro st h; exact h
  | cons cd rest ih =>
    intro st h
    rw [List.foldl_cons]
    exact ih _ (addToA_keys_nodup h cd.1 cd.2.1)

theorem foldG_keys_nodup (node : Nat) :
    ∀ (prs : List (Nat × List (Nat × Decimal × List (List Nat) × Bool)))
      (st : List (Nat × Decimal) × List (Nat × List (List Nat))),
      (keysA st.1).Nodup →
      (keysA (prs.foldl
        (fun st2 pr => pr.2.foldl
          (fun (st3 : List (Nat × Decimal) × List (Nat × List (List Nat))) cd =>
            (addToA st3.1 cd.1 cd.2.1, appendPathsA st3.2 cd.1 cd.2.2.1)) st2) st).1).Nodup := by
  intro prs
  induction prs with
  | nil => intro st h; exact h
  | cons pr rest ih =>
    intro st h
    rw [List.foldl_cons]
    exact ih _ (foldH_keys_nodup node pr.2 st h)

theorem explodeFinal_keys_nodup (g : BomGraph) (node : Nat) (Q : Decimal) :
    (keysA (explodeFinal g node Q).1).Nodup := by
  unfold explodeFinal
  suffices h : ∀ (lvls : List (List Nat))
      (st : List (Nat × Decimal) × List (Nat × List (List Nat))),
      (keysA st.1).Nodup → (keysA (lvls.foldl (explodeLevelStep g) st).1).Nodup by
    exact h _ ([(node, Q)], [(node, [[node]])]) (by simp [keysA])
  intro lvls
  induction lvls with
  | nil => intro st h; exact h
  | cons lv rest ih =>
    intro st h
    rw [List.foldl_cons]
    refine ih _ ?_
    unfold explodeLevelStep
    dsimp only
    exact foldG_keys_nodup 0 _ st h

/-! The explosion item of the seed node itself. -/

theorem lookupA_of_mem_nodup {α β : Type} [DecidableEq α] :
    ∀ {m : List (α × β)}, (keysA m).Nodup → ∀ {k : α} {v : β}, (k, v) ∈ m →
      lookupA m k = some v := by
  intro m
  induction m with
  | nil =>
    intro _ k v h
    exact absurd h (List.not_mem_nil _)
  | cons p rest ih =>
    intro hnd k v h
    obtain ⟨a, b⟩ := p
    simp only [keysA, List.map_cons, List.nodup_cons] at hnd
    rcases List.mem_cons.mp h with h | h
    · have hk : k = a := congrArg Prod.fst h
      have hv : v = b := congrArg Prod.snd h
      simp only [lookupA]
      rw [if_pos hk.symm, hv]
    · have hne : ¬ a = k := by
        intro hak
        subst hak
        exact hnd.1 (List.mem_map_of_mem (fun kv => kv.1) h)
      simp only [lookupA]
      rw [if_neg hne]
      exact ih hnd.2 h

theorem mem_insertByLevel (x y : ExplosionItem) :
    ∀ l : List ExplosionItem, y ∈ insertByLevel x l ↔ y = x ∨ y ∈ l := by
  intro l
  induction l with
  | nil => simp [insertByLevel]
  | cons z zs ih =>
    simp only [insertByLevel]
    by_cases h : x.level ≤ z.level
    · rw [if_pos h]
      simp only [List.mem_cons]
    · rw [if_neg h]
      simp only [List.mem_cons, ih]
      tauto

theorem mem_sortByLevel (y : ExplosionItem) :
    ∀ l : List ExplosionItem, y ∈ sortByLevel l ↔ y ∈ l := by
  intro l
  induction l with
  | nil => simp [sortByLevel]
  | cons z zs ih =>
    simp only [sortByLevel, mem_insertByLevel, List.mem_cons, ih]

theorem lookupA_items_map (s : String) :
    ∀ l : List ExplosionItem,
      lookupA (l.map (fun it => (it.component_id, it.total_quantity))) s =
        (l.find? (fun it => it.component_id == s)).map (fun it => it.total_quantity) := by
  intro l
  induction l with
  | nil => rfl
  | cons y ys ih =>
    simp only [List.map_cons, lookupA, List.find?]
    cases h : (y.component_id == s) with
    | true =>
      have heq : y.component_id = s := by simpa using h
      rw [if_pos heq]
      rfl
    | false =>
      have hne : ¬ y.component_id = s := by simpa using h
      rw [if_neg hne]
      exact ih

theorem explodeItems0_build {g : BomGraph} {node : Nat} {nd : Node}
    (hnd : g.arena.nodes[node]? = some nd) {fin2 : List (Nat × List (List Nat))}
    (hp : lookupA fin2 node = some [[node]]) (Q : Decimal) :
    ((g.arena.nodes[node]?).map (fun nd =>
      let level := match lookupA fin2 node with
        | none => 0
        | some ps =>
          match natMaxL (ps.map List.length) with
          | none => 0
          | some m => m - 1
      let component_paths := ((lookupA fin2 node).getD []).filterMap (fun path =>
        let comp_path := path.filterMap
          (fun idx => (g.arena.nodes[idx]?).map (fun n => n.component_id))
        if comp_path.isEmpty then none else some comp_path)
      (⟨nd.component_id, Q, level, component_paths, false⟩ : ExplosionItem)) :
      Option ExplosionItem) =
    some ⟨nd.component_id, Q, 0, [[nd.component_id]], false⟩ := by
  rw [hnd, hp]
  simp only [Option.map_some', Option.getD_some, List.map_cons, List.map_nil,
    List.length_cons, List.length_nil, natMaxL, List.filterMap_cons, List.filterMap_nil,
    hnd, List.isEmpty]
  rfl

theorem explodeItems0_unique {g : BomGraph} (hwf : ArenaWF g.arena)
    {cid : String} {n : Nat} (hfind : g.arena.find_node cid = some n) (Q : Decimal)
    (hq : lookupA (explodeFinal g n Q).1 n = some Q)
    (hpaths : lookupA (explodeFinal g n Q).2 n = some [[n]])
    (hkeys : (keysA (explodeFinal g n Q).1).Nodup) :
    ∀ it ∈ explodeItems0 g (explodeFinal g n Q), it.component_id = cid →
      it = ⟨cid, Q, 0, [[cid]], false⟩ := by
  intro it hit hcidit
  obtain ⟨nq, hnq, hbuild⟩ := List.mem_filterMap.mp hit
  obtain ⟨ni, qv⟩ := nq
  dsimp only at hbuild
  cases hnd' : g.arena.nodes[ni]? with
  | none =>
    rw [hnd'] at hbuild
    exact absurd hbuild (by intro hh; exact Option.noConfusion hh)
  | some nd' =>
    have hlt : ni < g.arena.nodes.length := lt_of_getElem?_some hnd'
    have hndD : nodeD g.arena ni = nd' :=
      Option.some.inj ((nodes_getElem?_eq_nodeD hlt).symm.trans hnd')
    have hcid' : nd'.component_id = it.component_id := by
      rw [hnd'] at hbuild
      simp only [Option.map_some'] at hbuild
      rw [← Option.some.inj hbuild]
    have hidx : lookupA g.arena.component_index nd'.component_id = some ni := by
      rw [← hndD]
      exact hwf.indexOf ni hlt
    have hni : ni = n := by
      rw [hcid', hcidit] at hidx
      unfold Arena.find_node at hfind
      exact Option.some.inj (hidx.symm.trans hfind)
    subst hni
    have hqv : qv = Q :=
      Option.some.inj ((lookupA_of_mem_nodup hkeys hnq).symm.trans hq)
    subst hqv
    have hres : it = (⟨nd'.component_id, qv, 0, [[nd'.component_id]], false⟩ : ExplosionItem) :=
      Option.some.inj (hbuild.symm.trans (explodeItems0_build hnd' hpaths qv))
    rw [hres, hcid', hcidit]

theorem explode_root_aux {g : BomGraph} {cid : String} {n : Nat}
    (hwf : ArenaWF g.arena) (hacy : g.arena.Acyclic)
    (hfind : g.find_node cid = some n) (Q : Decimal) :
    explode g cid Q = .ok ⟨cid, sortByLevel (explodeItems0 g (explodeFinal g n Q)),
      (sortByLevel (explodeItems0 g (explodeFinal g n Q))).length,
      (natMaxL ((sortByLevel (explodeItems0 g (explodeFinal g n Q))).map
        (fun it => it.level))).getD 0⟩ ∧
    (⟨cid, Q, 0, [[cid]], false⟩ : ExplosionItem) ∈
      sortByLevel (explodeItems0 g (explodeFinal g n Q)) ∧
    (sortByLevel (explodeItems0 g (explodeFinal g n Q))).find?
      (fun it => it.component_id == cid) = some ⟨cid, Q, 0, [[cid]], false⟩ := by
  have hmemIdx : (cid, n) ∈ g.arena.component_index := lookupA_mem hfind
  have hn : n < g.arena.nodes.length := (hwf.indexMem _ hmemIdx).1
  have hcid : (nodeD g.arena n).component_id = cid := (hwf.indexMem _ hmemIdx).2
  have hnd : g.arena.nodes[n]? = some (nodeD g.arena n) := nodes_getElem?_eq_nodeD hn
  obtain ⟨hq, hpaths⟩ := explodeFinal_node hwf hacy hn Q
  have hkeys := explodeFinal_keys_nodup g n Q
  have hitem0 : (⟨cid, Q, 0, [[cid]], false⟩ : ExplosionItem) ∈
      explodeItems0 g (explodeFinal g n Q) := by
    apply List.mem_filterMap.mpr
    refine ⟨(n, Q), lookupA_mem hq, ?_⟩
    have hb := explodeItems0_build hnd hpaths Q
    rw [hcid] at hb
    exact hb
  have hmem : (⟨cid, Q, 0, [[cid]], false⟩ : ExplosionItem) ∈
      sortByLevel (explodeItems0 g (explodeFinal g n Q)) :=
    (mem_sortByLevel _ _).mpr hitem0
  refine ⟨?_, hmem, ?_⟩
  · unfold explode
    rw [hfind]
  · have hsome : ((sortByLevel (explodeItems0 g (explodeFinal g n Q))).find?
        (fun it => it.component_id == cid)).isSome := by
      rw [List.find?_isSome]
      exact ⟨_, hmem, by simp⟩
    obtain ⟨it, hfd⟩ := Option.isSome_iff_exists.mp hsome
    have hpit : it.component_id = cid := by
      have := List.find?_some hfd
      simpa using this
    have hinit : it ∈ explodeItems0 g (explodeFinal g n Q) :=
      (mem_sortByLevel _ _).mp (List.mem_of_find?_eq_some hfd)
    rw [hfd, explodeItems0_unique hwf hfind Q hq hpaths hkeys it hinit hpit]

/-- C10: for a component present in a well-formed acyclic graph, explode
includes an item for the component itself, with the full order quantity,
level zero and the single one-element path; it is counted in the unique
component count, and flatten maps the component to one. -/
theorem C10_root_item (g : BomGraph) (cid : String) (n : Nat) (Q : Decimal)
    (hwf : ArenaWF g.arena) (hacy : g.arena.Acyclic)
    (hfind : g.find_node cid = some n) :
    ∃ r, explode g cid Q = .ok r ∧
      ((∃ it, it ∈ r.items ∧ it.component_id = cid ∧ it.total_quantity = Q ∧
        it.level = 0 ∧ it.paths = [[cid]]) ∧
      itemQty r cid = some Q ∧
      r.unique_component_count = r.items.length ∧
      (∃ m, flatten g cid = .ok m ∧ lookupA m cid = some 1)) := by
  obtain ⟨hok, hmem, hfd⟩ := explode_root_aux hwf hacy hfind Q
  obtain ⟨hok1, _, hfd1⟩ := explode_root_aux hwf hacy hfind 1
  refine ⟨_, hok, ⟨⟨cid, Q, 0, [[cid]], false⟩, hmem, rfl, rfl, rfl, rfl⟩, ?_, rfl, ?_⟩
  · unfold itemQty
    dsimp only
    rw [hfd]
    rfl
  · refine ⟨(sortByLevel (explodeItems0 g (explodeFinal g n 1))).map
        (fun it => (it.component_id, it.total_quantity)), ?_, ?_⟩
    · unfold flatten
      rw [hok1]
    · rw [lookupA_items_map, hfd1]
      rfl

/-- Witness for C10: the S1 chain at its root A with quantity seven. -/
theorem C10_root_item_witness :
    ArenaWF graphS1.arena ∧ graphS1.arena.Acyclic ∧
    graphS1.find_node "A" = some 0 ∧
    (∃ r, explode graphS1 "A" 7 = .ok r ∧
      ((∃ it, it ∈ r.items ∧ it.component_id = "A" ∧ it.total_quantity = 7 ∧
        it.level = 0 ∧ it.paths = [["A"]]) ∧
      itemQty r "A" = some 7 ∧
      r.unique_component_count = r.items.length ∧
      (∃ m, flatten graphS1 "A" = .ok m ∧ lookupA m "A" = some 1))) :=
  ⟨by decide, acyclic_of_rank graphS1.arena (fun i => 3 - i) (by decide), by decide,
    C10_root_item graphS1 "A" 0 7 (by decide)
      (acyclic_of_rank graphS1.arena (fun i => 3 - i) (by decide)) (by decide)⟩

/-! Completeness of the reachable-set collection: at the wrapper fuel the
result is duplicate-free, contains the roots and is closed under children. -/

theorem phiMem_drop {a : Arena} {reach : List Nat} {node : Nat}
    (hn : node < a.nodes.length) (hmem : node ∉ reach) :
    phiMem a (node :: reach) + ((nodeD a node).outgoing.length + 1) = phiMem a reach := by
  unfold phiMem
  exact filter_sum_drop (List.nodup_range _) (List.mem_range.mpr hn)
    (by simp [hmem]) (by simp)
    (fun i _ hne => by simp [hne]) _

theorem phiMem_invalid {a : Arena} {reach : List Nat} {node : Nat}
    (hn : ¬ node < a.nodes.length) :
    phiMem a (node :: reach) = phiMem a reach := by
  unfold phiMem
  refine congrArg _ (congrArg _ (List.filter_congr ?_))
  intro i hi
  have hne : i ≠ node := by
    intro h
    exact hn (h ▸ List.mem_range.mp hi)
  simp [hne]

theorem phiMem_nil_le (a : Arena) : phiMem a [] ≤ a.outSum := by
  unfold phiMem Arena.outSum
  have h1 : ((List.range a.nodes.length).filter
      (fun i => decide (i ∉ ([] : List Nat)))) = List.range a.nodes.length := by
    apply List.filter_eq_self.mpr
    intro i _
    simp
  rw [h1]
  have h2 := sum_map_range_getD (fun nd => nd.outgoing.length + 1)
    (⟨"", [], [], NodeCache.empty, false, 0⟩ : Node) a.nodes
  unfold nodeD
  exact le_of_eq h2

theorem children_len_le {a : Arena} {node : Nat} (hn : node < a.nodes.length) :
    (a.children node).length ≤ (nodeD a node).outgoing.length := by
  unfold Arena.children
  rw [nodes_getElem?_eq_nodeD hn]
  exact List.length_filterMap_le _ _

theorem collectReach_complete (a : Arena) :
    ∀ (fuel : Nat) (stack reach : List Nat),
      fuel > stack.length + phiMem a reach →
      reach.Nodup →
      (∀ x ∈ reach, ∀ ce ∈ a.children x, ce.1 ∈ reach ∨ ce.1 ∈ stack) →
      (collectReachFuel a fuel stack reach).Nodup ∧
      (∀ s ∈ stack, s ∈ collectReachFuel a fuel stack reach) ∧
      (∀ r ∈ reach, r ∈ collectReachFuel a fuel stack reach) ∧
      (∀ x ∈ collectReachFuel a fuel stack reach, ∀ ce ∈ a.children x,
        ce.1 ∈ collectReachFuel a fuel stack reach) := by
  intro fuel
  induction fuel with
  | zero =>
    intro stack reach hfuel
    exact absurd hfuel (Nat.not_lt_zero _)
  | succ fuel ih =>
    intro stack reach hfuel hnd hcl
    match stack with
    | [] =>
      simp only [collectReachFuel]
      refine ⟨hnd, ?_, fun r hr => hr, ?_⟩
      · intro s hs
        exact absurd hs (List.not_mem_nil s)
      · intro x hx ce hce
        rcases hcl x hx ce hce with h | h
        · exact h
        · exact absurd h (List.not_mem_nil _)
    | node :: rest =>
      by_cases hmem : node ∈ reach
      · rw [show collectReachFuel a (fuel+1) (node :: rest) reach =
            collectReachFuel a fuel rest reach from by
          simp only [collectReachFuel, if_pos hmem]]
        have hfuel' : fuel > rest.length + phiMem a reach := by
          simp only [List.length_cons] at hfuel
          omega
        have hcl' : ∀ x ∈ reach, ∀ ce ∈ a.children x, ce.1 ∈ reach ∨ ce.1 ∈ rest := by
          intro x hx ce hce
          rcases hcl x hx ce hce with h | h
          · exact Or.inl h
          · rcases List.mem_cons.mp h with h | h
            · exact Or.inl (h ▸ hmem)
            · exact Or.inr h
        obtain ⟨h1, h2, h3, h4⟩ := ih rest reach hfuel' hnd hcl'
        refine ⟨h1, ?_, h3, h4⟩
        intro s hs
        rcases List.mem_cons.mp hs with h | h
        · exact h ▸ h3 node hmem
        · exact h2 s h
      · rw [show collectReachFuel a (fuel+1) (node :: rest) reach =
            collectReachFuel a fuel
              (((((a.children node).map (fun ce => ce.1)).filter
                (fun c => decide (c ∉ node :: reach))).reverse ++ rest)) (node :: reach) from by
          simp only [collectReachFuel, if_neg hmem]]
        have hnd' : (node :: reach).Nodup := List.nodup_cons.mpr ⟨hmem, hnd⟩
        have hlen : ((((a.children node).map (fun ce => ce.1)).filter
            (fun c => decide (c ∉ node :: reach))).reverse ++ rest).length ≤
            (a.children node).length + rest.length := by
          rw [List.length_append, List.length_reverse]
          have := List.length_filter_le (fun c => decide (c ∉ node :: reach))
            ((a.children node).map (fun ce => ce.1))
          rw [List.length_map] at this
          omega
        have hfuel' : fuel > ((((a.children node).map (fun ce => ce.1)).filter
            (fun c => decide (c ∉ node :: reach))).reverse ++ rest).length +
            phiMem a (node :: reach) := by
          by_cases hvalid : node < a.nodes.length
          · have hdrop := phiMem_drop hvalid hmem
            have hcle := children_len_le hvalid
            simp only [List.length_cons] at hfuel
            omega
          · have hch : a.children node = [] := by
              apply children_invalid
              exact List.getElem?_eq_none (Nat.le_of_not_lt hvalid)
            have heq := @phiMem_invalid a reach node hvalid
            rw [hch]
            simp only [List.map_nil, List.filter_nil, List.reverse_nil, List.nil_append,
              List.length_cons] at hfuel ⊢
            omega
        have hcl' : ∀ x ∈ node :: reach, ∀ ce ∈ a.children x,
            ce.1 ∈ node :: reach ∨
            ce.1 ∈ ((((a.children node).map (fun ce => ce.1)).filter
              (fun c => decide (c ∉ node :: reach))).reverse ++ rest) := by
          intro x hx ce hce
          rcases List.mem_cons.mp hx with hx | hx
          · by_cases hin : ce.1 ∈ node :: reach
            · exact Or.inl hin
            · refine Or.inr (List.mem_append.mpr (Or.inl ?_))
              rw [List.mem_reverse]
              apply List.mem_filter.mpr
              refine ⟨List.mem_map_of_mem _ (hx ▸ hce), by simpa using hin⟩
          · rcases hcl x hx ce hce with h | h
            · exact Or.inl (List.mem_cons_of_mem node h)
            · rcases List.mem_cons.mp h with h | h
              · exact Or.inl (h ▸ List.mem_cons_self node reach)
              · exact Or.inr (List.mem_append.mpr (Or.inr h))
        obtain ⟨h1, h2, h3, h4⟩ := ih _ _ hfuel' hnd' hcl'
        refine ⟨h1, ?_, ?_, h4⟩
        · intro s hs
          rcases List.mem_cons.mp hs with h | h
          · exact h ▸ h3 node (List.mem_cons_self node reach)
          · exact h2 s (List.mem_append.mpr (Or.inr h))
        · intro r hr
          exact h3 r (List.mem_cons_of_mem node hr)

theorem reachableFrom_props (a : Arena) (roots : List Nat) :
    (a.reachableFrom roots).Nodup ∧
    (∀ r ∈ roots, r ∈ a.reachableFrom roots) ∧
    (∀ x ∈ a.reachableFrom roots, ∀ ce ∈ a.children x,
      ce.1 ∈ a.reachableFrom roots) := by
  unfold Arena.reachableFrom
  have h := collectReach_complete a (roots.length + a.outSum + 1) roots []
    (by have := phiMem_nil_le a; omega) List.nodup_nil
    (by intro x hx; exact absurd hx (List.not_mem_nil x))
  exact ⟨h.1, h.2.1, h.2.2.2⟩

/-- Completeness of reachableFrom: every node reachable from the root along
edges is collected. -/
theorem reachableFrom_complete {a : Arena} (hwf : ArenaWF a) {root : Nat} :
    ∀ x, a.Reaches root x → x ∈ a.reachableFrom [root] := by
  intro x hx
  refine reachesE_closed (fun y => y ∈ a.reachableFrom [root]) ?_ hx
    ((reachableFrom_props a [root]).2.1 root (List.mem_singleton.mpr rfl))
  intro e he hPs
  exact (reachableFrom_props a [root]).2.2 e.source hPs (e.target, e)
    (edge_mem_children hwf he)

/-! The Kahn in-degree initialization: stored degrees and the seed queue. -/

theorem sum_map_one : ∀ l : List Nat, (l.map (fun _ => 1)).sum = l.length := by
  intro l
  induction l with
  | nil => rfl
  | cons x xs ih => simp [ih, Nat.add_comm]

theorem filter_length_mono {l : List Nat} {p p' : Nat → Bool}
    (h : ∀ i ∈ l, p' i = true → p i = true) :
    (l.filter p').length ≤ (l.filter p).length := by
  induction l with
  | nil => exact Nat.le_refl 0
  | cons x xs ih =>
    simp only [List.filter_cons]
    have ih' := ih (fun i hi hpi => h i (List.mem_cons_of_mem x hi) hpi)
    by_cases hx' : p' x = true
    · rw [if_pos hx', if_pos (h x (List.mem_cons_self x xs) hx')]
      simpa using ih'
    · rw [if_neg hx']
      by_cases hx : p x = true
      · rw [if_pos hx]
        simp only [List.length_cons]
        omega
      · rw [if_neg hx]
        exact ih'

theorem filter_length_drop {l : List Nat} (hnd : l.Nodup) {p p' : Nat → Bool} {n : Nat}
    (hn : n ∈ l) (hp : p n = true) (hp' : p' n = false)
    (hagree : ∀ i ∈ l, i ≠ n → p' i = p i) :
    (l.filter p').length + 1 = (l.filter p).length := by
  have h := filter_sum_drop hnd hn hp hp' hagree (fun _ => 1)
  rw [show ((l.filter p').map (fun _ => 1)).sum = (l.filter p').length from
      sum_map_one _,
    show ((l.filter p).map (fun _ => 1)).sum = (l.filter p).length from
      sum_map_one _] at h
  exact h

theorem kahnDeg_eq {a : Arena} (hwf : ArenaWF a) (reach : List Nat) {n : Nat}
    (hn : n < a.nodes.length) :
    ((nodeD a n).incoming.filter (fun ei => match a.edges[ei]? with
      | some e => decide (e.source ∈ reach)
      | none => false)).length = cntIn a reach [] n := by
  unfold cntIn
  congr 1
  apply List.filter_congr
  intro ei hei
  have hb := (hwf.inChar n hn ei hei).1
  rw [edges_getElem?_eq_edgeD hb]
  simp

theorem kahnInitFold_preserve (a : Arena) (reach : List Nat) :
    ∀ (l : List Nat) (st : List (Nat × Nat) × List Nat) (x : Nat), x ∉ l →
      lookupA (l.foldl (fun st n =>
        match a.nodes[n]? with
        | none => st
        | some nd =>
          let degree := (nd.incoming.filter (fun ei =>
            match a.edges[ei]? with
            | some e => decide (e.source ∈ reach)
            | none => false)).length
          (upsertA st.1 n degree, if degree = 0 then st.2 ++ [n] else st.2)) st).1 x =
      lookupA st.1 x := by
  intro l
  induction l with
  | nil => intro st x _; rfl
  | cons n rest ih =>
    intro st x hx
    rw [List.foldl_cons]
    have hxn : x ≠ n := fun h => hx (h ▸ List.mem_cons_self n rest)
    have hxr : x ∉ rest := fun h => hx (List.mem_cons_of_mem n h)
    rw [ih _ x hxr]
    cases hnd : a.nodes[n]? with
    | none => rfl
    | some nd =>
      dsimp only
      exact lookupA_upsert_ne _ _ _ _ (fun h => hxn h.symm)

theorem kahnInit_spec {a : Arena} (hwf : ArenaWF a) (reach : List Nat) :
    ∀ (l : List Nat) (st : List (Nat × Nat) × List Nat),
      (∀ x ∈ l, x < a.nodes.length) → l.Nodup →
      (∀ x ∈ l, lookupA ((l.foldl (fun st n =>
        match a.nodes[n]? with
        | none => st
        | some nd =>
          let degree := (nd.incoming.filter (fun ei =>
            match a.edges[ei]? with
            | some e => decide (e.source ∈ reach)
            | none => false)).length
          (upsertA st.1 n degree, if degree = 0 then st.2 ++ [n] else st.2)) st)).1 x =
        some (cntIn a reach [] x)) ∧
      (∀ x, x ∈ ((l.foldl (fun st n =>
        match a.nodes[n]? with
        | none => st
        | some nd =>
          let degree := (nd.incoming.filter (fun ei =>
            match a.edges[ei]? with
            | some e => decide (e.source ∈ reach)
            | none => false)).length
          (upsertA st.1 n degree, if degree = 0 then st.2 ++ [n] else st.2)) st)).2 ↔
        (x ∈ st.2 ∨ (x ∈ l ∧ cntIn a reach [] x = 0))) ∧
      (st.2.Nodup → (∀ x ∈ st.2, x ∉ l) → ((l.foldl (fun st n =>
        match a.nodes[n]? with
        | none => st
        | some nd =>
          let degree := (nd.incoming.filter (fun ei =>
            match a.edges[ei]? with
            | some e => decide (e.source ∈ reach)
            | none => false)).length
          (upsertA st.1 n degree, if degree = 0 then st.2 ++ [n] else st.2)) st)).2.Nodup) := by
  intro l
  induction l with
  | nil =>
    intro st _ _
    refine ⟨?_, ?_, ?_⟩
    · intro x hx
      exact absurd hx (List.not_mem_nil x)
    · intro x
      simp
    · intro h _
      exact h
  | cons n rest ih =>
    intro st hv hnd
    have hvr : ∀ x ∈ rest, x < a.nodes.length :=
      fun x hx => hv x (List.mem_cons_of_mem n hx)
    have hndr := (List.nodup_cons.mp hnd).2
    have hnmem := (List.nodup_cons.mp hnd).1
    have hnv := hv n (List.mem_cons_self n rest)
    have hnds : a.nodes[n]? = some (nodeD a n) := nodes_getElem?_eq_nodeD hnv
    have hstep : ∀ st : List (Nat × Nat) × List Nat,
        List.foldl (fun st n =>
          match a.nodes[n]? with
          | none => st
          | some nd =>
            let degree := (nd.incoming.filter (fun ei =>
              match a.edges[ei]? with
              | some e => decide (e.source ∈ reach)
              | none => false)).length
            (upsertA st.1 n degree, if degree = 0 then st.2 ++ [n] else st.2)) st (n :: rest) =
        List.foldl (fun st n =>
          match a.nodes[n]? with
          | none => st
          | some nd =>
            let degree := (nd.incoming.filter (fun ei =>
              match a.edges[ei]? with
              | some e => decide (e.source ∈ reach)
              | none => false)).length
            (upsertA st.1 n degree, if degree = 0 then st.2 ++ [n] else st.2))
          (upsertA st.1 n (cntIn a reach [] n),
            if cntIn a reach [] n = 0 then st.2 ++ [n] else st.2) rest := by
      intro st
      rw [List.foldl_cons]
      dsimp only
      rw [hnds]
      dsimp only
      rw [kahnDeg_eq hwf reach hnv]
    obtain ⟨ih1, ih2, ih3⟩ := ih (upsertA st.1 n (cntIn a reach [] n),
      if cntIn a reach [] n = 0 then st.2 ++ [n] else st.2) hvr hndr
    refine ⟨?_, ?_, ?_⟩
    · intro x hx
      rw [hstep]
      rcases List.mem_cons.mp hx with hxn | hxr
      · subst hxn
        rw [kahnInitFold_preserve a reach rest _ x hnmem]
        exact lookupA_upsert_self _ _ _
      · exact ih1 x hxr
    · intro x
      rw [hstep]
      rw [ih2 x]
      dsimp only
      constructor
      · intro h
        rcases h with h | h
        · by_cases hz : cntIn a reach [] n = 0
          · rw [if_pos hz] at h
            rcases List.mem_append.mp h with h | h
            · exact Or.inl h
            · have : x = n := by simpa using h
              exact Or.inr ⟨this ▸ List.mem_cons_self n rest, this ▸ hz⟩
          · rw [if_neg hz] at h
            exact Or.inl h
        · exact Or.inr ⟨List.mem_cons_of_mem n h.1, h.2⟩
      · intro h
        rcases h with h | ⟨hxl, hxz⟩
        · left
          by_cases hz : cntIn a reach [] n = 0
          · rw [if_pos hz]
            exact List.mem_append.mpr (Or.inl h)
          · rw [if_neg hz]
            exact h
        · rcases List.mem_cons.mp hxl with hxn | hxr
          · left
            subst hxn
            rw [if_pos hxz]
            exact List.mem_append.mpr (Or.inr (List.mem_cons_self x []))
          · exact Or.inr ⟨hxr, hxz⟩
    · intro hqnd hdisj
      rw [hstep]
      apply ih3
      · by_cases hz : cntIn a reach [] n = 0
        · rw [if_pos hz]
          rw [List.nodup_append]
          refine ⟨hqnd, List.nodup_singleton n, ?_⟩
          intro x hx
          simp only [List.mem_singleton]
          intro hxn
          exact hdisj x hx (hxn ▸ List.mem_cons_self n rest)
        · rw [if_neg hz]
          exact hqnd
      · intro x hx
        by_cases hz : cntIn a reach [] n = 0
        · rw [if_pos hz] at hx
          rcases List.mem_append.mp hx with h | h
          · exact fun hr => hdisj x h (List.mem_cons_of_mem n hr)
          · have : x = n := by simpa using h
            exact this ▸ hnmem
        · rw [if_neg hz] at hx
          exact fun hr => hdisj x hx (List.mem_cons_of_mem n hr)

theorem kahnInit_correct {a : Arena} (hwf : ArenaWF a) {reach : List Nat}
    (hnd : reach.Nodup) (hv : ∀ x ∈ reach, x < a.nodes.length) :
    (∀ x ∈ reach, lookupA (kahnInit a reach).1 x = some (cntIn a reach [] x)) ∧
    (∀ x, x ∈ (kahnInit a reach).2 ↔ (x ∈ reach ∧ cntIn a reach [] x = 0)) ∧
    (kahnInit a reach).2.Nodup := by
  unfold kahnInit
  obtain ⟨h1, h2, h3⟩ := kahnInit_spec hwf reach reach ([], []) hv hnd
  refine ⟨h1, ?_, ?_⟩
  · intro x
    rw [h2 x]
    simp
  · exact h3 List.nodup_nil (fun x hx => absurd hx (List.not_mem_nil x))

/-! The Kahn step: processing one node decrements the stored degree of each
reach-restricted child once per edge, queueing the children that reach zero. -/

theorem cntP_nil_eq (a : Arena) (reach result : List Nat) (x : Nat) :
    ((nodeD a x).incoming.filter (fun ei =>
      decide ((edgeD a ei).source ∈ reach) && decide ((edgeD a ei).source ∉ result) &&
      decide (ei ∉ ([] : List Nat)))).length = cntIn a reach result x := by
  unfold cntIn
  congr 1
  apply List.filter_congr
  intro ei _
  simp

theorem cntP_full_eq {a : Arena} (hwf : ArenaWF a) {n x : Nat}
    (hn : n < a.nodes.length) (hx : x < a.nodes.length)
    (reach result : List Nat) :
    ((nodeD a x).incoming.filter (fun ei =>
      decide ((edgeD a ei).source ∈ reach) && decide ((edgeD a ei).source ∉ result) &&
      decide (ei ∉ (nodeD a n).outgoing))).length =
    cntIn a reach (result ++ [n]) x := by
  unfold cntIn
  congr 1
  apply List.filter_congr
  intro ei hei
  have heib := hwf.inChar x hx ei hei
  by_cases hsrc : (edgeD a ei).source = n
  · have hout : ei ∈ (nodeD a n).outgoing := by
      have := hwf.outComplete ei heib.1
      rw [hsrc] at this
      exact this
    simp [hout, hsrc]
  · have hout : ei ∉ (nodeD a n).outgoing := by
      intro hmem
      exact hsrc (hwf.outChar n hn ei hmem).2
    simp only [List.mem_append, List.mem_singleton]
    by_cases h1 : (edgeD a ei).source ∈ reach <;>
      by_cases h2 : (edgeD a ei).source ∈ result <;>
      simp [h1, h2, hout, hsrc]

theorem kahnStepFold_spec {a : Arena} (hwf : ArenaWF a) (hacy : a.Acyclic)
    {reach result : List Nat}
    (hrv : ∀ x ∈ reach, x < a.nodes.length)
    {n : Nat} (hnre : n ∈ reach) (hnres : n ∉ result)
    (hord : OrdRes a reach result)
    {qrest : List Nat}
    (hq : ∀ y ∈ qrest, y ∈ reach ∧ y ∉ result ∧ cntIn a reach result y = 0) :
    ∀ (suffix P : List Nat) (st : List (Nat × Nat) × List Nat),
      (nodeD a n).outgoing = P ++ suffix →
      (∀ x ∈ reach, x ∉ result → x ≠ n →
        lookupA st.1 x = some ((((nodeD a x).incoming.filter (fun ei =>
          decide ((edgeD a ei).source ∈ reach) &&
          decide ((edgeD a ei).source ∉ result) && decide (ei ∉ P)))).length)) →
      (∀ y ∈ qrest, y ∈ st.2) →
      (∀ x ∈ st.2, x ∈ qrest ∨ (x ∈ reach ∧ x ∉ result ∧ x ≠ n ∧
        (((nodeD a x).incoming.filter (fun ei =>
          decide ((edgeD a ei).source ∈ reach) &&
          decide ((edgeD a ei).source ∉ result) && decide (ei ∉ P)))).length = 0)) →
      (∀ x ∈ reach, x ∉ result → x ≠ n →
        (((nodeD a x).incoming.filter (fun ei =>
          decide ((edgeD a ei).source ∈ reach) &&
          decide ((edgeD a ei).source ∉ result) && decide (ei ∉ P)))).length = 0 →
        x ∈ st.2) →
      st.2.Nodup →
      (∀ x ∈ reach, x ∉ result → x ≠ n →
        lookupA (suffix.foldl (fun (st : List (Nat × Nat) × List Nat) ei =>
          if (edgeD a ei).target ∈ reach then
            match lookupA st.1 (edgeD a ei).target with
            | some d => (upsertA st.1 (edgeD a ei).target (d - 1),
                if d - 1 = 0 then st.2 ++ [(edgeD a ei).target] else st.2)
            | none => st
          else st) st).1 x = some ((((nodeD a x).incoming.filter (fun ei =>
          decide ((edgeD a ei).source ∈ reach) &&
          decide ((edgeD a ei).source ∉ result) &&
          decide (ei ∉ P ++ suffix)))).length)) ∧
      (∀ y ∈ qrest, y ∈ (suffix.foldl (fun (st : List (Nat × Nat) × List Nat) ei =>
          if (edgeD a ei).target ∈ reach then
            match lookupA st.1 (edgeD a ei).target with
            | some d => (upsertA st.1 (edgeD a ei).target (d - 1),
                if d - 1 = 0 then st.2 ++ [(edgeD a ei).target] else st.2)
            | none => st
          else st) st).2) ∧
      (∀ x ∈ (suffix.foldl (fun (st : List (Nat × Nat) × List Nat) ei =>
          if (edgeD a ei).target ∈ reach then
            match lookupA st.1 (edgeD a ei).target with
            | some d => (upsertA st.1 (edgeD a ei).target (d - 1),
                if d - 1 = 0 then st.2 ++ [(edgeD a ei).target] else st.2)
            | none => st
          else st) st).2, x ∈ qrest ∨ (x ∈ reach ∧ x ∉ result ∧ x ≠ n ∧
        (((nodeD a x).incoming.filter (fun ei =>
          decide ((edgeD a ei).source ∈ reach) &&
          decide ((edgeD a ei).source ∉ result) &&
          decide (ei ∉ P ++ suffix)))).length = 0)) ∧
      (∀ x ∈ reach, x ∉ result → x ≠ n →
        (((nodeD a x).incoming.filter (fun ei =>
          decide ((edgeD a ei).source ∈ reach) &&
          decide ((edgeD a ei).source ∉ result) &&
          decide (ei ∉ P ++ suffix)))).length = 0 →
        x ∈ (suffix.foldl (fun (st : List (Nat × Nat) × List Nat) ei =>
          if (edgeD a ei).target ∈ reach then
            match lookupA st.1 (edgeD a ei).target with
            | some d => (upsertA st.1 (edgeD a ei).target (d - 1),
                if d - 1 = 0 then st.2 ++ [(edgeD a ei).target] else st.2)
            | none => st
          else st) st).2) ∧
      (suffix.foldl (fun (st : List (Nat × Nat) × List Nat) ei =>
          if (edgeD a ei).target ∈ reach then
            match lookupA st.1 (edgeD a ei).target with
            | some d => (upsertA st.1 (edgeD a ei).target (d - 1),
                if d - 1 = 0 then st.2 ++ [(edgeD a ei).target] else st.2)
            | none => st
          else st) st).2.Nodup := by
  have hn : n < a.nodes.length := hrv n hnre
  intro suffix
  induction suffix with
  | nil =>
    intro P st houts hdeg hsup hsound hcompl hnd
    rw [List.append_nil] at houts ⊢
    simp only [List.foldl_nil]
    exact ⟨hdeg, hsup, hsound, hcompl, hnd⟩
  | cons ei suffix ih =>
    intro P st houts hdeg hsup hsound hcompl hnd
    have houts' : (nodeD a n).outgoing = (P ++ [ei]) ++ suffix := by
      rw [houts, List.append_assoc, List.singleton_append]
    rw [show P ++ ei :: suffix = (P ++ [ei]) ++ suffix from by
      rw [List.append_assoc, List.singleton_append]]
    have heimem : ei ∈ (nodeD a n).outgoing := by
      rw [houts]
      exact List.mem_append.mpr (Or.inr (List.mem_cons_self ei suffix))
    have heisrc : (edgeD a ei).source = n := (hwf.outChar n hn ei heimem).2
    have heilt : ei < a.edges.length := (hwf.outChar n hn ei heimem).1
    have hout_nd : (nodeD a n).outgoing.Nodup := (hwf.adjNodup n hn).1
    have heiP : ei ∉ P := by
      rw [houts] at hout_nd
      have := List.disjoint_of_nodup_append hout_nd
      intro hmem
      exact this hmem (List.mem_cons_self ei suffix)
    have hPmem : ∀ {x : Nat} (hx : x < a.nodes.length), x ≠ (edgeD a ei).target →
        ((nodeD a x).incoming.filter (fun ej =>
          decide ((edgeD a ej).source ∈ reach) &&
          decide ((edgeD a ej).source ∉ result) && decide (ej ∉ P))).length =
        ((nodeD a x).incoming.filter (fun ej =>
          decide ((edgeD a ej).source ∈ reach) &&
          decide ((edgeD a ej).source ∉ result) && decide (ej ∉ P ++ [ei]))).length := by
      intro x hx hne
      congr 1
      apply List.filter_congr
      intro ej hej
      have hjne : ej ≠ ei := by
        intro h
        exact hne ((h ▸ (hwf.inChar x hx ej hej).2).symm)
      simp only [List.mem_append, List.mem_singleton]
      simp [hjne]
    have hstep3 : ∀ (l : List Nat), l.foldl (fun (st : List (Nat × Nat) × List Nat) ei =>
          if (edgeD a ei).target ∈ reach then
            match lookupA st.1 (edgeD a ei).target with
            | some d => (upsertA st.1 (edgeD a ei).target (d - 1),
                if d - 1 = 0 then st.2 ++ [(edgeD a ei).target] else st.2)
            | none => st
          else st) st = l.foldl (fun (st : List (Nat × Nat) × List Nat) ei =>
          if (edgeD a ei).target ∈ reach then
            match lookupA st.1 (edgeD a ei).target with
            | some d => (upsertA st.1 (edgeD a ei).target (d - 1),
                if d - 1 = 0 then st.2 ++ [(edgeD a ei).target] else st.2)
            | none => st
          else st) st := fun l => rfl
    by_cases ht : (edgeD a ei).target ∈ reach
    · have htlt : (edgeD a ei).target < a.nodes.length := hrv _ ht
      have htn : (edgeD a ei).target ≠ n := by
        intro h
        have hedge := edgeD_mem heilt
        exact hacy (edgeD a ei) hedge
          (h ▸ heisrc ▸ ReachesE.refl n hn)
      have htres : (edgeD a ei).target ∉ result := by
        intro hmem
        obtain ⟨fk, hgetk⟩ := List.mem_iff_get.mp hmem
        have hincl : ei ∈ (nodeD a (result.get ⟨fk.1, fk.2⟩)).incoming := by
          have hge : result.get ⟨fk.1, fk.2⟩ = (edgeD a ei).target := by
            rw [show (⟨fk.1, fk.2⟩ : Fin result.length) = fk from rfl, hgetk]
          rw [hge]
          exact hwf.inComplete ei heilt
        have hto := hord fk.1 fk.2 ei hincl (heisrc ▸ hnre)
        rw [heisrc] at hto
        exact hnres (List.take_subset fk.1 result hto)
      have hdegt := hdeg _ ht htres htn
      have heicnt : ei ∈ (nodeD a (edgeD a ei).target).incoming :=
        hwf.inComplete ei heilt
      have hin_nd : (nodeD a (edgeD a ei).target).incoming.Nodup :=
        (hwf.adjNodup _ htlt).2
      have hdropt : (((nodeD a (edgeD a ei).target).incoming.filter (fun ej =>
          decide ((edgeD a ej).source ∈ reach) &&
          decide ((edgeD a ej).source ∉ result) && decide (ej ∉ P ++ [ei])))).length + 1 =
          (((nodeD a (edgeD a ei).target).incoming.filter (fun ej =>
          decide ((edgeD a ej).source ∈ reach) &&
          decide ((edgeD a ej).source ∉ result) && decide (ej ∉ P)))).length := by
        refine filter_length_drop hin_nd heicnt ?_ ?_ ?_
        · rw [heisrc]
          simp [hnre, hnres, heiP]
        · simp
        · intro ej _ hne
          simp only [List.mem_append, List.mem_singleton]
          simp [hne]
      rw [show (ei :: suffix).foldl (fun (st : List (Nat × Nat) × List Nat) ei =>
          if (edgeD a ei).target ∈ reach then
            match lookupA st.1 (edgeD a ei).target with
            | some d => (upsertA st.1 (edgeD a ei).target (d - 1),
                if d - 1 = 0 then st.2 ++ [(edgeD a ei).target] else st.2)
            | none => st
          else st) st = suffix.foldl (fun (st : List (Nat × Nat) × List Nat) ei =>
          if (edgeD a ei).target ∈ reach then
            match lookupA st.1 (edgeD a ei).target with
            | some d => (upsertA st.1 (edgeD a ei).target (d - 1),
                if d - 1 = 0 then st.2 ++ [(edgeD a ei).target] else st.2)
            | none => st
          else st)
          (upsertA st.1 (edgeD a ei).target
            ((((nodeD a (edgeD a ei).target).incoming.filter (fun ej =>
              decide ((edgeD a ej).source ∈ reach) &&
              decide ((edgeD a ej).source ∉ result) && decide (ej ∉ P)))).length - 1),
           if (((nodeD a (edgeD a ei).target).incoming.filter (fun ej =>
              decide ((edgeD a ej).source ∈ reach) &&
              decide ((edgeD a ej).source ∉ result) && decide (ej ∉ P)))).length - 1 = 0
           then st.2 ++ [(edgeD a ei).target] else st.2) from by
        rw [List.foldl_cons]
        rw [show (if (edgeD a ei).target ∈ reach then
            match lookupA st.1 (edgeD a ei).target with
            | some d => (upsertA st.1 (edgeD a ei).target (d - 1),
                if d - 1 = 0 then st.2 ++ [(edgeD a ei).target] else st.2)
            | none => st
          else st) = _ from by rw [if_pos ht, hdegt]]]
      have hcntlb : 0 < (((nodeD a (edgeD a ei).target).incoming.filter (fun ej =>
          decide ((edgeD a ej).source ∈ reach) &&
          decide ((edgeD a ej).source ∉ result) && decide (ej ∉ P)))).length := by
        omega
      refine ih (P ++ [ei]) _ houts' ?_ ?_ ?_ ?_ ?_
      · intro x hx hxres hxn
        by_cases hxt : x = (edgeD a ei).target
        · subst hxt
          rw [lookupA_upsert_self]
          refine congrArg some ?_
          omega
        · rw [lookupA_upsert_ne _ _ _ _ (fun h => hxt h.symm)]
          rw [← hPmem (hrv x hx) hxt]
          exact hdeg x hx hxres hxn
      · intro y hy
        have := hsup y hy
        by_cases hz : (((nodeD a (edgeD a ei).target).incoming.filter (fun ej =>
            decide ((edgeD a ej).source ∈ reach) &&
            decide ((edgeD a ej).source ∉ result) && decide (ej ∉ P)))).length - 1 = 0
        · rw [if_pos hz]
          exact List.mem_append.mpr (Or.inl this)
        · rw [if_neg hz]
          exact this
      · intro x hx
        by_cases hz : (((nodeD a (edgeD a ei).target).incoming.filter (fun ej =>
            decide ((edgeD a ej).source ∈ reach) &&
            decide ((edgeD a ej).source ∉ result) && decide (ej ∉ P)))).length - 1 = 0
        · rw [if_pos hz] at hx
          rcases List.mem_append.mp hx with hx | hx
          · rcases hsound x hx with h | ⟨h1, h2, h3, h4⟩
            · exact Or.inl h
            · refine Or.inr ⟨h1, h2, h3, ?_⟩
              rw [← hPmem (hrv x h1) (fun hxeq => by
                rw [hxeq] at h4
                omega)]
              exact h4
          · have hxt : x = (edgeD a ei).target := by simpa using hx
            subst hxt
            refine Or.inr ⟨ht, htres, htn, ?_⟩
            omega
        · rw [if_neg hz] at hx
          rcases hsound x hx with h | ⟨h1, h2, h3, h4⟩
          · exact Or.inl h
          · refine Or.inr ⟨h1, h2, h3, ?_⟩
            rw [← hPmem (hrv x h1) (fun hxeq => by
              rw [hxeq] at h4
              omega)]
            exact h4
      · intro x hx hxres hxn hxz
        by_cases hxt : x = (edgeD a ei).target
        · subst hxt
          have : (((nodeD a (edgeD a ei).target).incoming.filter (fun ej =>
              decide ((edgeD a ej).source ∈ reach) &&
              decide ((edgeD a ej).source ∉ result) && decide (ej ∉ P)))).length - 1 = 0 := by
            omega
          rw [if_pos this]
          exact List.mem_append.mpr (Or.inr (List.mem_cons_self _ []))
        · have hx0 : (((nodeD a x).incoming.filter (fun ej =>
              decide ((edgeD a ej).source ∈ reach) &&
              decide ((edgeD a ej).source ∉ result) && decide (ej ∉ P)))).length = 0 := by
            rw [hPmem (hrv x hx) hxt]
            exact hxz
          have hmem := hcompl x hx hxres hxn hx0
          by_cases hz : (((nodeD a (edgeD a ei).target).incoming.filter (fun ej =>
              decide ((edgeD a ej).source ∈ reach) &&
              decide ((edgeD a ej).source ∉ result) && decide (ej ∉ P)))).length - 1 = 0
          · rw [if_pos hz]
            exact List.mem_append.mpr (Or.inl hmem)
          · rw [if_neg hz]
            exact hmem
      · by_cases hz : (((nodeD a (edgeD a ei).target).incoming.filter (fun ej =>
            decide ((edgeD a ej).source ∈ reach) &&
            decide ((edgeD a ej).source ∉ result) && decide (ej ∉ P)))).length - 1 = 0
        · rw [if_pos hz]
          rw [List.nodup_append]
          refine ⟨hnd, List.nodup_singleton _, ?_⟩
          intro x hx
          simp only [List.mem_singleton]
          intro hxt
          rcases hsound x hx with h | ⟨_, _, _, h4⟩
          · obtain ⟨_, _, hy0⟩ := hq x h
            have hmono : (((nodeD a x).incoming.filter (fun ej =>
                decide ((edgeD a ej).source ∈ reach) &&
                decide ((edgeD a ej).source ∉ result) && decide (ej ∉ P)))).length ≤
                cntIn a reach result x := by
              unfold cntIn
              apply filter_length_mono
              intro ej _ hpj
              simp only [Bool.and_eq_true, decide_eq_true_eq] at hpj ⊢
              exact ⟨hpj.1.1, hpj.1.2⟩
            rw [hxt] at hmono hy0
            omega
          · rw [hxt] at h4
            omega
        · rw [if_neg hz]
          exact hnd
    · rw [show (ei :: suffix).foldl (fun (st : List (Nat × Nat) × List Nat) ei =>
          if (edgeD a ei).target ∈ reach then
            match lookupA st.1 (edgeD a ei).target with
            | some d => (upsertA st.1 (edgeD a ei).target (d - 1),
                if d - 1 = 0 then st.2 ++ [(edgeD a ei).target] else st.2)
            | none => st
          else st) st = suffix.foldl (fun (st : List (Nat × Nat) × List Nat) ei =>
          if (edgeD a ei).target ∈ reach then
            match lookupA st.1 (edgeD a ei).target with
            | some d => (upsertA st.1 (edgeD a ei).target (d - 1),
                if d - 1 = 0 then st.2 ++ [(edgeD a ei).target] else st.2)
            | none => st
          else st) st from by
        rw [List.foldl_cons, if_neg ht]]
      refine ih (P ++ [ei]) _ houts' ?_ hsup ?_ ?_ hnd
      · intro x hx hxres hxn
        have hxt : x ≠ (edgeD a ei).target := fun h => ht (h ▸ hx)
        rw [← hPmem (hrv x hx) hxt]
        exact hdeg x hx hxres hxn
      · intro x hx
        rcases hsound x hx with h | ⟨h1, h2, h3, h4⟩
        · exact Or.inl h
        · refine Or.inr ⟨h1, h2, h3, ?_⟩
          have hxt : x ≠ (edgeD a ei).target := fun h => ht (h ▸ h1)
          rw [← hPmem (hrv x h1) hxt]
          exact h4
      · intro x hx hxres hxn hxz
        have hxt : x ≠ (edgeD a ei).target := fun h => ht (h ▸ hx)
        refine hcompl x hx hxres hxn ?_
        rw [hPmem (hrv x hx) hxt]
        exact hxz

theorem cntIn_append_le (a : Arena) (reach result : List Nat) (n x : Nat) :
    cntIn a reach (result ++ [n]) x ≤ cntIn a reach result x := by
  unfold cntIn
  apply filter_length_mono
  intro ej _ hpj
  simp only [Bool.and_eq_true, decide_eq_true_eq, List.mem_append,
    List.mem_singleton] at hpj ⊢
  exact ⟨hpj.1, fun hc => hpj.2 (Or.inl hc)⟩

theorem kahnStep_correct {a : Arena} (hwf : ArenaWF a) (hacy : a.Acyclic)
    {reach result : List Nat} (hrv : ∀ x ∈ reach, x < a.nodes.length)
    {n : Nat} (hnre : n ∈ reach) (hnres : n ∉ result) (hord : OrdRes a reach result)
    {qrest : List Nat}
    (hq : ∀ y ∈ qrest, y ∈ reach ∧ y ∉ result ∧ cntIn a reach result y = 0)
    (hqnd : qrest.Nodup) (hqn : n ∉ qrest)
    {inDeg : List (Nat × Nat)}
    (hdeg : ∀ x ∈ reach, x ∉ result → x ≠ n →
      lookupA inDeg x = some (cntIn a reach result x))
    (hcompl0 : ∀ x ∈ reach, x ∉ result → x ≠ n →
      cntIn a reach result x = 0 → x ∈ qrest) :
    (∀ x ∈ reach, x ∉ result ++ [n] →
      lookupA (kahnStep a reach n (inDeg, qrest)).1 x =
        some (cntIn a reach (result ++ [n]) x)) ∧
    (∀ y ∈ qrest, y ∈ (kahnStep a reach n (inDeg, qrest)).2) ∧
    (∀ x ∈ (kahnStep a reach n (inDeg, qrest)).2,
      x ∈ reach ∧ x ∉ result ++ [n] ∧ cntIn a reach (result ++ [n]) x = 0) ∧
    (∀ x ∈ reach, x ∉ result ++ [n] → cntIn a reach (result ++ [n]) x = 0 →
      x ∈ (kahnStep a reach n (inDeg, qrest)).2) ∧
    (kahnStep a reach n (inDeg, qrest)).2.Nodup := by
  have hn : n < a.nodes.length := hrv n hnre
  have hkeq : kahnStep a reach n (inDeg, qrest) =
      (nodeD a n).outgoing.foldl (fun (st : List (Nat × Nat) × List Nat) ei =>
        if (edgeD a ei).target ∈ reach then
          match lookupA st.1 (edgeD a ei).target with
          | some d => (upsertA st.1 (edgeD a ei).target (d - 1),
              if d - 1 = 0 then st.2 ++ [(edgeD a ei).target] else st.2)
          | none => st
        else st) (inDeg, qrest) := by
    unfold kahnStep
    rw [children_eq_map hwf hn, List.foldl_map]
  rw [hkeq]
  have hmemsplit : ∀ x : Nat, x ∉ result ++ [n] ↔ (x ∉ result ∧ x ≠ n) := by
    intro x
    simp [List.mem_append]
  obtain ⟨c1, c2, c3, c4, c5⟩ := kahnStepFold_spec hwf hacy hrv hnre hnres hord hq
    (nodeD a n).outgoing [] (inDeg, qrest) (by rw [List.nil_append])
    (by intro x hx hxr hxn
        rw [cntP_nil_eq]
        exact hdeg x hx hxr hxn)
    (fun y hy => hy)
    (fun x hx => Or.inl hx)
    (by intro x hx hxr hxn h0
        rw [cntP_nil_eq] at h0
        exact hcompl0 x hx hxr hxn h0)
    hqnd
  refine ⟨?_, c2, ?_, ?_, c5⟩
  · intro x hx hxm
    obtain ⟨hxr, hxn⟩ := (hmemsplit x).mp hxm
    have h := c1 x hx hxr hxn
    rw [List.nil_append, cntP_full_eq hwf hn (hrv x hx) reach result] at h
    exact h
  · intro x hx
    rcases c3 x hx with h | ⟨h1, h2, h3, h4⟩
    · obtain ⟨hy1, hy2, hy3⟩ := hq x h
      have hxn : x ≠ n := fun heq => hqn (heq ▸ h)
      refine ⟨hy1, (hmemsplit x).mpr ⟨hy2, hxn⟩, ?_⟩
      have := cntIn_append_le a reach result n x
      omega
    · refine ⟨h1, (hmemsplit x).mpr ⟨h2, h3⟩, ?_⟩
      rw [List.nil_append, cntP_full_eq hwf hn (hrv x h1) reach result] at h4
      exact h4
  · intro x hx hxm h0
    obtain ⟨hxr, hxn⟩ := (hmemsplit x).mp hxm
    refine c4 x hx hxr hxn ?_
    rw [List.nil_append, cntP_full_eq hwf hn (hrv x hx) reach result]
    exact h0

theorem cntIn_zero_sources {a : Arena} {reach result : List Nat} {x : Nat}
    (h0 : cntIn a reach result x = 0) :
    ∀ ei ∈ (nodeD a x).incoming, (edgeD a ei).source ∈ reach →
      (edgeD a ei).source ∈ result := by
  intro ei hei hsr
  by_contra hsnr
  unfold cntIn at h0
  rw [List.length_eq_zero] at h0
  have hmem : ei ∈ (nodeD a x).incoming.filter (fun ei =>
      decide ((edgeD a ei).source ∈ reach) && decide ((edgeD a ei).source ∉ result)) :=
    List.mem_filter.mpr ⟨hei, by simp [hsr, hsnr]⟩
  rw [h0] at hmem
  exact absurd hmem (List.not_mem_nil ei)

theorem reaches_antisym_contra {a : Arena} (hacy : a.Acyclic) {m n : Nat}
    (h1 : a.Reaches m n) (h2 : a.Reaches n m) (hne : m ≠ n) : False := by
  cases h1 with
  | refl _ _ => exact hne rfl
  | step e he hm hsub => exact hacy e he (hsub.trans h2)

theorem exists_min_acyclic {a : Arena} (hacy : a.Acyclic) :
    ∀ (X : List Nat), X ≠ [] →
      ∃ x ∈ X, ∀ y ∈ X, y ≠ x → ¬ a.Reaches y x := by
  intro X
  induction X with
  | nil => intro h; exact absurd rfl h
  | cons x X ih =>
    intro _
    by_cases hX : X = []
    · subst hX
      refine ⟨x, List.mem_cons_self x [], ?_⟩
      intro y hy hne
      have : y = x := by simpa using hy
      exact absurd this hne
    · obtain ⟨m, hm, hmin⟩ := ih hX
      by_cases hxm : a.Reaches x m ∧ x ≠ m
      · refine ⟨x, List.mem_cons_self x X, ?_⟩
        intro y hy hne hrx
        rcases List.mem_cons.mp hy with hy | hy
        · exact hne hy
        · have hym : a.Reaches y m := hrx.trans hxm.1
          by_cases hym' : y = m
          · subst hym'
            exact reaches_antisym_contra hacy hxm.1 hrx hxm.2
          · exact hmin y hy hym' hym
      · refine ⟨m, List.mem_cons_of_mem x hm, ?_⟩
        intro y hy hne
        rcases List.mem_cons.mp hy with hy | hy
        · subst hy
          intro hr
          exact hxm ⟨hr, hne⟩
        · exact hmin y hy hne

theorem ordRes_append {a : Arena} {reach result : List Nat} {n : Nat}
    (hord : OrdRes a reach result) (h0 : cntIn a reach result n = 0) :
    OrdRes a reach (result ++ [n]) := by
  intro k hk ei hei hsr
  have hklen : k < result.length + 1 := by
    rw [List.length_append, List.length_singleton] at hk
    exact hk
  by_cases hklt : k < result.length
  · have hget : (result ++ [n]).get ⟨k, hk⟩ = result.get ⟨k, hklt⟩ := by
      rw [List.get_eq_getElem, List.get_eq_getElem]
      exact List.getElem_append_left hklt
    rw [hget] at hei
    have := hord k hklt ei hei hsr
    rw [List.take_append_of_le_length (Nat.le_of_lt hklt)]
    exact this
  · have hkeq : k = result.length := by omega
    have hget : (result ++ [n]).get ⟨k, hk⟩ = n := by
      rw [List.get_eq_getElem]
      subst hkeq
      exact List.getElem_concat_length result n result.length rfl _
    rw [hget] at hei
    have := cntIn_zero_sources h0 ei hei hsr
    subst hkeq
    rw [List.take_left]
    exact this

theorem kahnLoop_correct {a : Arena} (hwf : ArenaWF a) (hacy : a.Acyclic)
    {reach : List Nat} (hrv : ∀ x ∈ reach, x < a.nodes.length)
    (hclosed : ∀ x ∈ reach, ∀ ce ∈ a.children x, ce.1 ∈ reach)
    (hrnd : reach.Nodup) :
    ∀ (fuel : Nat) (queue : List Nat) (inDeg : List (Nat × Nat)) (result : List Nat),
      fuel + result.length > reach.length →
      result.Nodup → queue.Nodup →
      (∀ x ∈ queue, x ∉ result) →
      (∀ x ∈ result, x ∈ reach) →
      (∀ y ∈ queue, y ∈ reach ∧ y ∉ result ∧ cntIn a reach result y = 0) →
      (∀ x ∈ reach, x ∉ result → lookupA inDeg x = some (cntIn a reach result x)) →
      (∀ x ∈ reach, x ∉ result → cntIn a reach result x = 0 → x ∈ queue) →
      OrdRes a reach result →
      (kahnLoopFuel a reach fuel queue inDeg result).Nodup ∧
      (∀ x ∈ kahnLoopFuel a reach fuel queue inDeg result, x ∈ reach) ∧
      (∀ x ∈ reach, x ∈ kahnLoopFuel a reach fuel queue inDeg result) ∧
      OrdRes a reach (kahnLoopFuel a reach fuel queue inDeg result) := by
  intro fuel
  induction fuel with
  | zero =>
    intro queue inDeg result hfuel hrndr _ _ hsub _ _ _ _
    exfalso
    have hle := (List.Nodup.subperm hrndr hsub).length_le
    omega
  | succ fuel ih =>
    intro queue inDeg result hfuel hrndr hqnd hqdisj hsub hq hdeg hcompl hord
    match queue with
    | [] =>
      simp only [kahnLoopFuel]
      refine ⟨hrndr, hsub, ?_, hord⟩
      cases hX : reach.filter (fun x => decide (x ∉ result)) with
      | nil =>
        intro x hx
        by_contra hxr
        have : x ∈ reach.filter (fun x => decide (x ∉ result)) :=
          List.mem_filter.mpr ⟨hx, by simpa using hxr⟩
        rw [hX] at this
        exact absurd this (List.not_mem_nil x)
      | cons z Z =>
        exfalso
        have hne : reach.filter (fun x => decide (x ∉ result)) ≠ [] := by
          rw [hX]
          exact List.cons_ne_nil z Z
        obtain ⟨x, hxX, hmin⟩ := exists_min_acyclic hacy _ hne
        have hxf := List.mem_filter.mp hxX
        have hx1 : x ∈ reach := hxf.1
        have hx2 : x ∉ result := by simpa using hxf.2
        have hcz : cntIn a reach result x ≠ 0 := by
          intro h0
          exact absurd (hcompl x hx1 hx2 h0) (List.not_mem_nil x)
        have hex : ∃ ei ∈ (nodeD a x).incoming,
            (decide ((edgeD a ei).source ∈ reach) &&
              decide ((edgeD a ei).source ∉ result)) = true := by
          by_contra hno
          push_neg at hno
          refine hcz ?_
          unfold cntIn
          rw [List.length_eq_zero, List.filter_eq_nil]
          intro ei hei
          intro hp
          exact absurd hp (hno ei hei)
        obtain ⟨ei, hei, hpred⟩ := hex
        simp only [Bool.and_eq_true, decide_eq_true_eq] at hpred
        obtain ⟨hsr, hsnr⟩ := hpred
        have hxlt : x < a.nodes.length := hrv x hx1
        have hylt : (edgeD a ei).source < a.nodes.length := hrv _ hsr
        have heil : ei < a.edges.length := (hwf.inChar x hxlt ei hei).1
        have htgt : (edgeD a ei).target = x := (hwf.inChar x hxlt ei hei).2
        have hyx : a.Reaches (edgeD a ei).source x :=
          htgt ▸ ReachesE.single (edgeD_mem heil) hylt (htgt ▸ hxlt)
        have hyX : (edgeD a ei).source ∈ reach.filter (fun x => decide (x ∉ result)) :=
          List.mem_filter.mpr ⟨hsr, by simpa using hsnr⟩
        have hyne : (edgeD a ei).source ≠ x := by
          intro h
          exact hacy (edgeD a ei) (edgeD_mem heil)
            (by rw [htgt, h]; exact ReachesE.refl x hxlt)
        exact hmin (edgeD a ei).source hyX hyne hyx
    | n :: qrest =>
      rw [show kahnLoopFuel a reach (fuel+1) (n :: qrest) inDeg result =
          kahnLoopFuel a reach fuel (kahnStep a reach n (inDeg, qrest)).2
            (kahnStep a reach n (inDeg, qrest)).1 (result ++ [n]) from rfl]
      obtain ⟨hqh1, hqh2, hqh3⟩ := hq n (List.mem_cons_self n qrest)
      have hqnd' := (List.nodup_cons.mp hqnd).2
      have hqn' := (List.nodup_cons.mp hqnd).1
      obtain ⟨c1, c2, c3, c4, c5⟩ := kahnStep_correct hwf hacy hrv hqh1 hqh2 hord
        (fun y hy => hq y (List.mem_cons_of_mem n hy)) hqnd' hqn'
        (fun x hx hxr _ => hdeg x hx hxr)
        (by intro x hx hxr hxn h0
            rcases List.mem_cons.mp (hcompl x hx hxr h0) with h | h
            · exact absurd h hxn
            · exact h)
      refine ih _ _ _ ?_ ?_ c5 ?_ ?_ c3 c1 c4 (ordRes_append hord hqh3)
      · rw [List.length_append, List.length_singleton]
        omega
      · rw [List.nodup_append]
        refine ⟨hrndr, List.nodup_singleton n, ?_⟩
        intro x hx
        simp only [List.mem_singleton]
        intro hxe
        exact hqdisj n (List.mem_cons_self n qrest) (hxe ▸ hx)
      · intro x hx
        exact (c3 x hx).2.1
      · intro x hx
        rcases List.mem_append.mp hx with h | h
        · exact hsub x h
        · have : x = n := by simpa using h
          exact this ▸ hqh1

theorem topo_correct {a : Arena} (hwf : ArenaWF a) (hacy : a.Acyclic)
    {root : Nat} (hroot : root < a.nodes.length) :
    (a.topological_sort [root]).Nodup ∧
    (∀ x, x ∈ a.topological_sort [root] ↔ x ∈ a.reachableFrom [root]) ∧
    (∀ k, ∀ hk : k < (a.topological_sort [root]).length,
      ∀ ce ∈ a.children ((a.topological_sort [root]).get ⟨k, hk⟩),
        ce.1 ∈ (a.topological_sort [root]).take k) := by
  obtain ⟨hrnd, hrroots, hrclosed⟩ := reachableFrom_props a [root]
  have hrv : ∀ x ∈ a.reachableFrom [root], x < a.nodes.length :=
    fun x hx => (reachableFrom_sound hwf hroot x hx).tgt_lt
  obtain ⟨hi1, hi2, hi3⟩ := kahnInit_correct hwf hrnd hrv
  obtain ⟨hl1, hl2, hl3, hl4⟩ := kahnLoop_correct hwf hacy hrv hrclosed hrnd
    ((a.reachableFrom [root]).length + 1) (kahnInit a (a.reachableFrom [root])).2
    (kahnInit a (a.reachableFrom [root])).1 []
    (by simp)
    List.nodup_nil hi3
    (fun x _ => List.not_mem_nil x)
    (fun x hx => absurd hx (List.not_mem_nil x))
    (by intro y hy
        obtain ⟨h1, h2⟩ := (hi2 y).mp hy
        exact ⟨h1, List.not_mem_nil y, h2⟩)
    (by intro x hx _
        exact hi1 x hx)
    (by intro x hx _ h0
        exact (hi2 x).mpr ⟨hx, h0⟩)
    (by intro k hk
        exact absurd hk (by simp))
  have htopoeq : a.topological_sort [root] =
      (kahnLoopFuel a (a.reachableFrom [root]) ((a.reachableFrom [root]).length + 1)
        (kahnInit a (a.reachableFrom [root])).2
        (kahnInit a (a.reachableFrom [root])).1 []).reverse := rfl
  rw [htopoeq]
  set R := kahnLoopFuel a (a.reachableFrom [root]) ((a.reachableFrom [root]).length + 1)
    (kahnInit a (a.reachableFrom [root])).2 (kahnInit a (a.reachableFrom [root])).1 []
  refine ⟨List.nodup_reverse.mpr hl1, ?_, ?_⟩
  · intro x
    rw [List.mem_reverse]
    exact ⟨fun h => hl2 x h, fun h => hl3 x h⟩
  · intro k hk ce hce
    have hklen : k < R.length := by
      rw [List.length_reverse] at hk
      exact hk
    have hxeq : R.reverse.get ⟨k, hk⟩ = R[R.length - 1 - k] := by
      rw [List.get_eq_getElem, List.getElem_reverse]
    have hx_reach : R.reverse.get ⟨k, hk⟩ ∈ a.reachableFrom [root] := by
      refine hl2 _ ?_
      rw [hxeq]
      exact List.getElem_mem _
    have hcer : ce.1 ∈ a.reachableFrom [root] := hrclosed _ hx_reach ce hce
    have hceR : ce.1 ∈ R := hl3 ce.1 hcer
    obtain ⟨j, hj, hgj⟩ := List.mem_iff_getElem.mp hceR
    have hxlt : R.reverse.get ⟨k, hk⟩ < a.nodes.length := hrv _ hx_reach
    obtain ⟨he, hsrc, htgt⟩ := mem_children_edge hwf hxlt hce
    obtain ⟨ei, heil, heie⟩ := mem_edges_exists_idx he
    have heinc : ei ∈ (nodeD a (R.get ⟨j, hj⟩)).incoming := by
      have := hwf.inComplete ei heil
      rw [heie, htgt] at this
      rw [List.get_eq_getElem, hgj]
      exact this
    have hsrc2 : (edgeD a ei).source ∈ a.reachableFrom [root] := by
      rw [heie, hsrc]
      exact hx_reach
    have htake := hl4 j hj ei heinc hsrc2
    rw [heie, hsrc] at htake
    obtain ⟨i, hi, hgi⟩ := List.mem_iff_getElem.mp htake
    have hilen : i < j := by
      have := hi
      rw [List.length_take] at this
      omega
    have higet : (R.take j)[i] = R[i] := List.getElem_take _
    have hiR : i < R.length := by omega
    have hReq : R[i] = R[R.length - 1 - k] := by
      rw [← hxeq]
      rw [higet] at hgi
      exact hgi
    have hieq : i = R.length - 1 - k :=
      (List.Nodup.getElem_inj_iff hl1).mp hReq
    have hjpos : R.length - 1 - j < k := by omega
    have hjlen : R.length - 1 - j < R.reverse.length := by
      rw [List.length_reverse]
      omega
    have hcetopo : R.reverse[R.length - 1 - j] = ce.1 := by
      rw [List.getElem_reverse]
      simp only [show R.length - 1 - (R.length - 1 - j) = j from by omega]
      exact hgj
    have hlt2 : R.length - 1 - j < (R.reverse.take k).length := by
      rw [List.length_take, List.length_reverse]
      omega
    have hgeq : (R.reverse.take k)[R.length - 1 - j] = ce.1 :=
      (List.getElem_take _).trans hcetopo
    rw [← hgeq]
    exact List.getElem_mem _

/-! The level grouping: every topological node lands in exactly one bucket and
its children lie in strictly lower buckets. -/

theorem keysA_upsertA {α β : Type} [DecidableEq α] :
    ∀ (m : List (α × β)) (k : α) (v : β),
      keysA (upsertA m k v) = if k ∈ keysA m then keysA m else keysA m ++ [k] := by
  intro m
  induction m with
  | nil => intro k v; simp [upsertA, keysA]
  | cons p rest ih =>
    intro k v
    obtain ⟨pk, pv⟩ := p
    by_cases hk : pk = k
    · subst hk
      simp [upsertA, keysA]
    · have hne : ¬ (k = pk) := fun h => hk h.symm
      have ihr := ih k v
      simp only [keysA] at ihr ⊢
      simp only [upsertA, if_neg hk, List.map_cons, List.mem_cons, hne, false_or]
      rw [ihr]
      by_cases hmem : k ∈ rest.map (fun kv => kv.1) <;> simp [hmem]

theorem upsertA_keys_nodup {α β : Type} [DecidableEq α] {m : List (α × β)}
    (h : (keysA m).Nodup) (k : α) (v : β) : (keysA (upsertA m k v)).Nodup := by
  rw [keysA_upsertA]
  by_cases hk : k ∈ keysA m
  · rw [if_pos hk]
    exact h
  · rw [if_neg hk]
    rw [List.nodup_append]
    exact ⟨h, List.nodup_singleton k, by simpa using hk⟩

theorem bucket_nodup {S : List (Nat × Nat)} (h : (keysA S).Nodup) (k : Nat) :
    (S.filterMap (fun nl => if nl.2 = k then some nl.1 else none)).Nodup := by
  induction S with
  | nil => exact List.nodup_nil
  | cons p rest ih =>
    obtain ⟨x, v⟩ := p
    simp only [keysA, List.map_cons, List.nodup_cons] at h
    rw [List.filterMap_cons]
    by_cases hv : v = k
    · rw [show (if (x, v).2 = k then some (x, v).1 else none) = some x from by
        simp [hv]]
      refine List.nodup_cons.mpr ⟨?_, ih h.2⟩
      intro hmem
      obtain ⟨nl, hnl, hnleq⟩ := List.mem_filterMap.mp hmem
      have : nl.1 = x := by
        by_cases h2 : nl.2 = k
        · rw [if_pos h2] at hnleq
          exact Option.some.inj hnleq
        · rw [if_neg h2] at hnleq
          exact absurd hnleq (by intro hh; exact Option.noConfusion hh)
      exact h.1 (this ▸ List.mem_map_of_mem (fun kv => kv.1) hnl)
    · rw [show (if (x, v).2 = k then some (x, v).1 else none) = none from by
        simp [hv]]
      exact ih h.2

theorem bucket_mem_iff {S : List (Nat × Nat)} (h : (keysA S).Nodup) (k x : Nat) :
    x ∈ S.filterMap (fun nl => if nl.2 = k then some nl.1 else none) ↔
      lookupA S x = some k := by
  constructor
  · intro hmem
    obtain ⟨nl, hnl, hnleq⟩ := List.mem_filterMap.mp hmem
    by_cases h2 : nl.2 = k
    · rw [if_pos h2] at hnleq
      have hx : nl.1 = x := Option.some.inj hnleq
      have : nl = (x, k) := by
        rw [← hx, ← h2]
      rw [this] at hnl
      exact lookupA_of_mem_nodup h hnl
    · rw [if_neg h2] at hnleq
      exact absurd hnleq (by intro hh; exact Option.noConfusion hh)
  · intro hl
    refine List.mem_filterMap.mpr ⟨(x, k), lookupA_mem hl, by simp⟩

theorem levelFold_spec (a : Arena) (topo : List Nat) (hnd : topo.Nodup)
    (hchild : ∀ k, ∀ hk : k < topo.length, ∀ ce ∈ a.children (topo.get ⟨k, hk⟩),
      ce.1 ∈ topo.take k) :
    ∀ (todo done : List Nat) (st : List (Nat × Nat) × Nat),
      topo = done ++ todo →
      (∀ x, (lookupA st.1 x).isSome = true ↔ x ∈ done) →
      (∀ x ∈ done, ∀ ce ∈ a.children x, ∃ lx lc,
        lookupA st.1 x = some lx ∧ lookupA st.1 ce.1 = some lc ∧ lc < lx) →
      (∀ x l, lookupA st.1 x = some l → l ≤ st.2) →
      (keysA st.1).Nodup →
      (∀ x, (lookupA (todo.foldl (fun (st : List (Nat × Nat) × Nat) node =>
          let lvl := match natMaxL ((a.children node).filterMap
              (fun ce => lookupA st.1 ce.1)) with
            | some l => l + 1
            | none => 0
          (upsertA st.1 node lvl, Nat.max st.2 lvl)) st).1 x).isSome = true ↔
        x ∈ topo) ∧
      (∀ x ∈ topo, ∀ ce ∈ a.children x, ∃ lx lc,
        lookupA (todo.foldl (fun (st : List (Nat × Nat) × Nat) node =>
          let lvl := match natMaxL ((a.children node).filterMap
              (fun ce => lookupA st.1 ce.1)) with
            | some l => l + 1
            | none => 0
          (upsertA st.1 node lvl, Nat.max st.2 lvl)) st).1 x = some lx ∧
        lookupA (todo.foldl (fun (st : List (Nat × Nat) × Nat) node =>
          let lvl := match natMaxL ((a.children node).filterMap
              (fun ce => lookupA st.1 ce.1)) with
            | some l => l + 1
            | none => 0
          (upsertA st.1 node lvl, Nat.max st.2 lvl)) st).1 ce.1 = some lc ∧ lc < lx) ∧
      (∀ x l, lookupA (todo.foldl (fun (st : List (Nat × Nat) × Nat) node =>
          let lvl := match natMaxL ((a.children node).filterMap
              (fun ce => lookupA st.1 ce.1)) with
            | some l => l + 1
            | none => 0
          (upsertA st.1 node lvl, Nat.max st.2 lvl)) st).1 x = some l →
        l ≤ (todo.foldl (fun (st : List (Nat × Nat) × Nat) node =>
          let lvl := match natMaxL ((a.children node).filterMap
              (fun ce => lookupA st.1 ce.1)) with
            | some l => l + 1
            | none => 0
          (upsertA st.1 node lvl, Nat.max st.2 lvl)) st).2) ∧
      (keysA (todo.foldl (fun (st : List (Nat × Nat) × Nat) node =>
          let lvl := match natMaxL ((a.children node).filterMap
              (fun ce => lookupA st.1 ce.1)) with
            | some l => l + 1
            | none => 0
          (upsertA st.1 node lvl, Nat.max st.2 lvl)) st).1).Nodup := by
  intro todo
  induction todo with
  | nil =>
    intro done st htopo hsome hpairs hbound hknd
    rw [List.append_nil] at htopo
    subst htopo
    exact ⟨hsome, hpairs, hbound, hknd⟩
  | cons x todo ih =>
    intro done st htopo hsome hpairs hbound hknd
    have hxpos : done.length < topo.length := by
      rw [htopo, List.length_append, List.length_cons]
      omega
    have hxget : topo.get ⟨done.length, hxpos⟩ = x := by
      have h1 : topo[done.length]? = some x := by
        rw [htopo, List.getElem?_append_right (Nat.le_refl done.length)]
        simp
      have h2 : topo[done.length]? = some (topo.get ⟨done.length, hxpos⟩) := by
        rw [List.getElem?_eq_getElem hxpos]
        rfl
      exact Option.some.inj (h2.symm.trans h1)
    have hxchild : ∀ ce ∈ a.children x, ce.1 ∈ done := by
      intro ce hce
      have := hchild done.length hxpos ce (by rw [hxget]; exact hce)
      rw [htopo, List.take_left] at this
      exact this
    have hxdone : x ∉ done := by
      intro hmem
      rw [htopo] at hnd
      have := List.disjoint_of_nodup_append hnd
      exact this hmem (List.mem_cons_self x todo)
    have hlvl : ∀ ce ∈ a.children x, ∃ lc,
        lookupA st.1 ce.1 = some lc ∧
        lc < (match natMaxL ((a.children x).filterMap
            (fun ce => lookupA st.1 ce.1)) with
          | some l => l + 1
          | none => 0) := by
      intro ce hce
      have hsome' := (hsome ce.1).mpr (hxchild ce hce)
      obtain ⟨lc, hlc⟩ := Option.isSome_iff_exists.mp hsome'
      have hmem : lc ∈ (a.children x).filterMap (fun ce => lookupA st.1 ce.1) :=
        List.mem_filterMap.mpr ⟨ce, hce, hlc⟩
      obtain ⟨m, hm, hle⟩ := natMaxL_le_mem hmem
      refine ⟨lc, hlc, ?_⟩
      rw [hm]
      exact Nat.lt_succ_of_le hle
    rw [List.foldl_cons]
    refine ih (done ++ [x]) _ (by rw [htopo, List.append_assoc, List.singleton_append])
      ?_ ?_ ?_ ?_
    · intro y
      dsimp only
      by_cases hyx : y = x
      · subst hyx
        rw [lookupA_upsert_self]
        simp [List.mem_append]
      · rw [lookupA_upsert_ne _ _ _ _ (fun h => hyx h.symm)]
        rw [hsome y]
        simp only [List.mem_append, List.mem_singleton]
        exact ⟨fun h => Or.inl h, fun h => h.elim id (fun h => absurd h hyx)⟩
    · intro y hy ce hce
      dsimp only
      rcases List.mem_append.mp hy with hy | hy
      · obtain ⟨lx, lc, hlx, hlc, hlt⟩ := hpairs y hy ce hce
        have hyx : y ≠ x := fun h => hxdone (h ▸ hy)
        have hchd : ce.1 ∈ done := (hsome ce.1).mp (by rw [hlc]; rfl)
        have hcx : ce.1 ≠ x := fun h => hxdone (h ▸ hchd)
        exact ⟨lx, lc, by
          rw [lookupA_upsert_ne _ _ _ _ (fun h => hyx h.symm)]
          exact hlx, by
          rw [lookupA_upsert_ne _ _ _ _ (fun h => hcx h.symm)]
          exact hlc, hlt⟩
      · have hyx : y = x := by simpa using hy
        subst hyx
        obtain ⟨lc, hlc, hlt⟩ := hlvl ce hce
        refine ⟨_, lc, lookupA_upsert_self _ _ _, ?_, hlt⟩
        have hcd : ce.1 ∈ done := hxchild ce hce
        have hcx : ce.1 ≠ y := fun h => hxdone (h ▸ hcd)
        rw [lookupA_upsert_ne _ _ _ _ (fun h => hcx h.symm)]
        exact hlc
    · intro y l hl
      dsimp only at hl ⊢
      by_cases hyx : y = x
      · subst hyx
        rw [lookupA_upsert_self] at hl
        have : l = _ := Option.some.inj hl.symm
        rw [← this]
        exact Nat.le_max_right _ _
      · rw [lookupA_upsert_ne _ _ _ _ (fun h => hyx h.symm)] at hl
        exact Nat.le_trans (hbound y l hl) (Nat.le_max_left _ _)
    · dsimp only
      exact upsertA_keys_nodup hknd x _

theorem level_grouping_spec {a : Arena} (hwf : ArenaWF a) (hacy : a.Acyclic)
    {root : Nat} (hroot : root < a.nodes.length) :
    (∀ x ∈ a.topological_sort [root], ∃ k, ∃ hk : k < (a.level_grouping [root]).length,
      x ∈ (a.level_grouping [root]).get ⟨k, hk⟩) ∧
    (∀ k, ∀ hk : k < (a.level_grouping [root]).length,
      ∀ x ∈ (a.level_grouping [root]).get ⟨k, hk⟩,
      x ∈ a.topological_sort [root] ∧
      (∀ ce ∈ a.children x, ∃ k', ∃ hk' : k' < (a.level_grouping [root]).length,
        k' < k ∧ ce.1 ∈ (a.level_grouping [root]).get ⟨k', hk'⟩)) ∧
    (∀ k, ∀ hk : k < (a.level_grouping [root]).length,
      ∀ k', ∀ hk' : k' < (a.level_grouping [root]).length, ∀ x,
      x ∈ (a.level_grouping [root]).get ⟨k, hk⟩ →
      x ∈ (a.level_grouping [root]).get ⟨k', hk'⟩ → k = k') ∧
    (∀ k, ∀ hk : k < (a.level_grouping [root]).length,
      ((a.level_grouping [root]).get ⟨k, hk⟩).Nodup) := by
  obtain ⟨ht1, ht2, ht3⟩ := topo_correct hwf hacy hroot
  obtain ⟨F1, F2, F3, F4⟩ := levelFold_spec a (a.topological_sort [root]) ht1 ht3
    (a.topological_sort [root]) [] ([], 0) rfl
    (by intro x; simp [lookupA])
    (by intro x hx; exact absurd hx (List.not_mem_nil x))
    (by intro x l hl; exact absurd hl (by intro hh; exact Option.noConfusion hh))
    List.nodup_nil
  have hB : a.level_grouping [root] =
      (List.range (((a.topological_sort [root]).foldl
        (fun (st : List (Nat × Nat) × Nat) node =>
          let lvl := match natMaxL ((a.children node).filterMap
              (fun ce => lookupA st.1 ce.1)) with
            | some l => l + 1
            | none => 0
          (upsertA st.1 node lvl, Nat.max st.2 lvl)) ([], 0)).2 + 1)).map
      (fun k => ((a.topological_sort [root]).foldl
        (fun (st : List (Nat × Nat) × Nat) node =>
          let lvl := match natMaxL ((a.children node).filterMap
              (fun ce => lookupA st.1 ce.1)) with
            | some l => l + 1
            | none => 0
          (upsertA st.1 node lvl, Nat.max st.2 lvl)) ([], 0)).1.filterMap
        (fun nl => if nl.2 = k then some nl.1 else none)) := rfl
  have hlen : (a.level_grouping [root]).length =
      ((a.topological_sort [root]).foldl
        (fun (st : List (Nat × Nat) × Nat) node =>
          let lvl := match natMaxL ((a.children node).filterMap
              (fun ce => lookupA st.1 ce.1)) with
            | some l => l + 1
            | none => 0
          (upsertA st.1 node lvl, Nat.max st.2 lvl)) ([], 0)).2 + 1 := by
    rw [hB, List.length_map, List.length_range]
  have hget : ∀ k, ∀ hk : k < (a.level_grouping [root]).length,
      (a.level_grouping [root]).get ⟨k, hk⟩ =
      ((a.topological_sort [root]).foldl
        (fun (st : List (Nat × Nat) × Nat) node =>
          let lvl := match natMaxL ((a.children node).filterMap
              (fun ce => lookupA st.1 ce.1)) with
            | some l => l + 1
            | none => 0
          (upsertA st.1 node lvl, Nat.max st.2 lvl)) ([], 0)).1.filterMap
        (fun nl => if nl.2 = k then some nl.1 else none) := by
    intro k hk
    have hkN : k < ((a.topological_sort [root]).foldl
        (fun (st : List (Nat × Nat) × Nat) node =>
          let lvl := match natMaxL ((a.children node).filterMap
              (fun ce => lookupA st.1 ce.1)) with
            | some l => l + 1
            | none => 0
          (upsertA st.1 node lvl, Nat.max st.2 lvl)) ([], 0)).2 + 1 := by
      rw [hlen] at hk
      exact hk
    have h1 : (a.level_grouping [root])[k]? = some (((a.topological_sort [root]).foldl
        (fun (st : List (Nat × Nat) × Nat) node =>
          let lvl := match natMaxL ((a.children node).filterMap
              (fun ce => lookupA st.1 ce.1)) with
            | some l => l + 1
            | none => 0
          (upsertA st.1 node lvl, Nat.max st.2 lvl)) ([], 0)).1.filterMap
        (fun nl => if nl.2 = k then some nl.1 else none)) := by
      rw [hB, List.getElem?_map, List.getElem?_range hkN]
      rfl
    have h2 : (a.level_grouping [root])[k]? =
        some ((a.level_grouping [root]).get ⟨k, hk⟩) := by
      rw [List.getElem?_eq_getElem hk]
      rfl
    exact Option.some.inj (h2.symm.trans h1)
  refine ⟨?_, ?_, ?_, ?_⟩
  · intro x hx
    have hsome := (F1 x).mpr hx
    obtain ⟨k, hlk⟩ := Option.isSome_iff_exists.mp hsome
    have hkb : k ≤ ((a.topological_sort [root]).foldl
        (fun (st : List (Nat × Nat) × Nat) node =>
          let lvl := match natMaxL ((a.children node).filterMap
              (fun ce => lookupA st.1 ce.1)) with
            | some l => l + 1
            | none => 0
          (upsertA st.1 node lvl, Nat.max st.2 lvl)) ([], 0)).2 := F3 x k hlk
    have hk : k < (a.level_grouping [root]).length := by
      rw [hlen]
      omega
    refine ⟨k, hk, ?_⟩
    rw [hget k hk]
    exact (bucket_mem_iff F4 k x).mpr hlk
  · intro k hk x hx
    rw [hget k hk] at hx
    have hlk := (bucket_mem_iff F4 k x).mp hx
    have hxt : x ∈ a.topological_sort [root] := (F1 x).mp (by rw [hlk]; rfl)
    refine ⟨hxt, ?_⟩
    intro ce hce
    obtain ⟨lx, lc, hlx, hlc, hlt⟩ := F2 x hxt ce hce
    have hlxk : lx = k := Option.some.inj (hlx.symm.trans hlk)
    have hlcb := F3 ce.1 lc hlc
    have hk' : lc < (a.level_grouping [root]).length := by
      rw [hlen]
      omega
    refine ⟨lc, hk', by omega, ?_⟩
    rw [hget lc hk']
    exact (bucket_mem_iff F4 lc ce.1).mpr hlc
  · intro k hk k' hk' x hx hx'
    rw [hget k hk] at hx
    rw [hget k' hk'] at hx'
    have h1 := (bucket_mem_iff F4 k x).mp hx
    have h2 := (bucket_mem_iff F4 k' x).mp hx'
    exact Option.some.inj (h1.symm.trans h2)
  · intro k hk
    rw [hget k hk]
    exact bucket_nodup F4 k

/-! The cost fold: bottom-up processing of the level buckets fills the cost
map with breakdowns satisfying the rollup recurrence. -/

theorem cid_inj {a : Arena} (hwf : ArenaWF a) {x y : Nat}
    (hx : x < a.nodes.length) (hy : y < a.nodes.length)
    (h : (nodeD a x).component_id = (nodeD a y).component_id) : x = y := by
  have h1 := hwf.indexOf x hx
  have h2 := hwf.indexOf y hy
  rw [h] at h1
  exact Option.some.inj (h1.symm.trans h2)

theorem nodesCids_nodup {a : Arena} (hwf : ArenaWF a) :
    (a.nodes.map (fun nd => nd.component_id)).Nodup := by
  rw [List.nodup_iff_getElem?_ne_getElem?]
  intro i j hij hj
  rw [List.length_map] at hj
  intro heq
  have hi : i < a.nodes.length := by omega
  rw [List.getElem?_map, List.getElem?_map] at heq
  rw [nodes_getElem?_eq_nodeD hi, nodes_getElem?_eq_nodeD hj] at heq
  simp only [Option.map_some'] at heq
  have := cid_inj hwf hi hj (Option.some.inj heq)
  omega

theorem componentData_lookup {repo : List Component} :
    ∀ {ids : List String} {comps : List Component},
      ids.Nodup →
      getComponents repo ids = .ok comps →
      ∀ s ∈ ids, lookupA (comps.map (fun c => (c.id, c))) s =
        repo.find? (fun c => c.id == s) := by
  intro ids
  induction ids with
  | nil =>
    intro comps _ _ s hs
    exact absurd hs (List.not_mem_nil s)
  | cons i rest ih =>
    intro comps hnd hok s hs
    unfold getComponents at hok
    rw [List.mapM_cons] at hok
    cases hfind : repo.find? (fun c => c.id == i) with
    | none =>
      exfalso
      simp only [hfind, bind, Except.bind] at hok
      exact Except.noConfusion hok
    | some c =>
      simp only [hfind, bind, Except.bind] at hok
      cases hrest : rest.mapM (fun i => match repo.find? (fun c => c.id == i) with
        | some c => Except.ok c
        | none => Except.error (BomError.ComponentNotFound i)) with
      | error e =>
        rw [hrest] at hok
        exact absurd hok (by intro hh; exact Except.noConfusion hh)
      | ok comps' =>
        rw [hrest] at hok
        simp only [pure, Except.pure] at hok
        have hcomps : comps = c :: comps' := (Except.ok.inj hok).symm
        subst hcomps
        have hcid : c.id = i := by
          have := List.find?_some hfind
          simpa using this
        rcases List.mem_cons.mp hs with hsi | hsr
        · subst hsi
          simp only [List.map_cons, lookupA, hcid, if_pos]
          rw [hfind]
        · have hne : s ≠ i := by
            intro h
            exact (List.nodup_cons.mp hnd).1 (h ▸ hsr)
          simp only [List.map_cons, lookupA, hcid]
          rw [if_neg (fun h => hne h.symm)]
          exact ih (List.nodup_cons.mp hnd).2 (by unfold getComponents; exact hrest) s hsr

theorem lookupA_upsert_isSome {α β : Type} [DecidableEq α]
    (m : List (α × β)) (k : α) (v : β) (s : α) :
    (lookupA (upsertA m k v) s).isSome = true ↔
      ((lookupA m s).isSome = true ∨ s = k) := by
  by_cases hs : s = k
  · subst hs
    rw [lookupA_upsert_self]
    simp
  · rw [lookupA_upsert_ne _ _ _ _ (fun h => hs h.symm)]
    simp [hs]

theorem extendA_lookup_isSome {α β : Type} [DecidableEq α] :
    ∀ (l : List (α × β)) (m : List (α × β)) (s : α),
      (lookupA (extendA m l) s).isSome = true ↔
        ((lookupA m s).isSome = true ∨ s ∈ keysA l) := by
  intro l
  induction l with
  | nil =>
    intro m s
    simp [extendA, keysA]
  | cons p rest ih =>
    intro m s
    have hstep : extendA m (p :: rest) = extendA (upsertA m p.1 p.2) rest := by
      unfold extendA
      rw [List.foldl_cons]
    rw [hstep, ih, lookupA_upsert_isSome]
    simp only [keysA, List.map_cons, List.mem_cons]
    tauto

theorem extendA_lookup_not_mem {α β : Type} [DecidableEq α] :
    ∀ (l : List (α × β)) (m : List (α × β)) (s : α), s ∉ keysA l →
      lookupA (extendA m l) s = lookupA m s := by
  intro l
  induction l with
  | nil => intro m s _; rfl
  | cons p rest ih =>
    intro m s hs
    have hstep : extendA m (p :: rest) = extendA (upsertA m p.1 p.2) rest := by
      unfold extendA
      rw [List.foldl_cons]
    have hs1 : s ≠ p.1 := by
      intro h
      exact hs (h ▸ List.mem_cons_self p.1 (keysA rest))
    have hs2 : s ∉ keysA rest := by
      intro h
      exact hs (List.mem_cons_of_mem p.1 h)
    rw [hstep, ih _ s hs2, lookupA_upsert_ne _ _ _ _ (fun h => hs1 h.symm)]

theorem extendA_lookup_mem {α β : Type} [DecidableEq α] :
    ∀ (l : List (α × β)) (m : List (α × β)) {s : α} {v : β},
      (keysA l).Nodup → (s, v) ∈ l →
      lookupA (extendA m l) s = some v := by
  intro l
  induction l with
  | nil =>
    intro m s v _ h
    exact absurd h (List.not_mem_nil _)
  | cons p rest ih =>
    intro m s v hnd hmem
    have hstep : extendA m (p :: rest) = extendA (upsertA m p.1 p.2) rest := by
      unfold extendA
      rw [List.foldl_cons]
    rw [hstep]
    simp only [keysA, List.map_cons, List.nodup_cons] at hnd
    rcases List.mem_cons.mp hmem with h | h
    · have hp1 : p.1 = s := (congrArg Prod.fst h).symm
      have hp2 : p.2 = v := (congrArg Prod.snd h).symm
      rw [extendA_lookup_not_mem rest _ s (by
        rw [← hp1]
        exact hnd.1)]
      rw [← hp1, lookupA_upsert_self, hp2]
    · exact ih _ hnd.2 h

theorem costFold_spec (g : BomGraph) (hwf : ArenaWF g.arena)
    (cdata : List (String × Component)) (B : List (List Nat))
    (HBv : ∀ k, ∀ hk : k < B.length, ∀ x ∈ B.get ⟨k, hk⟩, x < g.arena.nodes.length)
    (HBc : ∀ k, ∀ hk : k < B.length, ∀ x ∈ B.get ⟨k, hk⟩,
      (lookupA cdata (nodeD g.arena x).component_id).isSome = true)
    (HBch : ∀ k, ∀ hk : k < B.length, ∀ x ∈ B.get ⟨k, hk⟩,
      ∀ ce ∈ g.arena.children x, ∃ k', ∃ hk' : k' < B.length,
        k' < k ∧ ce.1 ∈ B.get ⟨k', hk'⟩)
    (HBdisj : ∀ k, ∀ hk : k < B.length, ∀ k', ∀ hk' : k' < B.length, ∀ x,
      x ∈ B.get ⟨k, hk⟩ → x ∈ B.get ⟨k', hk'⟩ → k = k')
    (HBnd : ∀ k, ∀ hk : k < B.length, (B.get ⟨k, hk⟩).Nodup) :
    ∀ (todoB doneB : List (List Nat)) (m : List (String × CostBreakdown)),
      B = doneB ++ todoB →
      (∀ s, (lookupA m s).isSome = true ↔ ∃ k, ∃ hk : k < B.length,
        k < doneB.length ∧ ∃ x ∈ B.get ⟨k, hk⟩, (nodeD g.arena x).component_id = s) →
      (∀ k, ∀ hk : k < B.length, k < doneB.length → ∀ x ∈ B.get ⟨k, hk⟩,
        ∃ comp, lookupA cdata (nodeD g.arena x).component_id = some comp ∧
          lookupA m (nodeD g.arena x).component_id = some (mkBreakdown
            (nodeD g.arena x).component_id
            (comp.standard_cost.getD 0 +
              ((g.arena.children x).map (fun ce =>
                costOf m g.arena ce.1 * ce.2.effective_quantity)).sum))) →
      (∀ s, (lookupA (todoB.foldl (fun cost_map level_nodes =>
          extendA cost_map (level_nodes.filterMap (fun node_idx =>
            match g.arena.nodes[node_idx]? with
            | none => none
            | some node =>
              match lookupA cdata node.component_id with
              | none => none
              | some comp =>
                some (node.component_id, mkBreakdown node.component_id
                  (comp.standard_cost.getD 0 +
                    ((g.arena.children node_idx).filterMap (fun ce =>
                      match g.arena.nodes[ce.1]? with
                      | none => none
                      | some child_node =>
                        (lookupA cost_map child_node.component_id).map
                          (fun bd => bd.total_cost * ce.2.effective_quantity))).sum))))) m) s).isSome = true ↔
        ∃ k, ∃ hk : k < B.length, ∃ x ∈ B.get ⟨k, hk⟩,
          (nodeD g.arena x).component_id = s) ∧
      (∀ k, ∀ hk : k < B.length, ∀ x ∈ B.get ⟨k, hk⟩,
        ∃ comp, lookupA cdata (nodeD g.arena x).component_id = some comp ∧
          lookupA (todoB.foldl (fun cost_map level_nodes =>
            extendA cost_map (level_nodes.filterMap (fun node_idx =>
              match g.arena.nodes[node_idx]? with
              | none => none
              | some node =>
                match lookupA cdata node.component_id with
                | none => none
                | some comp =>
                  some (node.component_id, mkBreakdown node.component_id
                    (comp.standard_cost.getD 0 +
                      ((g.arena.children node_idx).filterMap (fun ce =>
                        match g.arena.nodes[ce.1]? with
                        | none => none
                        | some child_node =>
                          (lookupA cost_map child_node.component_id).map
                            (fun bd => bd.total_cost * ce.2.effective_quantity))).sum))))) m)
            (nodeD g.arena x).component_id = some (mkBreakdown
            (nodeD g.arena x).component_id
            (comp.standard_cost.getD 0 +
              ((g.arena.children x).map (fun ce =>
                costOf (todoB.foldl (fun cost_map level_nodes =>
            extendA cost_map (level_nodes.filterMap (fun node_idx =>
              match g.arena.nodes[node_idx]? with
              | none => none
              | some node =>
                match lookupA cdata node.component_id with
                | none => none
                | some comp =>
                  some (node.component_id, mkBreakdown node.component_id
                    (comp.standard_cost.getD 0 +
                      ((g.arena.children node_idx).filterMap (fun ce =>
                        match g.arena.nodes[ce.1]? with
                        | none => none
                        | some child_node =>
                          (lookupA cost_map child_node.component_id).map
                            (fun bd => bd.total_cost * ce.2.effective_quantity))).sum))))) m)
                  g.arena ce.1 * ce.2.effective_quantity)).sum))) := by
  intro todoB
  induction todoB with
  | nil =>
    intro doneB m hsplit hS1 hS2
    rw [List.append_nil] at hsplit
    subst hsplit
    simp only [List.foldl_nil]
    constructor
    · intro s
      rw [hS1 s]
      constructor
      · intro ⟨k, hk, _, hx⟩
        exact ⟨k, hk, hx⟩
      · intro ⟨k, hk, hx⟩
        exact ⟨k, hk, hk, hx⟩
    · intro k hk x hx
      exact hS2 k hk hk x hx
  | cons lv todoB ih =>
    intro doneB m hsplit hS1 hS2
    have hKlen : doneB.length < B.length := by
      rw [hsplit, List.length_append, List.length_cons]
      omega
    have hKget : B.get ⟨doneB.length, hKlen⟩ = lv := by
      have h1 : B[doneB.length]? = some lv := by
        rw [hsplit, List.getElem?_append_right (Nat.le_refl doneB.length)]
        simp
      have h2 : B[doneB.length]? = some (B.get ⟨doneB.length, hKlen⟩) := by
        rw [List.getElem?_eq_getElem hKlen]
        rfl
      exact Option.some.inj (h2.symm.trans h1)
    -- the per-node build value at the current map
    have hchildEntry : ∀ x ∈ lv, ∀ ce ∈ g.arena.children x,
        (lookupA m (nodeD g.arena ce.1).component_id).isSome = true := by
      intro x hx ce hce
      obtain ⟨k', hk', hlt, hmem⟩ := HBch doneB.length hKlen x (hKget ▸ hx) ce hce
      exact (hS1 _).mpr ⟨k', hk', hlt, ce.1, hmem, rfl⟩
    have hbuild : ∀ x ∈ lv,
        (match g.arena.nodes[x]? with
          | none => none
          | some node =>
            match lookupA cdata node.component_id with
            | none => none
            | some comp =>
              some (node.component_id, mkBreakdown node.component_id
                (comp.standard_cost.getD 0 +
                  ((g.arena.children x).filterMap (fun ce =>
                    match g.arena.nodes[ce.1]? with
                    | none => none
                    | some child_node =>
                      (lookupA m child_node.component_id).map
                        (fun bd => bd.total_cost * ce.2.effective_quantity))).sum))) =
        some ((nodeD g.arena x).component_id, mkBreakdown (nodeD g.arena x).component_id
          ((match lookupA cdata (nodeD g.arena x).component_id with
            | some comp => comp.standard_cost.getD 0
            | none => 0) +
            ((g.arena.children x).map (fun ce =>
              costOf m g.arena ce.1 * ce.2.effective_quantity)).sum)) := by
      intro x hx
      have hxv : x < g.arena.nodes.length := HBv doneB.length hKlen x (hKget ▸ hx)
      rw [nodes_getElem?_eq_nodeD hxv]
      obtain ⟨comp, hcomp⟩ := Option.isSome_iff_exists.mp
        (HBc doneB.length hKlen x (hKget ▸ hx))
      rw [hcomp]
      dsimp only
      rw [hcomp]
      dsimp only
      have hchild : (g.arena.children x).filterMap (fun ce =>
          match g.arena.nodes[ce.1]? with
          | none => none
          | some child_node =>
            (lookupA m child_node.component_id).map
              (fun bd => bd.total_cost * ce.2.effective_quantity)) =
        (g.arena.children x).map (fun ce =>
          costOf m g.arena ce.1 * ce.2.effective_quantity) := by
        apply filterMap_eq_map_of_forall
        intro ce hce
        obtain ⟨k', hk', _, hmem⟩ := HBch doneB.length hKlen x (hKget ▸ hx) ce hce
        have hcv : ce.1 < g.arena.nodes.length := HBv k' hk' ce.1 hmem
        rw [nodes_getElem?_eq_nodeD hcv]
        obtain ⟨bd, hbd⟩ := Option.isSome_iff_exists.mp (hchildEntry x hx ce hce)
        dsimp only
        rw [hbd]
        unfold costOf
        rw [hbd]
        rfl
      rw [hchild]
    have hlc : lv.filterMap (fun node_idx =>
        match g.arena.nodes[node_idx]? with
        | none => none
        | some node =>
          match lookupA cdata node.component_id with
          | none => none
          | some comp =>
            some (node.component_id, mkBreakdown node.component_id
              (comp.standard_cost.getD 0 +
                ((g.arena.children node_idx).filterMap (fun ce =>
                  match g.arena.nodes[ce.1]? with
                  | none => none
                  | some child_node =>
                    (lookupA m child_node.component_id).map
                      (fun bd => bd.total_cost * ce.2.effective_quantity))).sum))) =
      lv.map (fun x => ((nodeD g.arena x).component_id,
        mkBreakdown (nodeD g.arena x).component_id
          ((match lookupA cdata (nodeD g.arena x).component_id with
            | some comp => comp.standard_cost.getD 0
            | none => 0) +
            ((g.arena.children x).map (fun ce =>
              costOf m g.arena ce.1 * ce.2.effective_quantity)).sum))) :=
      filterMap_eq_map_of_forall _ _ _ hbuild
    have hkeys : keysA (lv.map (fun x => ((nodeD g.arena x).component_id,
        mkBreakdown (nodeD g.arena x).component_id
          ((match lookupA cdata (nodeD g.arena x).component_id with
            | some comp => comp.standard_cost.getD 0
            | none => 0) +
            ((g.arena.children x).map (fun ce =>
              costOf m g.arena ce.1 * ce.2.effective_quantity)).sum)))) =
        lv.map (fun x => (nodeD g.arena x).component_id) := by
      unfold keysA
      rw [List.map_map]
      rfl
    have hkeysnd : (keysA (lv.map (fun x => ((nodeD g.arena x).component_id,
        mkBreakdown (nodeD g.arena x).component_id
          ((match lookupA cdata (nodeD g.arena x).component_id with
            | some comp => comp.standard_cost.getD 0
            | none => 0) +
            ((g.arena.children x).map (fun ce =>
              costOf m g.arena ce.1 * ce.2.effective_quantity)).sum))))).Nodup := by
      rw [hkeys]
      refine List.Nodup.map_on ?_ (by rw [← hKget]; exact HBnd _ hKlen)
      intro x hx y hy hxy
      exact cid_inj hwf (HBv _ hKlen x (hKget ▸ hx)) (HBv _ hKlen y (hKget ▸ hy)) hxy
    have hfresh : ∀ s, (lookupA m s).isSome = true →
        s ∉ keysA (lv.map (fun x => ((nodeD g.arena x).component_id,
          mkBreakdown (nodeD g.arena x).component_id
            ((match lookupA cdata (nodeD g.arena x).component_id with
              | some comp => comp.standard_cost.getD 0
              | none => 0) +
              ((g.arena.children x).map (fun ce =>
                costOf m g.arena ce.1 * ce.2.effective_quantity)).sum)))) := by
      intro s hsome hmem
      rw [hkeys] at hmem
      obtain ⟨y, hy, hyc⟩ := List.mem_map.mp hmem
      obtain ⟨k, hk, hklt, x, hxmem, hxc⟩ := (hS1 s).mp hsome
      have hxy : x = y := cid_inj hwf (HBv k hk x hxmem) (HBv _ hKlen y (hKget ▸ hy))
        (by rw [hxc, hyc])
      have := HBdisj k hk doneB.length hKlen x hxmem (by
        rw [hxy, hKget]
        exact hy)
      omega
    have hpres : ∀ s, (lookupA m s).isSome = true →
        lookupA (extendA m (lv.map (fun x => ((nodeD g.arena x).component_id,
          mkBreakdown (nodeD g.arena x).component_id
            ((match lookupA cdata (nodeD g.arena x).component_id with
              | some comp => comp.standard_cost.getD 0
              | none => 0) +
              ((g.arena.children x).map (fun ce =>
                costOf m g.arena ce.1 * ce.2.effective_quantity)).sum))))) s =
        lookupA m s := by
      intro s hsome
      exact extendA_lookup_not_mem _ _ s (hfresh s hsome)
    have hsum : ∀ x, (∀ ce ∈ g.arena.children x,
        (lookupA m (nodeD g.arena ce.1).component_id).isSome = true) →
        ((g.arena.children x).map (fun ce =>
          costOf (extendA m (lv.map (fun x => ((nodeD g.arena x).component_id,
            mkBreakdown (nodeD g.arena x).component_id
              ((match lookupA cdata (nodeD g.arena x).component_id with
                | some comp => comp.standard_cost.getD 0
                | none => 0) +
                ((g.arena.children x).map (fun ce =>
                  costOf m g.arena ce.1 * ce.2.effective_quantity)).sum)))))
            g.arena ce.1 * ce.2.effective_quantity)).sum =
        ((g.arena.children x).map (fun ce =>
          costOf m g.arena ce.1 * ce.2.effective_quantity)).sum := by
      intro x hch
      refine congrArg List.sum (List.map_congr_left ?_)
      intro ce hce
      have hq := hpres _ (hch ce hce)
      unfold costOf at hq ⊢
      rw [hq]
    have hS1' : ∀ s, (lookupA (extendA m (lv.map (fun x => ((nodeD g.arena x).component_id,
        mkBreakdown (nodeD g.arena x).component_id
          ((match lookupA cdata (nodeD g.arena x).component_id with
            | some comp => comp.standard_cost.getD 0
            | none => 0) +
            ((g.arena.children x).map (fun ce =>
              costOf m g.arena ce.1 * ce.2.effective_quantity)).sum))))) s).isSome = true ↔
        ∃ k, ∃ hk : k < B.length, k < (doneB ++ [lv]).length ∧
          ∃ x ∈ B.get ⟨k, hk⟩, (nodeD g.arena x).component_id = s := by
      intro s
      rw [extendA_lookup_isSome, hS1 s, hkeys]
      constructor
      · intro h
        rcases h with ⟨k, hk, hklt, x, hxm, hxc⟩ | hmem
        · exact ⟨k, hk, by
            rw [List.length_append, List.length_singleton]
            omega, x, hxm, hxc⟩
        · obtain ⟨y, hy, hyc⟩ := List.mem_map.mp hmem
          refine ⟨doneB.length, hKlen, by
            rw [List.length_append, List.length_singleton]
            omega, y, ?_, hyc⟩
          rw [hKget]
          exact hy
      · intro ⟨k, hk, hklt, x, hxm, hxc⟩
        rw [List.length_append, List.length_singleton] at hklt
        by_cases hkK : k < doneB.length
        · exact Or.inl ⟨k, hk, hkK, x, hxm, hxc⟩
        · have hkeq : k = doneB.length := by omega
          subst hkeq
          right
          refine List.mem_map.mpr ⟨x, ?_, hxc⟩
          rw [← hKget]
          exact hxm
    have hS2' : ∀ k, ∀ hk : k < B.length, k < (doneB ++ [lv]).length →
        ∀ x ∈ B.get ⟨k, hk⟩,
        ∃ comp, lookupA cdata (nodeD g.arena x).component_id = some comp ∧
          lookupA (extendA m (lv.map (fun x => ((nodeD g.arena x).component_id,
            mkBreakdown (nodeD g.arena x).component_id
              ((match lookupA cdata (nodeD g.arena x).component_id with
                | some comp => comp.standard_cost.getD 0
                | none => 0) +
                ((g.arena.children x).map (fun ce =>
                  costOf m g.arena ce.1 * ce.2.effective_quantity)).sum)))))
            (nodeD g.arena x).component_id = some (mkBreakdown
            (nodeD g.arena x).component_id
            (comp.standard_cost.getD 0 +
              ((g.arena.children x).map (fun ce =>
                costOf (extendA m (lv.map (fun x => ((nodeD g.arena x).component_id,
                  mkBreakdown (nodeD g.arena x).component_id
                    ((match lookupA cdata (nodeD g.arena x).component_id with
                      | some comp => comp.standard_cost.getD 0
                      | none => 0) +
                      ((g.arena.children x).map (fun ce =>
                        costOf m g.arena ce.1 * ce.2.effective_quantity)).sum)))))
                  g.arena ce.1 * ce.2.effective_quantity)).sum)) := by
      intro k hk hklt x hxm
      rw [List.length_append, List.length_singleton] at hklt
      have hchx : ∀ ce ∈ g.arena.children x,
          (lookupA m (nodeD g.arena ce.1).component_id).isSome = true := by
        intro ce hce
        by_cases hkK : k < doneB.length
        · obtain ⟨k2, hk2, hlt2, hmem2⟩ := HBch k hk x hxm ce hce
          exact (hS1 _).mpr ⟨k2, hk2, by omega, ce.1, hmem2, rfl⟩
        · have hkeq : k = doneB.length := by omega
          subst hkeq
          exact hchildEntry x (hKget ▸ hxm) ce hce
      by_cases hkK : k < doneB.length
      · obtain ⟨comp, hcd, hlook⟩ := hS2 k hk hkK x hxm
        refine ⟨comp, hcd, ?_⟩
        rw [hsum x hchx]
        rw [hpres _ (by rw [hlook]; rfl)]
        exact hlook
      · have hkeq : k = doneB.length := by omega
        subst hkeq
        have hxlv : x ∈ lv := hKget ▸ hxm
        obtain ⟨comp, hcomp⟩ := Option.isSome_iff_exists.mp (HBc _ hk x hxm)
        refine ⟨comp, hcomp, ?_⟩
        rw [hsum x hchx]
        have hmem2 : ((nodeD g.arena x).component_id,
            mkBreakdown (nodeD g.arena x).component_id
              ((match lookupA cdata (nodeD g.arena x).component_id with
                | some comp => comp.standard_cost.getD 0
                | none => 0) +
                ((g.arena.children x).map (fun ce =>
                  costOf m g.arena ce.1 * ce.2.effective_quantity)).sum)) ∈
            lv.map (fun x => ((nodeD g.arena x).component_id,
              mkBreakdown (nodeD g.arena x).component_id
                ((match lookupA cdata (nodeD g.arena x).component_id with
                  | some comp => comp.standard_cost.getD 0
                  | none => 0) +
                  ((g.arena.children x).map (fun ce =>
                    costOf m g.arena ce.1 * ce.2.effective_quantity)).sum))) :=
          List.mem_map_of_mem _ hxlv
        rw [extendA_lookup_mem _ m hkeysnd hmem2]
        rw [show (match lookupA cdata (nodeD g.arena x).component_id with
            | some comp => comp.standard_cost.getD 0
            | none => 0) = comp.standard_cost.getD 0 from by rw [hcomp]]
    rw [List.foldl_cons]
    rw [hlc]
    exact ih (doneB ++ [lv]) _ (by rw [hsplit, List.append_assoc, List.singleton_append])
      hS1' hS2'

/-- C6: for every edge created by add_edge on a live graph, the stored
effective quantity is the BomItem quantity times one plus the scrap factor
with exact rational-decimal equality; a quantity of one with scrap one
twentieth gives twenty-one twentieths (1.05), and exploding the single-edge
scrap graph by one hundred yields the child total quantity one hundred five. -/
theorem C6_effective_quantity (a : Arena) (p c : Nat) (item : BomItem)
    (hwf : ArenaWF a) (hp : p < a.nodes.length) (hc : c < a.nodes.length) :
    item.effective_quantity = item.quantity * (1 + item.scrap_factor) ∧
    (a.add_edge p c item).2.edges =
      a.edges ++ [⟨p, c, item, item.quantity * (1 + item.scrap_factor)⟩] ∧
    itemScrap.effective_quantity = 21/20 ∧
    (explode graphS5 "P" 100).toOption.bind (fun r => itemQty r "C") = some 105 := by
  refine ⟨rfl, ?_, by norm_num [itemScrap, BomItem.effective_quantity], ?_⟩
  · rw [add_edge_eq hwf p c item]
    have hmono := (markDirty_mono ((addEdgeArena a p c item).inSum + 1)).1
      (addEdgeArena a p c item) p
    unfold Arena.mark_dirty_recursive
    rw [hmono.1, addEdgeArena_edges hwf hp hc item]
    rfl
  · have h : (explode graphS5 "P" 100).toOption.bind (fun r => itemQty r "C") =
        some (1 * (1 + 1/20) * 100) := rfl
    rw [h]
    norm_num

/-- Witness for C6: the hypotheses hold on the scrap-graph arena itself. -/
theorem C6_effective_quantity_witness :
    ArenaWF graphS5.arena ∧ 0 < graphS5.arena.nodes.length ∧
    (graphS5.arena.add_edge 0 1 itemScrap).2.edges =
      graphS5.arena.edges ++
        [⟨0, 1, itemScrap, itemScrap.quantity * (1 + itemScrap.scrap_factor)⟩] :=
  ⟨by decide, by decide,
    (C6_effective_quantity graphS5.arena 0 1 itemScrap (by decide) (by decide)
      (by decide)).2.1⟩

/-- C8: for a component id without a node in the graph, explode,
calculate_cost and the where-used analyze all return ComponentNotFound. -/
theorem C8_component_not_found (g : BomGraph) (repo : List Component)
    (cid : String) (q : Decimal) (h : g.find_node cid = none) :
    explode g cid q = .error (.ComponentNotFound cid) ∧
    calculate_cost g repo cid = .error (.ComponentNotFound cid) ∧
    analyze g cid = .error (.ComponentNotFound cid) := by
  refine ⟨?_, ?_, ?_⟩
  · unfold explode
    rw [h]
  · unfold calculate_cost
    rw [h]
  · unfold analyze
    rw [h]

/-- Witness for C8: the S1 graph has no node for Z, and the three engines
report ComponentNotFound on it. -/
theorem C8_component_not_found_witness :
    graphS1.find_node "Z" = none ∧
    (explode graphS1 "Z" 1 = .error (.ComponentNotFound "Z") ∧
     calculate_cost graphS1 repoS1 "Z" = .error (.ComponentNotFound "Z") ∧
     analyze graphS1 "Z" = .error (.ComponentNotFound "Z")) :=
  ⟨by decide, C8_component_not_found graphS1 repoS1 "Z" 1 (by decide)⟩

/-- Counterexample to C9 as stated: in the fork graph the adjacency list of
the root lists child 1 before child 2, yet the depth-first traversal visits 2
before 1 - Traversal::new reverses only the roots and Traversal::next pushes
children in adjacency order, so children are popped in reverse. -/
theorem C9_counterexample :
    (graphFork.arena.children 0).map (fun ce => ce.1) = [1, 2] ∧
    graphFork.arena.dfs_traversal [0] ≠ [0, 1, 2] ∧
    graphFork.arena.dfs_traversal [0] = [0, 2, 1] := by decide

/-- C9 amended: the depth-first traversal yields each node at most once and,
at every expansion step, pushes the not-yet-visited children of the popped
node in adjacency order onto the stack, so they land reversed at its head and
the last child is popped first; only the roots are seeded in reverse.  No
fixed per-node visiting order follows: in the fork graph the root's children
[1, 2] are visited reversed, while in the diamond graph the children [3, 4]
of node 1 are visited in forward adjacency order, node 3 being reached first
through the other subtree. -/
theorem C9_dfs_traversal :
    (∀ (a : Arena) (roots : List Nat), (a.dfs_traversal roots).Nodup) ∧
    (∀ (a : Arena) (fuel : Nat) (n : Nat) (rest visited : List Nat), n ∉ visited →
      dfsTraversalFuel a (fuel + 1) (n :: rest) visited =
        n :: dfsTraversalFuel a fuel
          ((((a.children n).map (fun ce => ce.1)).filter
            (fun c => decide (c ∉ n :: visited))).reverse ++ rest) (n :: visited)) ∧
    ((graphFork.arena.children 0).map (fun ce => ce.1) = [1, 2] ∧
      graphFork.arena.dfs_traversal [0] = [0, 2, 1]) ∧
    ((graphDiamond.arena.children 1).map (fun ce => ce.1) = [3, 4] ∧
      graphDiamond.arena.dfs_traversal [0] = [0, 2, 3, 1, 4]) := by
  refine ⟨?_, ?_, ⟨by decide, by decide⟩, ⟨by decide, by decide⟩⟩
  · intro a roots
    exact (dfsTraversalFuel_nodup a (roots.length + a.outSum + 1) roots []).1
  · intro a fuel n rest visited hnv
    simp only [dfsTraversalFuel, if_neg hnv]

/-- Counterexample to C4 as stated: flatten of the S1 chain root also maps the
root itself (to one), so the flatten map is not exactly the child map. -/
theorem C4_counterexample :
    ∃ m, flatten graphS1 "A" = .ok m ∧ (lookupA m "A").isSome = true :=
  ⟨_, rfl, rfl⟩

/-- C4 amended: flatten is explode at quantity one reduced to the component
to total-quantity map, and on the S1 chain flatten of the root is the map
sending A to 1, B to 2 and C to 6 (the root included). -/
theorem C4_flatten :
    (∀ (g : BomGraph) (cid : String),
      flatten g cid = (explode g cid 1).map
        (fun r => r.items.map (fun it => (it.component_id, it.total_quantity)))) ∧
    flatten graphS1 "A" = .ok [("A", 1), ("B", 2), ("C", 6)] := by
  constructor
  · intro g cid
    unfold flatten
    cases explode g cid 1 <;> rfl
  · have h : flatten graphS1 "A" =
        .ok [("A", 1), ("B", 2 * (1 + 0) * 1), ("C", 3 * (1 + 0) * (2 * (1 + 0) * 1))] := rfl
    rw [h]
    norm_num

/-- Counterexample to C7 as stated: in the two-component graph every node
reachable from A has its component in the Y-less repository, yet
calculate_cost on A fails with ComponentNotFound Y, because the batch load
requests the components of all arena nodes rather than the reachable ones. -/
theorem C7_counterexample :
    (∀ i, graphTwo.arena.Reaches 0 i →
      ∃ c ∈ repoNoY, c.id = (nodeD graphTwo.arena i).component_id) ∧
    graphTwo.find_node "A" = some 0 ∧
    calculate_cost graphTwo repoNoY "A" = .error (.ComponentNotFound "Y") := by
  refine ⟨?_, by decide, rfl⟩
  have hcl : ∀ e ∈ graphTwo.arena.edges, (e.source = 0 ∨ e.source = 1) →
      (e.target = 0 ∨ e.target = 1) := by
    intro e he hPs
    obtain ⟨j, hj, hE⟩ := mem_edges_exists_idx he
    have hlen : graphTwo.arena.edges.length = 2 := by decide
    rw [hlen] at hj
    have hj01 : j = 0 ∨ j = 1 := by omega
    rcases hj01 with hj0 | hj1
    · rw [← hE, hj0]
      right
      decide
    · exfalso
      rw [← hE, hj1] at hPs
      have hs : (edgeD graphTwo.arena 1).source = 2 := by decide
      rw [hs] at hPs
      rcases hPs with h | h <;> exact absurd h (by decide)
  intro i hreach
  have h01 : i = 0 ∨ i = 1 :=
    reachesE_closed (fun x => x = 0 ∨ x = 1) hcl hreach (Or.inl rfl)
  rcases h01 with h | h <;> rw [h] <;> decide

/-- C7 corrected: calculate_all_costs batch-loads the components of every
arena node (not only the reachable ones): it succeeds exactly when every
arena node has its component in the repository, and consequently
calculate_cost can fail for a component all of whose reachable components
are present, as the two-component graph with the Y-less repository shows. -/
theorem C7_batch_load :
    (∀ (g : BomGraph) (repo : List Component) (roots : List Nat),
      (∃ l, calculate_all_costs g repo roots = .ok l) ↔
        ∀ nd ∈ g.arena.nodes, ∃ c ∈ repo, c.id = nd.component_id) ∧
    calculate_cost graphTwo repoNoY "A" = .error (.ComponentNotFound "Y") := by
  refine ⟨?_, rfl⟩
  intro g repo roots
  unfold calculate_all_costs
  have hiff := getComponents_ok_iff repo (g.arena.nodes.map (fun n => n.component_id))
  constructor
  · intro ⟨l, hl⟩ nd hnd
    cases hg : getComponents repo (g.arena.nodes.map (fun n => n.component_id)) with
    | error e =>
      exfalso
      simp only [hg] at hl
      exact Except.noConfusion hl
    | ok comps =>
      exact hiff.mp ⟨comps, hg⟩ nd.component_id (List.mem_map_of_mem _ hnd)
  · intro hall
    obtain ⟨comps, hg⟩ := hiff.mpr (by
      intro s hs
      obtain ⟨nd, hnd, hid⟩ := List.mem_map.mp hs
      obtain ⟨c, hc, hcid⟩ := hall nd hnd
      exact ⟨c, hc, hid ▸ hcid⟩)
    exact ⟨_, by simp only [hg]; rfl⟩

/-- Witness for C5: on the fully cleaned S1 chain arena, marking C dirty
leaves the root A (an ancestor of C) dirty. -/
theorem C5_dirty_closure_witness :
    dirtyAt ((⟨graphS1.arena.clear_dirty_flags, graphS1.roots⟩ : BomGraph).mark_dirty "C").2.arena 0 = true := by
  have h := C5_dirty_closure.2.2.2.2 ⟨graphS1.arena.clear_dirty_flags, graphS1.roots⟩ "C" 2
    (by decide) (dirtyClosed_of_all_clean (by decide)) (by decide)
  exact h.2 0
    (ReachesE.step (edgeD graphS1.arena.clear_dirty_flags 0)
      (edgeD_mem (by decide)) (by decide)
      (ReachesE.step (edgeD graphS1.arena.clear_dirty_flags 1)
        (edgeD_mem (by decide)) (by decide)
        (ReachesE.refl 2 (by decide))))

/-- C2: on a well-formed acyclic graph every one of whose node component ids
resolves in the repository, calculate_all_costs rooted at node n succeeds,
and its cost map satisfies the rollup equation
material(i) = own_standard_cost(i) + sum over child edges of
material(child) times effective_quantity, for every node i reachable from n
(a missing standard cost counting as zero); moreover when n is dirty,
calculate_cost returns exactly the map entry of n. -/
theorem C2_cost_rollup (g : BomGraph) (repo : List Component) (n : Nat)
    (hwf : ArenaWF g.arena) (hacy : g.arena.Acyclic)
    (hn : n < g.arena.nodes.length)
    (hcomps : ∀ s ∈ g.arena.nodes.map (fun nd => nd.component_id),
      ∃ c ∈ repo, c.id = s) :
    ∃ m, calculate_all_costs g repo [n] = .ok m ∧
      (∀ i, g.arena.Reaches n i →
        costOf m g.arena i = ownCostOf repo g.arena i +
          ((g.arena.children i).map (fun ce =>
            costOf m g.arena ce.1 * ce.2.effective_quantity)).sum) ∧
      (dirtyAt g.arena n = true →
        ∃ bd, lookupA m (nodeD g.arena n).component_id = some bd ∧
          calculate_cost g repo (nodeD g.arena n).component_id = .ok bd ∧
          bd.total_cost = costOf m g.arena n) := by
  obtain ⟨comps, hok⟩ := (getComponents_ok_iff repo
    (g.arena.nodes.map (fun nd => nd.component_id))).mpr hcomps
  have hlook := componentData_lookup (nodesCids_nodup hwf) hok
  obtain ⟨hE1, hE2, hE3, hE4⟩ := level_grouping_spec hwf hacy hn
  obtain ⟨topo1, topo2, topo3⟩ := topo_correct hwf hacy hn
  have hBv : ∀ k, ∀ hk : k < (g.arena.level_grouping [n]).length,
      ∀ x ∈ (g.arena.level_grouping [n]).get ⟨k, hk⟩, x < g.arena.nodes.length := by
    intro k hk x hx
    have hxr : x ∈ g.arena.reachableFrom [n] := (topo2 x).mp (hE2 k hk x hx).1
    exact (reachableFrom_sound hwf hn x hxr).tgt_lt
  have hBc : ∀ k, ∀ hk : k < (g.arena.level_grouping [n]).length,
      ∀ x ∈ (g.arena.level_grouping [n]).get ⟨k, hk⟩,
      (lookupA (comps.map (fun c => (c.id, c)))
        (nodeD g.arena x).component_id).isSome = true := by
    intro k hk x hx
    have hxv := hBv k hk x hx
    have hmem : (nodeD g.arena x).component_id ∈
        g.arena.nodes.map (fun nd => nd.component_id) :=
      List.mem_map_of_mem _ (List.getElem?_mem (nodes_getElem?_eq_nodeD hxv))
    rw [hlook _ hmem, List.find?_isSome]
    obtain ⟨c, hc, hcid⟩ := hcomps _ hmem
    exact ⟨c, hc, by simp [hcid]⟩
  have hBch : ∀ k, ∀ hk : k < (g.arena.level_grouping [n]).length,
      ∀ x ∈ (g.arena.level_grouping [n]).get ⟨k, hk⟩,
      ∀ ce ∈ g.arena.children x, ∃ k', ∃ hk' : k' < (g.arena.level_grouping [n]).length,
        k' < k ∧ ce.1 ∈ (g.arena.level_grouping [n]).get ⟨k', hk'⟩ :=
    fun k hk x hx => (hE2 k hk x hx).2
  have hS1e : ∀ s : String,
      (lookupA ([] : List (String × CostBreakdown)) s).isSome = true ↔
      ∃ k, ∃ hk : k < (g.arena.level_grouping [n]).length,
        k < ([] : List (List Nat)).length ∧
        ∃ x ∈ (g.arena.level_grouping [n]).get ⟨k, hk⟩,
          (nodeD g.arena x).component_id = s := by
    intro s
    constructor
    · intro h
      exact absurd h (by simp [lookupA])
    · rintro ⟨k, hk, h0, -⟩
      exact absurd h0 (by simp)
  have hS2e : ∀ k, ∀ hk : k < (g.arena.level_grouping [n]).length,
      k < ([] : List (List Nat)).length →
      ∀ x ∈ (g.arena.level_grouping [n]).get ⟨k, hk⟩,
      ∃ comp, lookupA (comps.map (fun c => (c.id, c)))
          (nodeD g.arena x).component_id = some comp ∧
        lookupA ([] : List (String × CostBreakdown))
          (nodeD g.arena x).component_id = some (mkBreakdown
          (nodeD g.arena x).component_id
          (comp.standard_cost.getD 0 +
            ((g.arena.children x).map (fun ce =>
              costOf ([] : List (String × CostBreakdown)) g.arena ce.1 *
                ce.2.effective_quantity)).sum)) := by
    intro k hk h0
    exact absurd h0 (by simp)
  obtain ⟨HF1, HF2⟩ := costFold_spec g hwf (comps.map (fun c => (c.id, c)))
    (g.arena.level_grouping [n]) hBv hBc hBch hE3 hE4
    (g.arena.level_grouping [n]) [] [] (List.nil_append _).symm hS1e hS2e
  have hcac : calculate_all_costs g repo [n] = .ok
      ((g.arena.level_grouping [n]).foldl (fun cost_map level_nodes =>
        extendA cost_map (level_nodes.filterMap (fun node_idx =>
          match g.arena.nodes[node_idx]? with
          | none => none
          | some node =>
            match lookupA (comps.map (fun c => (c.id, c))) node.component_id with
            | none => none
            | some comp =>
              some (node.component_id, mkBreakdown node.component_id
                (comp.standard_cost.getD 0 +
                  ((g.arena.children node_idx).filterMap (fun ce =>
                    match g.arena.nodes[ce.1]? with
                    | none => none
                    | some child_node =>
                      (lookupA cost_map child_node.component_id).map
                        (fun bd => bd.total_cost * ce.2.effective_quantity))).sum))))) []) := by
    have h1 : calculate_all_costs g repo [n] =
        match getComponents repo (g.arena.nodes.map (fun nd => nd.component_id)) with
        | .error e => .error e
        | .ok components =>
          .ok ((g.arena.level_grouping [n]).foldl (fun cost_map level_nodes =>
            extendA cost_map (level_nodes.filterMap (fun node_idx =>
              match g.arena.nodes[node_idx]? with
              | none => none
              | some node =>
                match lookupA (components.map (fun c => (c.id, c))) node.component_id with
                | none => none
                | some comp =>
                  some (node.component_id, mkBreakdown node.component_id
                    (comp.standard_cost.getD 0 +
                      ((g.arena.children node_idx).filterMap (fun ce =>
                        match g.arena.nodes[ce.1]? with
                        | none => none
                        | some child_node =>
                          (lookupA cost_map child_node.component_id).map
                            (fun bd => bd.total_cost * ce.2.effective_quantity))).sum))))) []) := rfl
    rw [h1, hok]
  refine ⟨_, hcac, ?_, ?_⟩
  · intro i hri
    have hitopo : i ∈ g.arena.topological_sort [n] :=
      (topo2 i).mpr (reachableFrom_complete hwf i hri)
    obtain ⟨k, hk, hmem⟩ := hE1 i hitopo
    obtain ⟨comp, hcd, hlookM⟩ := HF2 k hk i hmem
    have hiv : i < g.arena.nodes.length := hBv k hk i hmem
    have hfind : repo.find? (fun c => c.id == (nodeD g.arena i).component_id) =
        some comp := by
      rw [← hlook _ (List.mem_map_of_mem _
        (List.getElem?_mem (nodes_getElem?_eq_nodeD hiv)))]
      exact hcd
    unfold costOf ownCostOf
    rw [hlookM, hfind]
    rfl
  · intro hdirty
    have hdn : (nodeD g.arena n).dirty = true := by
      unfold dirtyAt at hdirty
      rw [nodes_getElem?_eq_nodeD hn] at hdirty
      exact hdirty
    have hntopo : n ∈ g.arena.topological_sort [n] :=
      (topo2 n).mpr ((reachableFrom_props g.arena [n]).2.1 n (List.mem_singleton.mpr rfl))
    obtain ⟨k, hk, hmem⟩ := hE1 n hntopo
    obtain ⟨comp, hcd, hlookM⟩ := HF2 k hk n hmem
    refine ⟨_, hlookM, ?_, ?_⟩
    · have hfindnode : g.find_node (nodeD g.arena n).component_id = some n := by
        unfold BomGraph.find_node Arena.find_node
        exact hwf.indexOf n hn
      unfold calculate_cost
      rw [hfindnode]
      dsimp only
      rw [nodes_getElem?_eq_nodeD hn]
      dsimp only
      rw [hdn]
      rw [if_pos rfl]
      dsimp only
      rw [hcac]
      dsimp only
      rw [hlookM]
    · unfold costOf
      rw [hlookM]
      rfl

/-- Witness for C2: the rollup theorem instantiated at node A of the S1
chain graph with its repository. -/
theorem C2_cost_rollup_witness :
    ∃ m, calculate_all_costs graphS1 repoS1 [0] = .ok m ∧
      (∀ i, graphS1.arena.Reaches 0 i →
        costOf m graphS1.arena i = ownCostOf repoS1 graphS1.arena i +
          ((graphS1.arena.children i).map (fun ce =>
            costOf m graphS1.arena ce.1 * ce.2.effective_quantity)).sum) ∧
      (dirtyAt graphS1.arena 0 = true →
        ∃ bd, lookupA m (nodeD graphS1.arena 0).component_id = some bd ∧
          calculate_cost graphS1 repoS1 (nodeD graphS1.arena 0).component_id = .ok bd ∧
          bd.total_cost = costOf m graphS1.arena 0) :=
  C2_cost_rollup graphS1 repoS1 0 (by decide)
    (acyclic_of_rank graphS1.arena (fun i => 2 - i) (by decide))
    (by decide) (by decide)

/-! C1 support: acyclicity invariants of node and edge insertion, has_path
correctness, and soundness of the cycle detector. -/

theorem add_node_len_le {a : Arena} (hwf : ArenaWF a) (component_id : String) :
    a.nodes.length ≤ (a.add_node component_id).2.nodes.length := by
  cases h : lookupA a.component_index component_id with
  | some idx =>
    rw [add_node_existing h]
  | none =>
    rw [add_node_fresh hwf h]
    dsimp only
    rw [addNodeFreshArena_len]
    omega

theorem add_node_idx_lt {a : Arena} (hwf : ArenaWF a) (component_id : String) :
    (a.add_node component_id).1 < (a.add_node component_id).2.nodes.length := by
  cases h : lookupA a.component_index component_id with
  | some idx =>
    rw [add_node_existing h]
    exact (hwf.indexMem _ (lookupA_mem h)).1
  | none =>
    rw [add_node_fresh hwf h]
    dsimp only
    rw [addNodeFreshArena_len]
    omega

theorem add_node_acyclic {a : Arena} (hwf : ArenaWF a) (hacy : a.Acyclic)
    (component_id : String) : (a.add_node component_id).2.Acyclic := by
  cases h : lookupA a.component_index component_id with
  | some idx =>
    rw [add_node_existing h]
    exact hacy
  | none =>
    rw [add_node_fresh hwf h]
    intro e he hreach
    have he2 : e ∈ a.edges := by
      rw [addNodeFreshArena_edges] at he
      exact he
    unfold Arena.Reaches at hreach
    rw [addNodeFreshArena_edges, addNodeFreshArena_len] at hreach
    exact hacy e he2 (ReachesE.len_restrict (fun e3 he3 => hwf.edgeBounds e3 he3)
      ((hwf.edgeBounds e he2).2) hreach)

theorem ArenaMono.acyclic {a b : Arena} (h : ArenaMono a b) (hacy : a.Acyclic) :
    b.Acyclic := by
  intro e he
  rw [h.reaches_iff]
  exact hacy e (h.1 ▸ he)

theorem mark_dirty_recursive_mono (a : Arena) (n : Nat) :
    ArenaMono a (a.mark_dirty_recursive n) := by
  unfold Arena.mark_dirty_recursive
  exact (markDirty_mono (a.inSum + 1)).1 a n

theorem addEdgeArena_acyclic {a : Arena} (hwf : ArenaWF a) {p c : Nat}
    (hp : p < a.nodes.length) (hc : c < a.nodes.length) (hpc : p ≠ c)
    (hacy : a.Acyclic) (hnp : ¬ a.Reaches c p) (item : BomItem) :
    (addEdgeArena a p c item).Acyclic := by
  intro e he hreach
  rw [addEdgeArena_edges hwf hp hc item] at he
  unfold Arena.Reaches at hreach
  rw [addEdgeArena_edges hwf hp hc item, addEdgeArena_len hp hc hpc item] at hreach
  rcases List.mem_append.mp he with he2 | he2
  · rcases ReachesE.append_elim hreach with hA | ⟨hB1, hB2⟩
    · exact hacy e he2 hA
    · have hbounds := hwf.edgeBounds e he2
      exact hnp ((hB2.trans (ReachesE.single he2 hbounds.1 hbounds.2)).trans hB1)
  · have he0 : e = ⟨p, c, item, item.effective_quantity⟩ := by simpa using he2
    subst he0
    rcases ReachesE.append_elim hreach with hA | ⟨hB1, hB2⟩
    · exact hnp hA
    · exact hnp hB1

theorem replicate_getD_false (n i : Nat) :
    (List.replicate n false).getD i false = false := by
  rw [List.getD_eq_getElem?_getD, List.getElem?_replicate]
  by_cases hin : i < n
  · rw [if_pos hin]
    rfl
  · rw [if_neg hin]
    rfl

theorem phiVis_drop {a : Arena} {visited : List Bool} {node : Nat}
    (hn : node < a.nodes.length) (hvl : visited.length = a.nodes.length)
    (hflag : visited.getD node false = false) :
    phiVis a (visited.set node true) + ((nodeD a node).outgoing.length + 1) =
      phiVis a visited := by
  unfold phiVis
  refine filter_sum_drop (List.nodup_range _) (List.mem_range.mpr hn) ?_ ?_ ?_ _
  · rw [hflag]
    rfl
  · rw [List.getD_eq_getElem?_getD, List.getElem?_set_self (by rw [hvl]; exact hn)]
    rfl
  · intro i hi hne
    rw [List.getD_eq_getElem?_getD, List.getElem?_set_ne (fun h => hne h.symm),
      ← List.getD_eq_getElem?_getD]

theorem phiVis_replicate_le (a : Arena) (n : Nat) :
    phiVis a (List.replicate n false) ≤ a.outSum := by
  unfold phiVis
  rw [List.filter_eq_self.mpr (by
    intro x hx
    rw [replicate_getD_false]
    rfl)]
  have h2 := phiMem_nil_le a
  unfold phiMem at h2
  rw [List.filter_eq_self.mpr (by intro x hx; simp)] at h2
  exact h2

theorem hasPathFuel_sound {a : Arena} (hwf : ArenaWF a) {s t : Nat} :
    ∀ (fuel : Nat) (stack : List Nat) (visited : List Bool),
      (∀ x ∈ stack, a.Reaches s x) →
      hasPathFuel a t fuel stack visited = true →
      a.Reaches s t := by
  intro fuel
  induction fuel with
  | zero =>
    intro stack visited _ h
    exact absurd h (by simp [hasPathFuel])
  | succ fuel ih =>
    intro stack visited hstk h
    match stack with
    | [] =>
      exact absurd h (by simp [hasPathFuel])
    | current :: rest =>
      by_cases hct : current = t
      · exact hct ▸ hstk current (List.mem_cons_self _ _)
      · by_cases hflag : visited.getD current false = true
        · rw [show hasPathFuel a t (fuel+1) (current :: rest) visited =
              hasPathFuel a t fuel rest visited from by
              simp only [hasPathFuel, if_neg hct, if_pos hflag]] at h
          exact ih rest visited (fun x hx => hstk x (List.mem_cons_of_mem _ hx)) h
        · rw [show hasPathFuel a t (fuel+1) (current :: rest) visited =
              hasPathFuel a t fuel
                ((((a.children current).map (fun ce => ce.1)).filter
                  (fun c => !((visited.set current true).getD c false))).reverse ++ rest)
                (visited.set current true) from by
              simp only [hasPathFuel, if_neg hct, if_neg hflag]] at h
          refine ih _ _ ?_ h
          intro x hx
          rcases List.mem_append.mp hx with hx | hx
          · rw [List.mem_reverse] at hx
            obtain ⟨ce, hce, hcex⟩ := List.mem_map.mp (List.mem_filter.mp hx).1
            exact ReachesE.trans (hstk current (List.mem_cons_self _ _))
              (hcex ▸ reaches_of_children hwf
                (ReachesE.tgt_lt (hstk current (List.mem_cons_self _ _))) hce)
          · exact hstk x (List.mem_cons_of_mem _ hx)

theorem hasPathFuel_complete {a : Arena} (hwf : ArenaWF a) {t : Nat} :
    ∀ (fuel : Nat) (stack : List Nat) (visited : List Bool),
      visited.length = a.nodes.length →
      (∀ x ∈ stack, x < a.nodes.length) →
      fuel > stack.length + phiVis a visited →
      (∀ i, visited.getD i false = true →
        i ≠ t ∧ ∀ ce ∈ a.children i,
          (visited.getD ce.1 false = true ∨ ce.1 ∈ stack)) →
      hasPathFuel a t fuel stack visited = false →
      ∀ x, (x ∈ stack ∨ visited.getD x false = true) → ¬ a.Reaches x t := by
  intro fuel
  induction fuel with
  | zero =>
    intro stack visited _ _ hfuel
    exact absurd hfuel (Nat.not_lt_zero _)
  | succ fuel ih =>
    intro stack visited hvlen hstkb hfuel hinv hfalse x hx
    match stack with
    | [] =>
      rcases hx with hx | hx
      · exact absurd hx (List.not_mem_nil x)
      · intro hreach
        have hclosed : ∀ e ∈ a.edges, (fun y => visited.getD y false = true) e.source →
            (fun y => visited.getD y false = true) e.target := by
          intro e he hPs
          rcases (hinv e.source hPs).2 (e.target, e) (edge_mem_children hwf he) with h | h
          · exact h
          · exact absurd h (List.not_mem_nil _)
        have hvt := reachesE_closed (fun y => visited.getD y false = true)
          hclosed hreach hx
        exact (hinv t hvt).1 rfl
    | current :: rest =>
      have hcur : current < a.nodes.length := hstkb current (List.mem_cons_self _ _)
      by_cases hct : current = t
      · rw [show hasPathFuel a t (fuel+1) (current :: rest) visited = true from by
          simp only [hasPathFuel, if_pos hct]] at hfalse
        exact Bool.noConfusion hfalse
      · by_cases hflag : visited.getD current false = true
        · rw [show hasPathFuel a t (fuel+1) (current :: rest) visited =
              hasPathFuel a t fuel rest visited from by
              simp only [hasPathFuel, if_neg hct, if_pos hflag]] at hfalse
          have hinv2 : ∀ i, visited.getD i false = true →
              i ≠ t ∧ ∀ ce ∈ a.children i,
                (visited.getD ce.1 false = true ∨ ce.1 ∈ rest) := by
            intro i hi
            refine ⟨(hinv i hi).1, ?_⟩
            intro ce hce
            rcases (hinv i hi).2 ce hce with h | h
            · exact Or.inl h
            · rcases List.mem_cons.mp h with h | h
              · exact Or.inl (h ▸ hflag)
              · exact Or.inr h
          have hC := ih rest visited hvlen
            (fun y hy => hstkb y (List.mem_cons_of_mem _ hy))
            (by simp only [List.length_cons] at hfuel; omega) hinv2 hfalse
          rcases hx with hx | hx
          · rcases List.mem_cons.mp hx with hx | hx
            · exact hC x (Or.inr (hx ▸ hflag))
            · exact hC x (Or.inl hx)
          · exact hC x (Or.inr hx)
        · rw [show hasPathFuel a t (fuel+1) (current :: rest) visited =
              hasPathFuel a t fuel
                ((((a.children current).map (fun ce => ce.1)).filter
                  (fun c => !((visited.set current true).getD c false))).reverse ++ rest)
                (visited.set current true) from by
              simp only [hasPathFuel, if_neg hct, if_neg hflag]] at hfalse
          have hflagf : visited.getD current false = false := by
            cases hval : visited.getD current false
            · rfl
            · exact absurd hval hflag
          have hvlen2 : (visited.set current true).length = a.nodes.length := by
            rw [List.length_set]
            exact hvlen
          have hmono : ∀ j, visited.getD j false = true →
              (visited.set current true).getD j false = true := by
            intro j hj
            by_cases hjc : j = current
            · subst hjc
              exact absurd hj (by rw [hflagf]; exact Bool.noConfusion)
            · rw [List.getD_eq_getElem?_getD,
                List.getElem?_set_ne (fun h => hjc h.symm),
                ← List.getD_eq_getElem?_getD]
              exact hj
          have hcurset : (visited.set current true).getD current false = true := by
            rw [List.getD_eq_getElem?_getD,
              List.getElem?_set_self (by rw [hvlen]; exact hcur)]
            rfl
          have hstkb2 : ∀ y ∈ (((a.children current).map (fun ce => ce.1)).filter
              (fun c => !((visited.set current true).getD c false))).reverse ++ rest,
              y < a.nodes.length := by
            intro y hy
            rcases List.mem_append.mp hy with hy | hy
            · rw [List.mem_reverse] at hy
              obtain ⟨ce, hce, hcey⟩ := List.mem_map.mp (List.mem_filter.mp hy).1
              obtain ⟨he, hsrc, htgt⟩ := mem_children_edge hwf hcur
                (show ((ce.1, ce.2) : Nat × Edge) ∈ a.children current from hce)
              rw [← hcey, ← htgt]
              exact (hwf.edgeBounds _ he).2
            · exact hstkb y (List.mem_cons_of_mem _ hy)
          have hfuel2 : fuel > ((((a.children current).map (fun ce => ce.1)).filter
              (fun c => !((visited.set current true).getD c false))).reverse ++ rest).length +
              phiVis a (visited.set current true) := by
            have hdrop := phiVis_drop hcur hvlen hflagf
            have hplen : ((((a.children current).map (fun ce => ce.1)).filter
                (fun c => !((visited.set current true).getD c false))).reverse).length ≤
                (nodeD a current).outgoing.length := by
              rw [List.length_reverse]
              have h1 := List.length_filter_le
                (fun c => !((visited.set current true).getD c false))
                ((a.children current).map (fun ce => ce.1))
              rw [List.length_map] at h1
              exact le_trans h1 (children_len_le hcur)
            rw [List.length_append]
            simp only [List.length_cons] at hfuel
            omega
          have hinv2 : ∀ i, (visited.set current true).getD i false = true →
              i ≠ t ∧ ∀ ce ∈ a.children i,
                ((visited.set current true).getD ce.1 false = true ∨
                  ce.1 ∈ (((a.children current).map (fun ce => ce.1)).filter
                    (fun c => !((visited.set current true).getD c false))).reverse ++ rest) := by
            intro i hi
            by_cases hic : i = current
            · rw [hic]
              refine ⟨hct, ?_⟩
              intro ce hce
              by_cases hcv : (visited.set current true).getD ce.1 false = true
              · exact Or.inl hcv
              · refine Or.inr (List.mem_append.mpr (Or.inl ?_))
                rw [List.mem_reverse]
                refine List.mem_filter.mpr ⟨List.mem_map_of_mem _ hce, ?_⟩
                have hvfalse : (visited.set current true).getD ce.1 false = false := by
                  cases hval : (visited.set current true).getD ce.1 false
                  · rfl
                  · exact absurd hval hcv
                show (!((visited.set current true).getD ce.1 false)) = true
                rw [hvfalse]
                rfl
            · have hiold : visited.getD i false = true := by
                rw [List.getD_eq_getElem?_getD,
                  List.getElem?_set_ne (fun h => hic h.symm),
                  ← List.getD_eq_getElem?_getD] at hi
                exact hi
              refine ⟨(hinv i hiold).1, ?_⟩
              intro ce hce
              rcases (hinv i hiold).2 ce hce with h | h
              · exact Or.inl (hmono _ h)
              · rcases List.mem_cons.mp h with h | h
                · exact Or.inl (h ▸ hcurset)
                · exact Or.inr (List.mem_append.mpr (Or.inr h))
          have hC := ih _ _ hvlen2 hstkb2 hfuel2 hinv2 hfalse
          rcases hx with hx | hx
          · rcases List.mem_cons.mp hx with hx | hx
            · exact hC x (Or.inr (hx ▸ hcurset))
            · exact hC x (Or.inl (List.mem_append.mpr (Or.inr hx)))
          · exact hC x (Or.inr (hmono _ hx))

theorem has_path_iff {a : Arena} (hwf : ArenaWF a) {s t : Nat}
    (hs : s < a.nodes.length) :
    a.has_path s t = true ↔ a.Reaches s t := by
  constructor
  · intro h
    exact hasPathFuel_sound hwf _ _ _
      (by
        intro x hx
        rw [List.mem_singleton.mp hx]
        exact ReachesE.refl s hs) h
  · intro h
    by_contra hne
    have hfalse : a.has_path s t = false := by
      cases hval : a.has_path s t
      · rfl
      · exact absurd hval hne
    unfold Arena.has_path at hfalse
    refine hasPathFuel_complete hwf _ _ _ (by simp)
      (by
        intro x hx
        rw [List.mem_singleton.mp hx]
        exact hs)
      ?_
      (by
        intro i hi
        exact absurd hi (by rw [replicate_getD_false]; exact Bool.noConfusion))
      hfalse s (Or.inl (List.mem_singleton.mpr rfl)) h
    have := phiVis_replicate_le a a.nodes.length
    simp only [List.length_singleton]
    omega

set_option maxHeartbeats 1000000 in
theorem add_bom_item_spec (g : BomGraph) (item : BomItem)
    (hwf : ArenaWF g.arena) (hacy : g.arena.Acyclic) :
    ArenaWF (g.add_bom_item item).2.arena ∧
    (g.add_bom_item item).2.arena.Acyclic ∧
    ((∃ msg, (g.add_bom_item item).1 = .error (.CircularDependency msg)) ∨
      (∃ idx, (g.add_bom_item item).1 = .ok idx)) ∧
    ((∃ msg, (g.add_bom_item item).1 = .error (.CircularDependency msg)) ↔
      ((g.arena.add_node item.parent_id).1 =
          ((g.arena.add_node item.parent_id).2.add_node item.child_id).1 ∨
        ((g.arena.add_node item.parent_id).2.add_node item.child_id).2.Reaches
          ((g.arena.add_node item.parent_id).2.add_node item.child_id).1
          (g.arena.add_node item.parent_id).1)) := by
  have hwf1 : ArenaWF (g.arena.add_node item.parent_id).2 := add_node_wf hwf _
  have hacy1 := add_node_acyclic hwf hacy item.parent_id
  have hwf2 : ArenaWF ((g.arena.add_node item.parent_id).2.add_node item.child_id).2 :=
    add_node_wf hwf1 _
  have hacy2 := add_node_acyclic hwf1 hacy1 item.child_id
  have hp1 : (g.arena.add_node item.parent_id).1 <
      (g.arena.add_node item.parent_id).2.nodes.length := add_node_idx_lt hwf _
  have hp2 : (g.arena.add_node item.parent_id).1 <
      ((g.arena.add_node item.parent_id).2.add_node item.child_id).2.nodes.length :=
    lt_of_lt_of_le hp1 (add_node_len_le hwf1 _)
  have hc2 : ((g.arena.add_node item.parent_id).2.add_node item.child_id).1 <
      ((g.arena.add_node item.parent_id).2.add_node item.child_id).2.nodes.length :=
    add_node_idx_lt hwf1 _
  by_cases hpc : (g.arena.add_node item.parent_id).1 =
      ((g.arena.add_node item.parent_id).2.add_node item.child_id).1
  · have heq : g.add_bom_item item =
        (.error (.CircularDependency ("Self-reference detected: " ++ item.parent_id)),
         { g with arena := ((g.arena.add_node item.parent_id).2.add_node item.child_id).2 }) := by
      simp only [BomGraph.add_bom_item]
      rw [if_pos hpc]
    rw [heq]
    refine ⟨hwf2, hacy2, Or.inl ⟨_, rfl⟩, ?_⟩
    constructor
    · intro _
      exact Or.inl hpc
    · intro _
      exact ⟨_, rfl⟩
  · by_cases hpath : ((g.arena.add_node item.parent_id).2.add_node item.child_id).2.has_path
        ((g.arena.add_node item.parent_id).2.add_node item.child_id).1
        (g.arena.add_node item.parent_id).1 = true
    · have heq : g.add_bom_item item =
          (.error (.CircularDependency ("Circular dependency: " ++ item.parent_id ++ " -> "
              ++ item.child_id ++ " would create a cycle")),
           { g with arena := ((g.arena.add_node item.parent_id).2.add_node item.child_id).2 }) := by
        simp only [BomGraph.add_bom_item]
        rw [if_neg hpc, if_pos hpath]
      rw [heq]
      refine ⟨hwf2, hacy2, Or.inl ⟨_, rfl⟩, ?_⟩
      constructor
      · intro _
        exact Or.inr ((has_path_iff hwf2 hc2).mp hpath)
      · intro _
        exact ⟨_, rfl⟩
    · have hnp : ¬ ((g.arena.add_node item.parent_id).2.add_node item.child_id).2.Reaches
          ((g.arena.add_node item.parent_id).2.add_node item.child_id).1
          (g.arena.add_node item.parent_id).1 :=
        fun hr => hpath ((has_path_iff hwf2 hc2).mpr hr)
      have heq : g.add_bom_item item =
          (.ok (g.arena.add_node item.parent_id).1,
           { g with arena := (((g.arena.add_node item.parent_id).2.add_node
              item.child_id).2.add_edge (g.arena.add_node item.parent_id).1
              ((g.arena.add_node item.parent_id).2.add_node item.child_id).1 item).2 }) := by
        simp only [BomGraph.add_bom_item]
        rw [if_neg hpc, if_neg hpath]
      rw [heq]
      have hedge := add_edge_eq hwf2 (g.arena.add_node item.parent_id).1
        ((g.arena.add_node item.parent_id).2.add_node item.child_id).1 item
      refine ⟨?_, ?_, Or.inr ⟨_, rfl⟩, ?_⟩
      · show ArenaWF (((g.arena.add_node item.parent_id).2.add_node
            item.child_id).2.add_edge (g.arena.add_node item.parent_id).1
            ((g.arena.add_node item.parent_id).2.add_node item.child_id).1 item).2
        rw [hedge]
        exact (mark_dirty_recursive_mono _ _).wf (addEdgeArena_wf hwf2 hp2 hc2 hpc item)
      · show Arena.Acyclic (((g.arena.add_node item.parent_id).2.add_node
            item.child_id).2.add_edge (g.arena.add_node item.parent_id).1
            ((g.arena.add_node item.parent_id).2.add_node item.child_id).1 item).2
        rw [hedge]
        exact (mark_dirty_recursive_mono _ _).acyclic
          (addEdgeArena_acyclic hwf2 hp2 hc2 hpc hacy2 hnp item)
      · constructor
        · intro ⟨msg, hmsg⟩
          exact Except.noConfusion hmsg
        · intro h
          rcases h with h | h
          · exact absurd h hpc
          · exact absurd h hnp

theorem applyBomItems_inv : ∀ (items : List BomItem) (g : BomGraph),
    ArenaWF g.arena → g.arena.Acyclic →
    ArenaWF (applyBomItems g items).arena ∧ (applyBomItems g items).arena.Acyclic := by
  intro items
  induction items with
  | nil =>
    intro g hwf hacy
    exact ⟨hwf, hacy⟩
  | cons item rest ih =>
    intro g hwf hacy
    have hstep : applyBomItems g (item :: rest) =
        applyBomItems (g.add_bom_item item).2 rest := rfl
    rw [hstep]
    obtain ⟨h1, h2, -, -⟩ := add_bom_item_spec g item hwf hacy
    exact ih _ h1 h2

theorem new_graph_wf : ArenaWF BomGraph.new.arena := by decide

theorem new_graph_acyclic : BomGraph.new.arena.Acyclic :=
  fun e he => absurd he (List.not_mem_nil e)

theorem phiMem_le_outSum (a : Arena) (visited : List Nat) :
    phiMem a visited ≤ a.outSum := by
  have h1 : phiMem a visited ≤ phiMem a [] := by
    unfold phiMem
    refine List.Sublist.sum_le_sum (List.Sublist.map _ ?_) (fun x _ => Nat.zero_le x)
    rw [List.filter_eq_self.mpr (show ∀ x ∈ List.range a.nodes.length,
        decide (x ∉ ([] : List Nat)) = true from by intro x hx; simp)]
    exact List.filter_sublist _
  exact le_trans h1 (phiMem_nil_le a)

theorem dfsCycle_acyclic {a : Arena} (hwf : ArenaWF a) (hacy : a.Acyclic) :
    ∀ fuel : Nat,
      (∀ n visited stk, n < a.nodes.length → n ∉ visited →
        (∀ x ∈ visited, x < a.nodes.length) →
        fuel ≥ phiMem a visited →
        (∀ x ∈ stk, a.Reaches x n) →
        (dfsCycleFuel fuel a n visited stk).1 = false ∧
        (∀ x, x ∈ visited ∨ x = n → x ∈ (dfsCycleFuel fuel a n visited stk).2) ∧
        (∀ x ∈ (dfsCycleFuel fuel a n visited stk).2, x < a.nodes.length) ∧
        phiMem a (dfsCycleFuel fuel a n visited stk).2 ≤ phiMem a (n :: visited)) ∧
      (∀ kids n visited stk0, n < a.nodes.length →
        (∀ x ∈ visited, x < a.nodes.length) →
        (∀ q ∈ kids, q ∈ a.children n) →
        fuel ≥ phiMem a visited + kids.length →
        (∀ x ∈ n :: stk0, a.Reaches x n) →
        (dfsCycleKids fuel a kids visited (n :: stk0)).1 = false ∧
        (∀ x ∈ visited, x ∈ (dfsCycleKids fuel a kids visited (n :: stk0)).2) ∧
        (∀ x ∈ (dfsCycleKids fuel a kids visited (n :: stk0)).2, x < a.nodes.length) ∧
        phiMem a (dfsCycleKids fuel a kids visited (n :: stk0)).2 ≤ phiMem a visited) := by
  intro fuel
  induction fuel with
  | zero =>
    constructor
    · intro n visited stk hn hnv hvb hfuel hstk
      exfalso
      have := phiMem_drop hn hnv
      omega
    · intro kids n visited stk0 hn hvb hkids hfuel hstk
      match kids with
      | [] =>
        exact ⟨rfl, fun x hx => hx, hvb, le_refl _⟩
      | q :: ks =>
        exfalso
        simp only [List.length_cons] at hfuel
        omega
  | succ fuel ih =>
    constructor
    · intro n visited stk hn hnv hvb hfuel hstk
      rw [show dfsCycleFuel (fuel+1) a n visited stk =
          dfsCycleKids fuel a (a.children n) (n :: visited) (n :: stk) from rfl]
      have hdrop := phiMem_drop hn hnv
      have hclen := children_len_le hn
      obtain ⟨k1, k2, k3, k4⟩ := ih.2 (a.children n) n (n :: visited) stk hn
        (by
          intro x hx
          rcases List.mem_cons.mp hx with hx | hx
          · exact hx ▸ hn
          · exact hvb x hx)
        (fun q hq => hq)
        (by omega)
        (by
          intro x hx
          rcases List.mem_cons.mp hx with hx | hx
          · exact hx ▸ ReachesE.refl n hn
          · exact hstk x hx)
      refine ⟨k1, ?_, k3, ?_⟩
      · intro x hx
        rcases hx with hx | hx
        · exact k2 x (List.mem_cons_of_mem _ hx)
        · exact k2 x (hx ▸ List.mem_cons_self _ _)
      · exact le_trans k4 (by omega)
    · intro kids n visited stk0 hn hvb hkids hfuel hstk
      match kids with
      | [] =>
        exact ⟨rfl, fun x hx => hx, hvb, le_refl _⟩
      | (c, e) :: rest =>
        have hce : ((c, e) : Nat × Edge) ∈ a.children n := hkids _ (List.mem_cons_self _ _)
        obtain ⟨hemem, hesrc, hetgt⟩ := mem_children_edge hwf hn hce
        have hclt : c < a.nodes.length := by
          rw [← hetgt]
          exact (hwf.edgeBounds _ hemem).2
        by_cases hcv : c ∉ visited
        · have hdropc := phiMem_drop hclt hcv
          simp only [List.length_cons] at hfuel
          obtain ⟨n1, n2, n3, n4⟩ := ih.1 c visited (n :: stk0) hclt hcv hvb
            (by omega)
            (by
              intro x hx
              exact ReachesE.trans (hstk x hx) (reaches_of_children hwf hn hce))
          rw [show dfsCycleKids (fuel+1) a ((c, e) :: rest) visited (n :: stk0) =
              dfsCycleKids fuel a rest (dfsCycleFuel fuel a c visited (n :: stk0)).2
                (n :: stk0) from by
            simp only [dfsCycleKids, if_pos hcv]
            rw [show dfsCycleFuel fuel a c visited (n :: stk0) =
                (false, (dfsCycleFuel fuel a c visited (n :: stk0)).2) from by
              rw [← n1]]]
          obtain ⟨m1, m2, m3, m4⟩ := ih.2 rest n
            (dfsCycleFuel fuel a c visited (n :: stk0)).2 stk0 hn n3
            (fun q hq => hkids q (List.mem_cons_of_mem _ hq))
            (by omega) hstk
          refine ⟨m1, ?_, m3, ?_⟩
          · intro x hx
            exact m2 x (n2 x (Or.inl hx))
          · omega
        · by_cases hcs : c ∈ n :: stk0
          · exfalso
            refine hacy e hemem ?_
            rw [hesrc, hetgt]
            exact hstk c hcs
          · rw [show dfsCycleKids (fuel+1) a ((c, e) :: rest) visited (n :: stk0) =
                dfsCycleKids fuel a rest visited (n :: stk0) from by
              simp only [dfsCycleKids, if_neg hcv, if_neg hcs]]
            simp only [List.length_cons] at hfuel
            exact ih.2 rest n visited stk0 hn hvb
              (fun q hq => hkids q (List.mem_cons_of_mem _ hq)) (by omega) hstk

theorem hasCycleLoop_false {a : Arena} (hwf : ArenaWF a) (hacy : a.Acyclic) :
    ∀ (ns : List Nat) (visited : List Nat),
      (∀ x ∈ visited, x < a.nodes.length) →
      (∀ x ∈ ns, x < a.nodes.length) →
      hasCycleLoop a ns visited = false := by
  intro ns
  induction ns with
  | nil =>
    intro visited _ _
    rfl
  | cons n rest ih =>
    intro visited hvb hnsb
    by_cases hmem : n ∉ visited
    · obtain ⟨h1, h2, h3, h4⟩ := (dfsCycle_acyclic hwf hacy (a.outSum + 1)).1 n visited []
        (hnsb n (List.mem_cons_self _ _)) hmem hvb
        (by
          have := phiMem_le_outSum a visited
          omega)
        (fun x hx => absurd hx (List.not_mem_nil x))
      rw [show hasCycleLoop a (n :: rest) visited =
          hasCycleLoop a rest (dfsCycleFuel (a.outSum + 1) a n visited []).2 from by
        simp only [hasCycleLoop, if_pos hmem]
        rw [show dfsCycleFuel (a.outSum + 1) a n visited [] =
            (false, (dfsCycleFuel (a.outSum + 1) a n visited []).2) from by rw [← h1]]]
      exact ih _ h3 (fun x hx => hnsb x (List.mem_cons_of_mem _ hx))
    · rw [show hasCycleLoop a (n :: rest) visited = hasCycleLoop a rest visited from by
        simp only [hasCycleLoop, if_neg hmem]]
      exact ih visited hvb (fun x hx => hnsb x (List.mem_cons_of_mem _ hx))

theorem acyclic_has_cycle_false {a : Arena} (hwf : ArenaWF a) (hacy : a.Acyclic) :
    a.has_cycle = false := by
  unfold Arena.has_cycle
  exact hasCycleLoop_false hwf hacy (List.range a.nodes.length) []
    (fun x hx => absurd hx (List.not_mem_nil x))
    (fun x hx => List.mem_range.mp hx)

/-- C1: every add_bom_item insertion on a well-formed acyclic graph either
fails with CircularDependency - and it fails exactly when the parent and the
child resolve to the same node, or a path from the child node to the parent
node already exists - or succeeds; and the graph built by any sequence of
insertions starting from the empty graph is well-formed and acyclic, so the
three-color DFS cycle check reports no cycle on it. -/
theorem C1_insertion_acyclicity :
    (∀ items : List BomItem,
      ArenaWF (applyBomItems BomGraph.new items).arena ∧
      (applyBomItems BomGraph.new items).arena.Acyclic ∧
      (applyBomItems BomGraph.new items).arena.has_cycle = false) ∧
    (∀ (g : BomGraph) (item : BomItem), ArenaWF g.arena → g.arena.Acyclic →
      ((∃ msg, (g.add_bom_item item).1 = .error (.CircularDependency msg)) ∨
        (∃ idx, (g.add_bom_item item).1 = .ok idx)) ∧
      ((∃ msg, (g.add_bom_item item).1 = .error (.CircularDependency msg)) ↔
        ((g.arena.add_node item.parent_id).1 =
            ((g.arena.add_node item.parent_id).2.add_node item.child_id).1 ∨
          ((g.arena.add_node item.parent_id).2.add_node item.child_id).2.Reaches
            ((g.arena.add_node item.parent_id).2.add_node item.child_id).1
            (g.arena.add_node item.parent_id).1))) := by
  constructor
  · intro items
    obtain ⟨h1, h2⟩ := applyBomItems_inv items BomGraph.new new_graph_wf new_graph_acyclic
    exact ⟨h1, h2, acyclic_has_cycle_false h1 h2⟩
  · intro g item hwf hacy
    obtain ⟨-, -, h3, h4⟩ := add_bom_item_spec g item hwf hacy
    exact ⟨h3, h4⟩

end NexusBom
